import Mathlib

/-!
# Stick: template parser and auto-escape visitor

A shallow embedding of `escape.go` (the auto-escape visitor of package `stick`)
and of `parse/parse.go` (the recursive-descent parser over a token buffer),
followed by theorems about them.

Conventions of the embedding:

* A Go `string` is a Lean `String`; byte offsets and character offsets agree on
  the inputs considered because the only bytes the code searches for (`.` and the
  suffix `.twig`) are ASCII, which never occur inside a multi-byte UTF-8 sequence.
* A Go slice is a `List` in the same order (`append` adds at the end).
* A Go `panic` and a failed slice-bounds check are explicit results, never
  exceptions of the meta-language.
* Loops and recursion of the parser are bounded by a `fuel` argument; running out
  of fuel is a result of its own (`Res.outOfFuel`), distinct from every result
  the Go code can produce.
-/

namespace Stick

/-! ## Strings (Go package `strings`) -/

/-- Go `strings.HasSuffix(s, suffix)`:
`len(s) >= len(suffix) && s[len(s)-len(suffix):] == suffix`. -/
def HasSuffix (s suffix : String) : Bool :=
  decide (s.length ≥ suffix.length) && (s.data.drop (s.length - suffix.length) == suffix.data)

/-- Go `strings.TrimSuffix(s, suffix)`: `s[:len(s)-len(suffix)]` when `s` ends in
`suffix`, else `s` unchanged. At most one occurrence is removed. -/
def TrimSuffix (s suffix : String) : String :=
  if HasSuffix s suffix then String.mk (s.data.take (s.length - suffix.length)) else s

/-- The loop of Go `strings.LastIndexByte`:
`for i := len(s) - 1; i >= 0; i-- { if s[i] == c { return i } }; return -1`.
The argument `n` is `i + 1`. -/
def lastIndexLoop (s : List Char) (c : Char) : Nat → Int
  | 0 => -1
  | i + 1 => if s.get? i = some c then (i : Int) else lastIndexLoop s c i

/-- Go `strings.LastIndex(s, substr)` for a one-byte `substr` (the only use in
`escape.go` is `strings.LastIndex(name, ".")`): the index of the last occurrence,
or `-1` when there is none. -/
def LastIndex (s : String) (c : Char) : Int :=
  lastIndexLoop s.data c s.length

/-! ## The AST (package `parse`) -/

/-- Modelled from the spec: the declarations of the expression variants are not
part of the sources at hand. `NameExpr`, `StringExpr` and `FilterExpr` of the
data model, each with the source position that `Start()` reports
(`escape.go` calls `v.Start()` on an arbitrary expression and passes a position
to `NewStringExpr` and `NewFilterExpr`). -/
inductive Expr where
  | name (name : String) (pos : Nat)
  | string (text : String) (pos : Nat)
  | filter (name : String) (args : List Expr) (pos : Nat)

mutual
/-- Decidable equality of expressions, by structural comparison. -/
def Expr.decEq : (a b : Expr) → Decidable (a = b)
  | .name n p, .name n1 p1 =>
    if h : n = n1 ∧ p = p1 then isTrue (by rw [h.1, h.2])
    else isFalse (fun e => h (by cases e; exact ⟨rfl, rfl⟩))
  | .string s p, .string s1 p1 =>
    if h : s = s1 ∧ p = p1 then isTrue (by rw [h.1, h.2])
    else isFalse (fun e => h (by cases e; exact ⟨rfl, rfl⟩))
  | .filter n as p, .filter n1 as1 p1 =>
    match Expr.decEqList as as1 with
    | isTrue h1 =>
      if h : n = n1 ∧ p = p1 then isTrue (by rw [h1, h.1, h.2])
      else isFalse (fun e => h (by cases e; exact ⟨rfl, rfl⟩))
    | isFalse h1 => isFalse (fun e => h1 (by cases e; rfl))
  | .name _ _, .string _ _ => isFalse nofun
  | .name _ _, .filter _ _ _ => isFalse nofun
  | .string _ _, .name _ _ => isFalse nofun
  | .string _ _, .filter _ _ _ => isFalse nofun
  | .filter _ _ _, .name _ _ => isFalse nofun
  | .filter _ _ _, .string _ _ => isFalse nofun
/-- Decidable equality of argument lists. -/
def Expr.decEqList : (as bs : List Expr) → Decidable (as = bs)
  | [], [] => isTrue rfl
  | a :: as, b :: bs =>
    match Expr.decEq a b, Expr.decEqList as bs with
    | isTrue h1, isTrue h2 => isTrue (by rw [h1, h2])
    | isFalse h1, _ => isFalse (fun e => h1 (by cases e; rfl))
    | _, isFalse h2 => isFalse (fun e => h2 (by cases e; rfl))
  | [], _ :: _ => isFalse nofun
  | _ :: _, [] => isFalse nofun
end

instance : DecidableEq Expr := Expr.decEq

/-- Modelled from the spec: `Expr.Start()`, the source position of an expression. -/
def Expr.Start : Expr → Nat
  | .name _ p => p
  | .string _ p => p
  | .filter _ _ p => p

/-- Modelled from the spec: `parse.NewStringExpr(text, pos)`. -/
def NewStringExpr (text : String) (pos : Nat) : Expr := Expr.string text pos

/-- Modelled from the spec: `parse.NewFilterExpr(name, args, pos)`. -/
def NewFilterExpr (name : String) (args : List Expr) (pos : Nat) : Expr :=
  Expr.filter name args pos

/-- Modelled from the spec: `newNameExpr(name)` of `parse.go`, which is given no
position; the field keeps Go's zero value. -/
def newNameExpr (name : String) : Expr := Expr.name name 0

/-- Modelled from the spec: `newStringExpr(value)` of `parse.go`, which is given
no position; the field keeps Go's zero value. -/
def newStringExpr (value : String) : Expr := Expr.string value 0

mutual
/-- Modelled from the spec: the module node, `ModuleNode{origin name, ordered
child list}`. `parse.go` holds it by pointer (`*moduleNode`). -/
inductive ModuleNode where
  | mk (Origin : String) (nodes : List Node)
/-- Modelled from the spec: a value of the `Node` interface. `nil` is the nil
interface value, which `parse()` returns at end-of-input and `parseTag()` for an
unrecognized tag. A block holds its name, its body module and the `Origin` that
`escape.go` reads; an if-node holds its condition, its body module and its
else-module, a nil pointer (`none`) when there is no else-branch. -/
inductive Node where
  | nil
  | text (value : String) (pos : Nat)
  | print (X : Expr) (pos : Nat)
  | module (m : ModuleNode)
  | block (name : Expr) (body : ModuleNode) (Origin : String) (pos : Nat)
  | ifn (cond : Expr) (body : ModuleNode) (els : Option ModuleNode) (pos : Nat)
end

mutual
/-- Decidable equality of nodes, by structural comparison. -/
def Node.decEq : (a b : Node) → Decidable (a = b)
  | .nil, .nil => isTrue rfl
  | .text v p, .text v1 p1 =>
    if h : v = v1 ∧ p = p1 then isTrue (by rw [h.1, h.2])
    else isFalse (fun e => h (by cases e; exact ⟨rfl, rfl⟩))
  | .print x p, .print x1 p1 =>
    if h : x = x1 ∧ p = p1 then isTrue (by rw [h.1, h.2])
    else isFalse (fun e => h (by cases e; exact ⟨rfl, rfl⟩))
  | .module m, .module m1 =>
    match ModuleNode.decEq m m1 with
    | isTrue h => isTrue (by rw [h])
    | isFalse h => isFalse (fun e => h (by cases e; rfl))
  | .block n b o p, .block n1 b1 o1 p1 =>
    match ModuleNode.decEq b b1 with
    | isTrue h1 =>
      if h : n = n1 ∧ o = o1 ∧ p = p1 then isTrue (by rw [h1, h.1, h.2.1, h.2.2])
      else isFalse (fun e => h (by cases e; exact ⟨rfl, rfl, rfl⟩))
    | isFalse h1 => isFalse (fun e => h1 (by cases e; rfl))
  | .ifn c b e p, .ifn c1 b1 e1 p1 =>
    match ModuleNode.decEq b b1, ModuleNode.decEqElse e e1 with
    | isTrue h1, isTrue h2 =>
      if h : c = c1 ∧ p = p1 then isTrue (by rw [h1, h2, h.1, h.2])
      else isFalse (fun e => h (by cases e; exact ⟨rfl, rfl⟩))
    | isFalse h1, _ => isFalse (fun e => h1 (by cases e; rfl))
    | _, isFalse h2 => isFalse (fun e => h2 (by cases e; rfl))
  | .nil, .text _ _ => isFalse nofun
  | .nil, .print _ _ => isFalse nofun
  | .nil, .module _ => isFalse nofun
  | .nil, .block _ _ _ _ => isFalse nofun
  | .nil, .ifn _ _ _ _ => isFalse nofun
  | .text _ _, .nil => isFalse nofun
  | .text _ _, .print _ _ => isFalse nofun
  | .text _ _, .module _ => isFalse nofun
  | .text _ _, .block _ _ _ _ => isFalse nofun
  | .text _ _, .ifn _ _ _ _ => isFalse nofun
  | .print _ _, .nil => isFalse nofun
  | .print _ _, .text _ _ => isFalse nofun
  | .print _ _, .module _ => isFalse nofun
  | .print _ _, .block _ _ _ _ => isFalse nofun
  | .print _ _, .ifn _ _ _ _ => isFalse nofun
  | .module _, .nil => isFalse nofun
  | .module _, .text _ _ => isFalse nofun
  | .module _, .print _ _ => isFalse nofun
  | .module _, .block _ _ _ _ => isFalse nofun
  | .module _, .ifn _ _ _ _ => isFalse nofun
  | .block _ _ _ _, .nil => isFalse nofun
  | .block _ _ _ _, .text _ _ => isFalse nofun
  | .block _ _ _ _, .print _ _ => isFalse nofun
  | .block _ _ _ _, .module _ => isFalse nofun
  | .block _ _ _ _, .ifn _ _ _ _ => isFalse nofun
  | .ifn _ _ _ _, .nil => isFalse nofun
  | .ifn _ _ _ _, .text _ _ => isFalse nofun
  | .ifn _ _ _ _, .print _ _ => isFalse nofun
  | .ifn _ _ _ _, .module _ => isFalse nofun
  | .ifn _ _ _ _, .block _ _ _ _ => isFalse nofun
/-- Decidable equality of module nodes. -/
def ModuleNode.decEq : (a b : ModuleNode) → Decidable (a = b)
  | .mk o ns, .mk o1 ns1 =>
    match Node.decEqList ns ns1 with
    | isTrue h1 =>
      if h : o = o1 then isTrue (by rw [h1, h])
      else isFalse (fun e => h (by cases e; rfl))
    | isFalse h1 => isFalse (fun e => h1 (by cases e; rfl))
/-- Decidable equality of optional else-modules. -/
def ModuleNode.decEqElse : (a b : Option ModuleNode) → Decidable (a = b)
  | none, none => isTrue rfl
  | some m, some m1 =>
    match ModuleNode.decEq m m1 with
    | isTrue h => isTrue (by rw [h])
    | isFalse h => isFalse (fun e => h (by cases e; rfl))
  | none, some _ => isFalse nofun
  | some _, none => isFalse nofun
/-- Decidable equality of child lists. -/
def Node.decEqList : (as bs : List Node) → Decidable (as = bs)
  | [], [] => isTrue rfl
  | a :: as, b :: bs =>
    match Node.decEq a b, Node.decEqList as bs with
    | isTrue h1, isTrue h2 => isTrue (by rw [h1, h2])
    | isFalse h1, _ => isFalse (fun e => h1 (by cases e; rfl))
    | _, isFalse h2 => isFalse (fun e => h2 (by cases e; rfl))
  | [], _ :: _ => isFalse nofun
  | _ :: _, [] => isFalse nofun
end

instance : DecidableEq Node := Node.decEq

instance : DecidableEq ModuleNode := ModuleNode.decEq

/-- The origin of a module node. -/
def ModuleNode.Origin : ModuleNode → String
  | .mk o _ => o

/-- The children of a module node, in order. -/
def ModuleNode.nodes : ModuleNode → List Node
  | .mk _ ns => ns

/-- Modelled from the spec: `newModuleNode()`, a module without children; no
origin is given, so the field keeps Go's zero value `""`. -/
def newModuleNode : ModuleNode := ModuleNode.mk "" []

/-- Modelled from the spec: `moduleNode.append(n)`, which adds `n` at the end of
the children. -/
def ModuleNode.append (m : ModuleNode) (n : Node) : ModuleNode :=
  ModuleNode.mk m.Origin (m.nodes ++ [n])

/-- Modelled from the spec: `newTextNode(value, pos)`. -/
def newTextNode (value : String) (pos : Nat) : Node := Node.text value pos

/-- Modelled from the spec: `newPrintNode(expr, pos)`. -/
def newPrintNode (x : Expr) (pos : Nat) : Node := Node.print x pos

/-- Modelled from the spec: `newBlockNode(name, body, pos)`; no origin is given,
so the field keeps Go's zero value `""`. -/
def newBlockNode (name : Expr) (body : ModuleNode) (pos : Nat) : Node :=
  Node.block name body "" pos

/-- Modelled from the spec: `newIfNode(cond, body, els, pos)`. -/
def newIfNode (cond : Expr) (body : ModuleNode) (els : Option ModuleNode) (pos : Nat) : Node :=
  Node.ifn cond body els pos

/-! ## The auto-escape visitor (`escape.go`) -/

/-- The visitor's state: `type autoEscapeVisitor struct { stack []string }`. -/
structure autoEscapeVisitor where
  stack : List String
deriving DecidableEq

/-- Go `push` adds the given name on top of the stack:
`v.stack = append(v.stack, name)`. -/
def autoEscapeVisitor.push (v : autoEscapeVisitor) (name : String) : autoEscapeVisitor :=
  { stack := v.stack ++ [name] }

/-- Go `pop` removes the top-most name: `v.stack = v.stack[0 : len(v.stack)-1]`.
On an empty stack the slice bound is `-1` and Go panics: `none`. -/
def autoEscapeVisitor.pop (v : autoEscapeVisitor) : Option autoEscapeVisitor :=
  if v.stack.length = 0 then none else some { stack := v.stack.take (v.stack.length - 1) }

/-- Go `current`: `""` on an empty stack, else `v.stack[len(v.stack)-1]`. -/
def autoEscapeVisitor.current (v : autoEscapeVisitor) : String :=
  if v.stack.length = 0 then
    ""
  else
    (v.stack.get? (v.stack.length - 1)).getD ""

/-- Go `guessTypeFromName`:
```go
name = strings.TrimSuffix(name, ".twig")
p := strings.LastIndex(name, ".")
if p < 0 { return "html" }
return name[p:]
``` -/
def guessTypeFromName (name : String) : String :=
  let name := TrimSuffix name ".twig"
  let p := LastIndex name '.'
  if p < 0 then
    "html"
  else
    String.mk (name.data.drop p.toNat)

/-- Go `Enter`: a module or block pushes the type guessed from its `Origin`; a print
node has its expression `X` replaced by
`NewFilterExpr("escape", []Expr{X, NewStringExpr(ct, X.Start())}, X.Start())`
with `ct := v.current()`; every other node is left alone. The node is mutated in
place in Go, so the node after the call is returned with the visitor. -/
def autoEscapeVisitor.Enter (v : autoEscapeVisitor) (n : Node) : autoEscapeVisitor × Node :=
  match n with
  | .module m => (v.push (guessTypeFromName m.Origin), n)
  | .block _ _ origin _ => (v.push (guessTypeFromName origin), n)
  | .print x pos =>
    let ct := v.current
    let r := NewFilterExpr "escape" [x, NewStringExpr ct x.Start] x.Start
    (v, .print r pos)
  | _ => (v, n)

/-- Go `Leave`: a module or block pops the stack; every other node does nothing. -/
def autoEscapeVisitor.Leave (v : autoEscapeVisitor) (n : Node) : Option autoEscapeVisitor :=
  match n with
  | .module _ => v.pop
  | .block _ _ _ _ => v.pop
  | _ => some v

mutual
/-- Modelled from the spec: the tree walk of the visitor protocol, which is not
part of the sources at hand. `Enter(node)` on pre-order descent, then the
children depth-first in document order, then `Leave(node)` on post-order ascent.
The children of a module are its nodes, the child of a block is its body module,
the children of an if-node are its body module and, when present, its
else-module. `Enter` replaces at most the expression of a print node, which has
no children, so the children walked are those of the node as it was entered. -/
def walkNode (v : autoEscapeVisitor) : Node → Option (autoEscapeVisitor × Node)
  | .nil =>
    let r := v.Enter .nil
    (r.1.Leave r.2).map (·, r.2)
  | .text value pos =>
    let r := v.Enter (.text value pos)
    (r.1.Leave r.2).map (·, r.2)
  | .print x pos =>
    let r := v.Enter (.print x pos)
    (r.1.Leave r.2).map (·, r.2)
  | .module m =>
    (walkModule v m).map (fun r => (r.1, Node.module r.2))
  | .block name body origin pos =>
    let r := v.Enter (.block name body origin pos)
    match walkModule r.1 body with
    | none => none
    | some (v1, body1) =>
      (v1.Leave (.block name body1 origin pos)).map (·, .block name body1 origin pos)
  | .ifn cond body els pos =>
    let r := v.Enter (.ifn cond body els pos)
    match walkModule r.1 body with
    | none => none
    | some (v1, body1) =>
      match walkElse v1 els with
      | none => none
      | some (v2, els1) =>
        (v2.Leave (.ifn cond body1 els1 pos)).map (·, .ifn cond body1 els1 pos)
/-- The walk of a module node: `Enter`, the children in order, `Leave`. -/
def walkModule (v : autoEscapeVisitor) : ModuleNode → Option (autoEscapeVisitor × ModuleNode)
  | .mk origin nodes =>
    let r := v.Enter (.module (.mk origin nodes))
    match walkList r.1 nodes with
    | none => none
    | some (v1, nodes1) =>
      (v1.Leave (.module (.mk origin nodes1))).map (·, .mk origin nodes1)
/-- The walk of an optional else-module: a nil pointer is not visited. -/
def walkElse (v : autoEscapeVisitor) : Option ModuleNode → Option (autoEscapeVisitor × Option ModuleNode)
  | none => some (v, none)
  | some m => (walkModule v m).map (fun r => (r.1, some r.2))
/-- The walk of a child list, left to right. -/
def walkList (v : autoEscapeVisitor) : List Node → Option (autoEscapeVisitor × List Node)
  | [] => some (v, [])
  | n :: ns =>
    match walkNode v n with
    | none => none
    | some (v1, n1) =>
      match walkList v1 ns with
      | none => none
      | some (v2, ns1) => some (v2, n1 :: ns1)
end

/-- One run of the auto-escape pass over a tree: a fresh visitor (empty stack)
walks the tree. -/
def AutoEscape (n : Node) : Option (autoEscapeVisitor × Node) :=
  walkNode { stack := [] } n

/-! ## Tokens and the token buffer (`parse/parse.go`) -/

/-- Modelled from the spec: the type tag of a token (text, name, string-open and
-close, print-open and -close, tag-open and -close, whitespace, end-of-input).
The constants are used by `parse.go`, their declaration is not at hand. -/
inductive tokenType where
  | tokenText
  | tokenName
  | tokenStringOpen
  | tokenStringClose
  | tokenPrintOpen
  | tokenPrintClose
  | tokenTagOpen
  | tokenTagClose
  | tokenWhitespace
  | tokenEof
deriving DecidableEq, Repr

open tokenType

/-- Modelled from the spec: a token, `{type tag, literal value, source offset}`. -/
structure token where
  tokenType : tokenType
  value : String
  pos : Nat
deriving DecidableEq, Repr

/-- Modelled from the spec: the lexer, which is not part of the sources at hand,
as the tokens it has still to emit, in source order. The spec defines no token
after end-of-input. -/
structure lexer where
  tokens : List token
deriving DecidableEq, Repr

/-- Modelled from the spec: `lex.nextToken()` hands out the next token of the
stream. When the lexer has nothing more to emit the call does not deliver a
token (`none`): the consumer waits for a producer that has finished. -/
def lexer.nextToken (l : lexer) : Option (token × lexer) :=
  match l.tokens with
  | [] => none
  | tok :: rest => some (tok, { tokens := rest })

/-- The parser state, `type tree struct { root; input; lex; unread; read }`. -/
structure tree where
  root : ModuleNode
  input : String
  lex : lexer
  unread : List token
  read : List token
deriving DecidableEq

/-- The ways the parser stops abnormally: the three `panic` calls of `parse.go`
(`expected %s got %s`, `parse error near %s`, `unknown expression`) and the
run-time panic of an index out of range. -/
inductive Fault where
  | expected (typ got : tokenType)
  | parseErrorNear (value : String)
  | unknownExpression
  | indexOutOfRange
deriving DecidableEq, Repr

/-- The result of running a parser operation on a state: it returns a value and
the next state, it panics, it waits forever for a token (`blocked`), or the
model ran out of fuel before any of these happened. -/
inductive Res (α : Type) where
  | ok (a : α) (t : tree)
  | panic (f : Fault)
  | blocked
  | outOfFuel
deriving DecidableEq

/-- A parser operation: a function of the state. -/
def P (α : Type) : Type := tree → Res α

/-- Sequencing of parser operations: the first abnormal result ends the run. -/
def P.bind {α β : Type} (m : P α) (f : α → P β) : P β := fun t =>
  match m t with
  | .ok a t1 => f a t1
  | .panic e => .panic e
  | .blocked => .blocked
  | .outOfFuel => .outOfFuel

instance : Monad P where
  pure a := fun t => .ok a t
  bind := P.bind

/-- A Go `panic`. -/
def P.panic {α : Type} (f : Fault) : P α := fun _ => .panic f

/-- Go `next`: take the last token of `unread` if there is one, else ask the lexer;
append the token to `read`. -/
def tree.next : P token := fun t =>
  if t.unread.length > 0 then
    match t.unread.getLast? with
    | some tok => .ok tok { t with unread := t.unread.take (t.unread.length - 1), read := t.read ++ [tok] }
    | none => .panic .indexOutOfRange
  else
    match t.lex.nextToken with
    | some (tok, lex1) => .ok tok { t with lex := lex1, read := t.read ++ [tok] }
    | none => .blocked

/-- Go `backup`: move the last token of `read` to the end of `unread`. With an empty
`read` the index `len(t.read)-1` is out of range and Go panics. -/
def tree.backup : P Unit := fun t =>
  match t.read.getLast? with
  | some tok => .ok () { t with read := t.read.take (t.read.length - 1), unread := t.unread ++ [tok] }
  | none => .panic .indexOutOfRange

/-- Go `peek`: `next()` then `backup()`. -/
def tree.peek : P token := do
  let tok ← tree.next
  tree.backup
  return tok

/-- Go `nextNonSpace`: `for { next = t.next(); if next.tokenType != tokenWhitespace
{ return next } }`. One unit of fuel per iteration. -/
def tree.nextNonSpace : Nat → P token
  | 0 => fun _ => .outOfFuel
  | fuel + 1 => do
    let next ← tree.next
    if next.tokenType ≠ tokenWhitespace then
      return next
    else
      tree.nextNonSpace fuel

/-- Go `expect`: the next non-space token, which must be of type `typ`. -/
def tree.expect (fuel : Nat) (typ : tokenType) : P token := do
  let tok ← tree.nextNonSpace fuel
  if tok.tokenType ≠ typ then
    P.panic (.expected typ tok.tokenType)
  else
    return tok

/-- Go `parseExpr`: a name token gives a name expression, a string-open token
followed by a text and a string-close token gives a string expression, anything
else panics. Every branch of the body of the Go `for` leaves the function, so
the loop runs once. -/
def tree.parseExpr (fuel : Nat) : P Expr := do
  let tok ← tree.nextNonSpace fuel
  if tok.tokenType = tokenName then
    return newNameExpr tok.value
  else if tok.tokenType = tokenStringOpen then
    let tok ← tree.expect fuel tokenText
    let _ ← tree.expect fuel tokenStringClose
    return newStringExpr tok.value
  else
    P.panic .unknownExpression

mutual
/-- Go `parse`, the statement rule. `Node.nil` is Go's `nil`. -/
def tree.parse : Nat → P Node
  | 0 => fun _ => .outOfFuel
  | fuel + 1 => do
    let tok ← tree.nextNonSpace fuel
    if tok.tokenType = tokenText then
      return newTextNode tok.value tok.pos
    else if tok.tokenType = tokenPrintOpen then
      let name ← tree.parseExpr fuel
      let _ ← tree.expect fuel tokenPrintClose
      return newPrintNode name tok.pos
    else if tok.tokenType = tokenTagOpen then
      tree.parseTag fuel
    else if tok.tokenType = tokenEof then
      return Node.nil
    else
      P.panic (.parseErrorNear tok.value)
/-- Go `parseTag`, the tag rule: `block`, `if`, and `nil` for any other name. -/
def tree.parseTag : Nat → P Node
  | 0 => fun _ => .outOfFuel
  | fuel + 1 => do
    let name ← tree.expect fuel tokenName
    if name.value = "block" then
      let blockName ← tree.parseExpr fuel
      let _ ← tree.expect fuel tokenTagClose
      let body ← tree.parseUntilEndTag fuel "block" newModuleNode
      return newBlockNode blockName body name.pos
    else if name.value = "if" then
      let cond ← tree.parseExpr fuel
      let _ ← tree.expect fuel tokenTagClose
      let (body, els) ← tree.parseEndifOrElse fuel newModuleNode
      return newIfNode cond body els name.pos
    else
      return Node.nil
/-- Go `parseEndifOrElse`: the loop of the function, with the module `body` built
so far as an argument (it starts as `newModuleNode()`); one unit of fuel per
iteration. The result is `(body, els)`, `els` being `nil` unless an `else` tag
was met. -/
def tree.parseEndifOrElse : Nat → ModuleNode → P (ModuleNode × Option ModuleNode)
  | 0, _ => fun _ => .outOfFuel
  | fuel + 1, body => do
    let tok ← tree.peek
    if tok.tokenType = tokenTagOpen then
      let _ ← tree.next
      let tok ← tree.expect fuel tokenName
      if tok.value = "else" then
        let _ ← tree.expect fuel tokenTagClose
        let els ← tree.parseUntilEndTag fuel "if" newModuleNode
        return (body, some els)
      else if tok.value = "endif" then
        let _ ← tree.expect fuel tokenTagClose
        return (body, none)
      else
        tree.backup
        tree.backup
        tree.backup
        let n ← tree.parse fuel
        tree.parseEndifOrElse fuel (body.append n)
    else
      let n ← tree.parse fuel
      tree.parseEndifOrElse fuel (body.append n)
/-- Go `parseUntilEndTag(name)`: the loop of the function, with the module `n` built
so far as an argument (it starts as `newModuleNode()`); one unit of fuel per
iteration. -/
def tree.parseUntilEndTag : Nat → String → ModuleNode → P ModuleNode
  | 0, _, _ => fun _ => .outOfFuel
  | fuel + 1, name, n => do
    let tok ← tree.peek
    if tok.tokenType = tokenTagOpen then
      let _ ← tree.next
      let tok ← tree.expect fuel tokenName
      if tok.value = "end" ++ name then
        let _ ← tree.expect fuel tokenTagClose
        return n
      else
        tree.backup
        tree.backup
        tree.backup
        let c ← tree.parse fuel
        tree.parseUntilEndTag fuel name (n.append c)
    else
      let c ← tree.parse fuel
      tree.parseUntilEndTag fuel name (n.append c)
end

/-- The loop of `Parse`: `n := t.parse(); if n == nil { return }; t.root.append(n)`.
One unit of fuel per iteration. -/
def parseLoop : Nat → P Unit
  | 0 => fun _ => .outOfFuel
  | fuel + 1 => do
    let n ← tree.parse fuel
    match n with
    | .nil => return ()
    | n => fun t => parseLoop fuel { t with root := t.root.append n }

/-- Go `Parse(input)`: a fresh tree (empty root module, empty `unread` and `read`)
over the lexer of `input`, then the loop. The lexer is an argument: the tokens
it emits for `input`. The result carries the tree `t` that `Parse` returns. -/
def Parse (fuel : Nat) (input : String) (lex : lexer) : Res Unit :=
  parseLoop fuel { root := newModuleNode, input := input, lex := lex, unread := [], read := [] }

/-! ## Specification-side definitions -/

/-- The escape call of the spec, `FilterExpr("escape", [e, StringExpr(L)])`, at
the start position of `e`. -/
def escapeCall (L : String) (e : Expr) : Expr :=
  Expr.filter "escape" [e, Expr.string L e.Start] e.Start

/-- The label in force under the scope labels `s`, outermost first: the innermost
one, blank when there is none. -/
def scopeLabel (s : List String) : String := s.getLast?.getD ""

mutual
/-- The tree `n` with the expression `e` of every print node replaced by `f L e`,
`L` being the label inferred for the print node: that of the innermost module or
block around it, computed from the origin by `guessTypeFromName`. `s` holds the
labels of the scopes around `n`, outermost first. Nothing else is changed. -/
def mapPrintsNode (f : String → Expr → Expr) (s : List String) : Node → Node
  | .nil => .nil
  | .text value pos => .text value pos
  | .print x pos => .print (f (scopeLabel s) x) pos
  | .module m => .module (mapPrintsModule f s m)
  | .block name body origin pos =>
    .block name (mapPrintsModule f (s ++ [guessTypeFromName origin]) body) origin pos
  | .ifn cond body els pos => .ifn cond (mapPrintsModule f s body) (mapPrintsElse f s els) pos
/-- The module scope: its own label is the innermost for its children. -/
def mapPrintsModule (f : String → Expr → Expr) (s : List String) : ModuleNode → ModuleNode
  | .mk origin nodes => .mk origin (mapPrintsList f (s ++ [guessTypeFromName origin]) nodes)
/-- The optional else-module. -/
def mapPrintsElse (f : String → Expr → Expr) (s : List String) : Option ModuleNode → Option ModuleNode
  | none => none
  | some m => some (mapPrintsModule f s m)
/-- The child list. -/
def mapPrintsList (f : String → Expr → Expr) (s : List String) : List Node → List Node
  | [] => []
  | n :: ns => mapPrintsNode f s n :: mapPrintsList f s ns
end

/-- Whitespace tokens with the given values and positions. -/
def spaces (ws : List (String × Nat)) : List token :=
  ws.map (fun p => ⟨tokenWhitespace, p.1, p.2⟩)

/-- The result `r` is `outOfFuel` or it is `r'`: what a run with less fuel may
give, compared with a run with more. -/
def Res.le {α : Type} (r r' : Res α) : Prop := r = .outOfFuel ∨ r = r'

/-- The run neither returned nor panicked: it waits for a token or ran out of
fuel. -/
def Res.stuck {α : Type} (r : Res α) : Prop := r = .blocked ∨ r = .outOfFuel

/-! ## Token streams of the templates used below -/

/-- The lexeme of the print-open delimiter, two opening braces. -/
def lexPrintOpen : String := "\x7b\x7b"

/-- The lexeme of the print-close delimiter, two closing braces. -/
def lexPrintClose : String := "\x7d\x7d"

/-- The lexeme of the tag-open delimiter, an opening brace and a percent sign. -/
def lexTagOpen : String := "\x7b%"

/-- The lexeme of the tag-close delimiter, a percent sign and a closing brace. -/
def lexTagClose : String := "%\x7d"

/-- The template `{{ name }}`. -/
def srcPrintName : String := "\x7b\x7b name \x7d\x7d"

/-- The template `{% block title %}hi{% endblock %}`. -/
def srcBlockTitle : String := "\x7b% block title %\x7dhi\x7b% endblock %\x7d"

/-- The template `{% if x %}A{% else %}B{% endif %}`. -/
def srcIfElse : String := "\x7b% if x %\x7dA\x7b% else %\x7dB\x7b% endif %\x7d"

/-- The template `{% if x %}A{% endif %}`. -/
def srcIfOnly : String := "\x7b% if x %\x7dA\x7b% endif %\x7d"

/-- The template `{% block t %}hi`, whose block is never closed. -/
def srcUnterminated : String := "\x7b% block t %\x7dhi"

/-- The template `{% foo %}x`, whose tag is not one the parser knows. -/
def srcUnknownTag : String := "\x7b% foo %\x7dx"

/-- The tokens of `{{ name }}`. -/
def tokensPrintName : List token :=
  [⟨tokenPrintOpen, lexPrintOpen, 0⟩, ⟨tokenWhitespace, " ", 2⟩, ⟨tokenName, "name", 3⟩,
   ⟨tokenWhitespace, " ", 7⟩, ⟨tokenPrintClose, lexPrintClose, 8⟩, ⟨tokenEof, "", 10⟩]

/-- The tokens of `{% block title %}hi{% endblock %}`. -/
def tokensBlockTitle : List token :=
  [⟨tokenTagOpen, lexTagOpen, 0⟩, ⟨tokenWhitespace, " ", 2⟩, ⟨tokenName, "block", 3⟩,
   ⟨tokenWhitespace, " ", 8⟩, ⟨tokenName, "title", 9⟩, ⟨tokenWhitespace, " ", 14⟩,
   ⟨tokenTagClose, lexTagClose, 15⟩, ⟨tokenText, "hi", 17⟩,
   ⟨tokenTagOpen, lexTagOpen, 19⟩, ⟨tokenWhitespace, " ", 21⟩, ⟨tokenName, "endblock", 22⟩,
   ⟨tokenWhitespace, " ", 30⟩, ⟨tokenTagClose, lexTagClose, 31⟩, ⟨tokenEof, "", 33⟩]

/-- The tokens of `{% if x %}A{% else %}B{% endif %}`. -/
def tokensIfElse : List token :=
  [⟨tokenTagOpen, lexTagOpen, 0⟩, ⟨tokenWhitespace, " ", 2⟩, ⟨tokenName, "if", 3⟩,
   ⟨tokenWhitespace, " ", 5⟩, ⟨tokenName, "x", 6⟩, ⟨tokenWhitespace, " ", 7⟩,
   ⟨tokenTagClose, lexTagClose, 8⟩, ⟨tokenText, "A", 10⟩,
   ⟨tokenTagOpen, lexTagOpen, 11⟩, ⟨tokenWhitespace, " ", 13⟩, ⟨tokenName, "else", 14⟩,
   ⟨tokenWhitespace, " ", 18⟩, ⟨tokenTagClose, lexTagClose, 19⟩, ⟨tokenText, "B", 21⟩,
   ⟨tokenTagOpen, lexTagOpen, 22⟩, ⟨tokenWhitespace, " ", 24⟩, ⟨tokenName, "endif", 25⟩,
   ⟨tokenWhitespace, " ", 30⟩, ⟨tokenTagClose, lexTagClose, 31⟩, ⟨tokenEof, "", 33⟩]

/-- The tokens of `{% if x %}A{% endif %}`. -/
def tokensIfOnly : List token :=
  [⟨tokenTagOpen, lexTagOpen, 0⟩, ⟨tokenWhitespace, " ", 2⟩, ⟨tokenName, "if", 3⟩,
   ⟨tokenWhitespace, " ", 5⟩, ⟨tokenName, "x", 6⟩, ⟨tokenWhitespace, " ", 7⟩,
   ⟨tokenTagClose, lexTagClose, 8⟩, ⟨tokenText, "A", 10⟩,
   ⟨tokenTagOpen, lexTagOpen, 11⟩, ⟨tokenWhitespace, " ", 13⟩, ⟨tokenName, "endif", 14⟩,
   ⟨tokenWhitespace, " ", 19⟩, ⟨tokenTagClose, lexTagClose, 20⟩, ⟨tokenEof, "", 22⟩]

/-- The tokens of `{% block t %}hi` up to the text: the block is opened and never
closed. -/
def tokensOpenBlock : List token :=
  [⟨tokenTagOpen, lexTagOpen, 0⟩, ⟨tokenWhitespace, " ", 2⟩, ⟨tokenName, "block", 3⟩,
   ⟨tokenWhitespace, " ", 8⟩, ⟨tokenName, "t", 9⟩, ⟨tokenWhitespace, " ", 10⟩,
   ⟨tokenTagClose, lexTagClose, 11⟩, ⟨tokenText, "hi", 13⟩]

/-- The tokens of `{% block t %}hi`: an unterminated block, then end-of-input. -/
def tokensUnterminated : List token :=
  tokensOpenBlock ++ [⟨tokenEof, "", 15⟩]

/-- The tokens of `{% foo %}x`: an unrecognized tag, then a text. -/
def tokensUnknownTag : List token :=
  [⟨tokenTagOpen, lexTagOpen, 0⟩, ⟨tokenWhitespace, " ", 2⟩, ⟨tokenName, "foo", 3⟩,
   ⟨tokenWhitespace, " ", 6⟩, ⟨tokenTagClose, lexTagClose, 7⟩, ⟨tokenText, "x", 9⟩,
   ⟨tokenEof, "", 10⟩]

/-! ## The token buffer seen as a cursor -/

/-- The tokens that `next` has still to hand out, in order: the backlog `unread`
from its end, then what the lexer has still to emit. -/
def tree.pending (t : tree) : List token := t.unread.reverse ++ t.lex.tokens

/-- The cursor view of the spec: an index-addressable token list with a movable
cursor. -/
structure Cursor where
  tokens : List token
  pos : Nat
deriving DecidableEq, Repr

/-- The cursor that a buffer state stands for: the token list is the read
history followed by the pending tokens, the cursor is the length of the read
history. -/
def tree.toCursor (t : tree) : Cursor :=
  { tokens := t.read ++ t.pending, pos := t.read.length }

/-- The result of an operation of the cursor view: a value and the next cursor,
a panic, or a wait for a token past the end of the list. -/
inductive CursorRes (α : Type) where
  | ok (a : α) (c : Cursor)
  | panic (f : Fault)
  | blocked
deriving DecidableEq

/-- The cursor view of `next`: the token at the cursor, and the cursor moves on
by one; past the end of the list there is no token to return. -/
def Cursor.next (c : Cursor) : CursorRes token :=
  match c.tokens.get? c.pos with
  | some tok => .ok tok { tokens := c.tokens, pos := c.pos + 1 }
  | none => .blocked

/-- The cursor view of `backup`: the cursor moves back by one; at the start of
the list this is the programming error of the spec. -/
def Cursor.backup (c : Cursor) : CursorRes Unit :=
  if c.pos = 0 then .panic .indexOutOfRange
  else .ok () { tokens := c.tokens, pos := c.pos - 1 }

/-- A call on the token buffer: `next()` or `backup()`. -/
inductive BufOp where
  | next
  | backup
deriving DecidableEq, Repr

/-- A sequence of `next()` and `backup()` calls run on the buffer of the parser;
the value is the list of the tokens that the `next()` calls returned, in order. -/
def tree.runOps : List BufOp → P (List token)
  | [] => pure []
  | .next :: ops => do
    let tok ← tree.next
    let toks ← tree.runOps ops
    return tok :: toks
  | .backup :: ops => do
    tree.backup
    tree.runOps ops

/-- The same sequence of calls run on the cursor view. -/
def Cursor.runOps : List BufOp → Cursor → CursorRes (List token)
  | [], c => .ok [] c
  | .next :: ops, c =>
    match c.next with
    | .ok tok c1 =>
      match Cursor.runOps ops c1 with
      | .ok toks c2 => .ok (tok :: toks) c2
      | .panic f => .panic f
      | .blocked => .blocked
    | .panic f => .panic f
    | .blocked => .blocked
  | .backup :: ops, c =>
    match c.backup with
    | .ok _ c1 => Cursor.runOps ops c1
    | .panic f => .panic f
    | .blocked => .blocked

/-- What a result of the parser's buffer looks like in the cursor view; a run
out of fuel has no counterpart there. -/
def Res.view {α : Type} : Res α → Option (CursorRes α)
  | .ok a t => some (.ok a t.toCursor)
  | .panic f => some (.panic f)
  | .blocked => some .blocked
  | .outOfFuel => none

/-- The calls that the loops of `parseUntilEndTag` and `parseEndifOrElse` make
when the peeked token is a tag-open and the name after it is no terminator:
`t.peek()`, `t.next()`, `t.expect(tokenName)`, then `t.backup()` three times. The
value is the name token. -/
def tree.lookaheadUndo (fuel : Nat) : P token := do
  let _ ← tree.peek
  let _ ← tree.next
  let tok ← tree.expect fuel tokenName
  tree.backup
  tree.backup
  tree.backup
  return tok

/-! ## Token streams of nested templates -/

/-- The template `{% if x %}{% if y %}A{% endif %}B{% endif %}`: an if inside the body of an if. -/
def srcNestedIf : String := "\x7b% if x %\x7d\x7b% if y %\x7dA\x7b% endif %\x7dB\x7b% endif %\x7d"

/-- The tokens of `{% if x %}{% if y %}A{% endif %}B{% endif %}`. -/
def tokensNestedIf : List token :=
  [⟨tokenTagOpen, lexTagOpen, 0⟩, ⟨tokenWhitespace, " ", 2⟩, ⟨tokenName, "if", 3⟩,
   ⟨tokenWhitespace, " ", 5⟩, ⟨tokenName, "x", 6⟩, ⟨tokenWhitespace, " ", 7⟩,
   ⟨tokenTagClose, lexTagClose, 8⟩, ⟨tokenTagOpen, lexTagOpen, 10⟩, ⟨tokenWhitespace, " ", 12⟩,
   ⟨tokenName, "if", 13⟩, ⟨tokenWhitespace, " ", 15⟩, ⟨tokenName, "y", 16⟩,
   ⟨tokenWhitespace, " ", 17⟩, ⟨tokenTagClose, lexTagClose, 18⟩, ⟨tokenText, "A", 20⟩,
   ⟨tokenTagOpen, lexTagOpen, 21⟩, ⟨tokenWhitespace, " ", 23⟩, ⟨tokenName, "endif", 24⟩,
   ⟨tokenWhitespace, " ", 29⟩, ⟨tokenTagClose, lexTagClose, 30⟩, ⟨tokenText, "B", 32⟩,
   ⟨tokenTagOpen, lexTagOpen, 33⟩, ⟨tokenWhitespace, " ", 35⟩, ⟨tokenName, "endif", 36⟩,
   ⟨tokenWhitespace, " ", 41⟩, ⟨tokenTagClose, lexTagClose, 42⟩, ⟨tokenEof, "", 44⟩]

/-- The template
`{% block a %}{% block b %}x{% endblock %}y{% endblock %}`:
a block inside the body of a block. -/
def srcBlockInBlock : String := "\x7b% block a %\x7d\x7b% block b %\x7dx\x7b% endblock %\x7dy\x7b% endblock %\x7d"

/-- The tokens of `{% block a %}{% block b %}x{% endblock %}y{% endblock %}`. -/
def tokensBlockInBlock : List token :=
  [⟨tokenTagOpen, lexTagOpen, 0⟩, ⟨tokenWhitespace, " ", 2⟩, ⟨tokenName, "block", 3⟩,
   ⟨tokenWhitespace, " ", 8⟩, ⟨tokenName, "a", 9⟩, ⟨tokenWhitespace, " ", 10⟩,
   ⟨tokenTagClose, lexTagClose, 11⟩, ⟨tokenTagOpen, lexTagOpen, 13⟩, ⟨tokenWhitespace, " ", 15⟩,
   ⟨tokenName, "block", 16⟩, ⟨tokenWhitespace, " ", 21⟩, ⟨tokenName, "b", 22⟩,
   ⟨tokenWhitespace, " ", 23⟩, ⟨tokenTagClose, lexTagClose, 24⟩, ⟨tokenText, "x", 26⟩,
   ⟨tokenTagOpen, lexTagOpen, 27⟩, ⟨tokenWhitespace, " ", 29⟩, ⟨tokenName, "endblock", 30⟩,
   ⟨tokenWhitespace, " ", 38⟩, ⟨tokenTagClose, lexTagClose, 39⟩, ⟨tokenText, "y", 41⟩,
   ⟨tokenTagOpen, lexTagOpen, 42⟩, ⟨tokenWhitespace, " ", 44⟩, ⟨tokenName, "endblock", 45⟩,
   ⟨tokenWhitespace, " ", 53⟩, ⟨tokenTagClose, lexTagClose, 54⟩, ⟨tokenEof, "", 56⟩]

/-- The template
`{% block t %}{{ a }}{% if x %}A{% endif %}{% endblock %}`:
a print and an if inside the body of a block. -/
def srcIfInBlock : String := "\x7b% block t %\x7d\x7b\x7b a \x7d\x7d\x7b% if x %\x7dA\x7b% endif %\x7d\x7b% endblock %\x7d"

/-- The tokens of `{% block t %}{{ a }}{% if x %}A{% endif %}{% endblock %}`. -/
def tokensIfInBlock : List token :=
  [⟨tokenTagOpen, lexTagOpen, 0⟩, ⟨tokenWhitespace, " ", 2⟩, ⟨tokenName, "block", 3⟩,
   ⟨tokenWhitespace, " ", 8⟩, ⟨tokenName, "t", 9⟩, ⟨tokenWhitespace, " ", 10⟩,
   ⟨tokenTagClose, lexTagClose, 11⟩, ⟨tokenPrintOpen, lexPrintOpen, 13⟩,
   ⟨tokenWhitespace, " ", 15⟩, ⟨tokenName, "a", 16⟩, ⟨tokenWhitespace, " ", 17⟩,
   ⟨tokenPrintClose, lexPrintClose, 18⟩, ⟨tokenTagOpen, lexTagOpen, 20⟩,
   ⟨tokenWhitespace, " ", 22⟩, ⟨tokenName, "if", 23⟩, ⟨tokenWhitespace, " ", 25⟩,
   ⟨tokenName, "x", 26⟩, ⟨tokenWhitespace, " ", 27⟩, ⟨tokenTagClose, lexTagClose, 28⟩,
   ⟨tokenText, "A", 30⟩, ⟨tokenTagOpen, lexTagOpen, 31⟩, ⟨tokenWhitespace, " ", 33⟩,
   ⟨tokenName, "endif", 34⟩, ⟨tokenWhitespace, " ", 39⟩, ⟨tokenTagClose, lexTagClose, 40⟩,
   ⟨tokenTagOpen, lexTagOpen, 42⟩, ⟨tokenWhitespace, " ", 44⟩, ⟨tokenName, "endblock", 45⟩,
   ⟨tokenWhitespace, " ", 53⟩, ⟨tokenTagClose, lexTagClose, 54⟩, ⟨tokenEof, "", 56⟩]

/-- The template
`{% if x %}A{% else %}{% if y %}B{% endif %}C{% endif %}`:
an if inside an else-branch. -/
def srcIfInElse : String := "\x7b% if x %\x7dA\x7b% else %\x7d\x7b% if y %\x7dB\x7b% endif %\x7dC\x7b% endif %\x7d"

/-- The tokens of `{% if x %}A{% else %}{% if y %}B{% endif %}C{% endif %}`. -/
def tokensIfInElse : List token :=
  [⟨tokenTagOpen, lexTagOpen, 0⟩, ⟨tokenWhitespace, " ", 2⟩, ⟨tokenName, "if", 3⟩,
   ⟨tokenWhitespace, " ", 5⟩, ⟨tokenName, "x", 6⟩, ⟨tokenWhitespace, " ", 7⟩,
   ⟨tokenTagClose, lexTagClose, 8⟩, ⟨tokenText, "A", 10⟩, ⟨tokenTagOpen, lexTagOpen, 11⟩,
   ⟨tokenWhitespace, " ", 13⟩, ⟨tokenName, "else", 14⟩, ⟨tokenWhitespace, " ", 18⟩,
   ⟨tokenTagClose, lexTagClose, 19⟩, ⟨tokenTagOpen, lexTagOpen, 21⟩, ⟨tokenWhitespace, " ", 23⟩,
   ⟨tokenName, "if", 24⟩, ⟨tokenWhitespace, " ", 26⟩, ⟨tokenName, "y", 27⟩,
   ⟨tokenWhitespace, " ", 28⟩, ⟨tokenTagClose, lexTagClose, 29⟩, ⟨tokenText, "B", 31⟩,
   ⟨tokenTagOpen, lexTagOpen, 32⟩, ⟨tokenWhitespace, " ", 34⟩, ⟨tokenName, "endif", 35⟩,
   ⟨tokenWhitespace, " ", 40⟩, ⟨tokenTagClose, lexTagClose, 41⟩, ⟨tokenText, "C", 43⟩,
   ⟨tokenTagOpen, lexTagOpen, 44⟩, ⟨tokenWhitespace, " ", 46⟩, ⟨tokenName, "endif", 47⟩,
   ⟨tokenWhitespace, " ", 52⟩, ⟨tokenTagClose, lexTagClose, 53⟩, ⟨tokenEof, "", 55⟩]

/-- The template
`{% if x %}A{% else %}{% block b %}B{% endblock %}{% endif %}`:
a block inside an else-branch. -/
def srcBlockInElse : String := "\x7b% if x %\x7dA\x7b% else %\x7d\x7b% block b %\x7dB\x7b% endblock %\x7d\x7b% endif %\x7d"

/-- The tokens of `{% if x %}A{% else %}{% block b %}B{% endblock %}{% endif %}`. -/
def tokensBlockInElse : List token :=
  [⟨tokenTagOpen, lexTagOpen, 0⟩, ⟨tokenWhitespace, " ", 2⟩, ⟨tokenName, "if", 3⟩,
   ⟨tokenWhitespace, " ", 5⟩, ⟨tokenName, "x", 6⟩, ⟨tokenWhitespace, " ", 7⟩,
   ⟨tokenTagClose, lexTagClose, 8⟩, ⟨tokenText, "A", 10⟩, ⟨tokenTagOpen, lexTagOpen, 11⟩,
   ⟨tokenWhitespace, " ", 13⟩, ⟨tokenName, "else", 14⟩, ⟨tokenWhitespace, " ", 18⟩,
   ⟨tokenTagClose, lexTagClose, 19⟩, ⟨tokenTagOpen, lexTagOpen, 21⟩, ⟨tokenWhitespace, " ", 23⟩,
   ⟨tokenName, "block", 24⟩, ⟨tokenWhitespace, " ", 29⟩, ⟨tokenName, "b", 30⟩,
   ⟨tokenWhitespace, " ", 31⟩, ⟨tokenTagClose, lexTagClose, 32⟩, ⟨tokenText, "B", 34⟩,
   ⟨tokenTagOpen, lexTagOpen, 35⟩, ⟨tokenWhitespace, " ", 37⟩, ⟨tokenName, "endblock", 38⟩,
   ⟨tokenWhitespace, " ", 46⟩, ⟨tokenTagClose, lexTagClose, 47⟩, ⟨tokenTagOpen, lexTagOpen, 49⟩,
   ⟨tokenWhitespace, " ", 51⟩, ⟨tokenName, "endif", 52⟩, ⟨tokenWhitespace, " ", 57⟩,
   ⟨tokenTagClose, lexTagClose, 58⟩, ⟨tokenEof, "", 60⟩]

/-- The template
`{% block t %}{{ a }}{%if x%}A{% endif %}{% endblock %}`:
as the one before, with no whitespace after the tag-open of the if. -/
def srcTightIf : String := "\x7b% block t %\x7d\x7b\x7b a \x7d\x7d\x7b%if x%\x7dA\x7b% endif %\x7d\x7b% endblock %\x7d"

/-- The tokens of
`{% block t %}{{ a }}{%if x%}A{% endif %}{% endblock %}`: the name `if` follows its tag-open directly. -/
def tokensTightIf : List token :=
  [⟨tokenTagOpen, lexTagOpen, 0⟩, ⟨tokenWhitespace, " ", 2⟩, ⟨tokenName, "block", 3⟩,
   ⟨tokenWhitespace, " ", 8⟩, ⟨tokenName, "t", 9⟩, ⟨tokenWhitespace, " ", 10⟩,
   ⟨tokenTagClose, lexTagClose, 11⟩, ⟨tokenPrintOpen, lexPrintOpen, 13⟩,
   ⟨tokenWhitespace, " ", 15⟩, ⟨tokenName, "a", 16⟩, ⟨tokenWhitespace, " ", 17⟩,
   ⟨tokenPrintClose, lexPrintClose, 18⟩, ⟨tokenTagOpen, lexTagOpen, 20⟩, ⟨tokenName, "if", 22⟩,
   ⟨tokenWhitespace, " ", 24⟩, ⟨tokenName, "x", 25⟩, ⟨tokenTagClose, lexTagClose, 26⟩,
   ⟨tokenText, "A", 28⟩, ⟨tokenTagOpen, lexTagOpen, 29⟩, ⟨tokenWhitespace, " ", 31⟩,
   ⟨tokenName, "endif", 32⟩, ⟨tokenWhitespace, " ", 37⟩, ⟨tokenTagClose, lexTagClose, 38⟩,
   ⟨tokenTagOpen, lexTagOpen, 40⟩, ⟨tokenWhitespace, " ", 42⟩, ⟨tokenName, "endblock", 43⟩,
   ⟨tokenWhitespace, " ", 51⟩, ⟨tokenTagClose, lexTagClose, 52⟩, ⟨tokenEof, "", 54⟩]

/-! ## The visitor with a checked context -/

/-- The defensive reading of the spec: `Enter` as in `escape.go`, but entering a
print node on an empty stack is a failure (`none`) instead of a blank label. -/
def autoEscapeVisitor.EnterChecked (v : autoEscapeVisitor) (n : Node) :
    Option (autoEscapeVisitor × Node) :=
  match n with
  | .print _ _ => if v.stack.length = 0 then none else some (v.Enter n)
  | _ => some (v.Enter n)

mutual
/-- The tree walk of `walkNode` with `EnterChecked` in the place of `Enter`: it
fails where the walk would read the context on an empty stack, and, as the walk
itself, where it would pop an empty stack. -/
def walkCheckedNode (v : autoEscapeVisitor) : Node → Option (autoEscapeVisitor × Node)
  | .nil =>
    match v.EnterChecked .nil with
    | none => none
    | some r => (r.1.Leave r.2).map (·, r.2)
  | .text value pos =>
    match v.EnterChecked (.text value pos) with
    | none => none
    | some r => (r.1.Leave r.2).map (·, r.2)
  | .print x pos =>
    match v.EnterChecked (.print x pos) with
    | none => none
    | some r => (r.1.Leave r.2).map (·, r.2)
  | .module m =>
    (walkCheckedModule v m).map (fun r => (r.1, Node.module r.2))
  | .block name body origin pos =>
    match v.EnterChecked (.block name body origin pos) with
    | none => none
    | some r =>
      match walkCheckedModule r.1 body with
      | none => none
      | some (v1, body1) =>
        (v1.Leave (.block name body1 origin pos)).map (·, .block name body1 origin pos)
  | .ifn cond body els pos =>
    match v.EnterChecked (.ifn cond body els pos) with
    | none => none
    | some r =>
      match walkCheckedModule r.1 body with
      | none => none
      | some (v1, body1) =>
        match walkCheckedElse v1 els with
        | none => none
        | some (v2, els1) =>
          (v2.Leave (.ifn cond body1 els1 pos)).map (·, .ifn cond body1 els1 pos)
/-- The checked walk of a module node. -/
def walkCheckedModule (v : autoEscapeVisitor) :
    ModuleNode → Option (autoEscapeVisitor × ModuleNode)
  | .mk origin nodes =>
    match v.EnterChecked (.module (.mk origin nodes)) with
    | none => none
    | some r =>
      match walkCheckedList r.1 nodes with
      | none => none
      | some (v1, nodes1) =>
        (v1.Leave (.module (.mk origin nodes1))).map (·, .mk origin nodes1)
/-- The checked walk of an optional else-module. -/
def walkCheckedElse (v : autoEscapeVisitor) :
    Option ModuleNode → Option (autoEscapeVisitor × Option ModuleNode)
  | none => some (v, none)
  | some m => (walkCheckedModule v m).map (fun r => (r.1, some r.2))
/-- The checked walk of a child list. -/
def walkCheckedList (v : autoEscapeVisitor) :
    List Node → Option (autoEscapeVisitor × List Node)
  | [] => some (v, [])
  | n :: ns =>
    match walkCheckedNode v n with
    | none => none
    | some (v1, n1) =>
      match walkCheckedList v1 ns with
      | none => none
      | some (v2, ns1) => some (v2, n1 :: ns1)
end

/-! ## The escaper registry (`escape.go`) -/

/-- The escapers of package `escape` that `NewAutoEscapeExtension` registers;
the functions themselves are outside the sources at hand and are named only. -/
inductive Escaper where
  | HTML
  | HTMLAttribute
  | JS
  | CSS
  | URLQueryParam
deriving DecidableEq, Repr

/-- The map `Escapers` built by `NewAutoEscapeExtension`, as its key-value
pairs. -/
def NewAutoEscapeExtension : List (String × Escaper) :=
  [("html", .HTML), ("html_attr", .HTMLAttribute), ("js", .JS), ("css", .CSS),
   ("url", .URLQueryParam)]

/-- The lookup `escfn, ok := e.Escapers[ct]` of the escape filter; `none` is
`ok == false`. -/
def lookupEscaper (ct : String) : Option Escaper :=
  NewAutoEscapeExtension.lookup ct

/-! ## A cheap equality test for trees

The structural equality test of the AST recurses on the nested node type, which
is slow to evaluate. The test below recurses on a depth bound instead; it is
sound for every bound (a `true` answer means equality) and is used to check the
result of the parser on concrete token streams. -/

/-- Pairwise test of two lists with `f`; lists of different length fail. -/
def beqWith {α : Type} (f : α → α → Bool) : List α → List α → Bool
  | [], [] => true
  | a :: as, b :: bs => f a b && beqWith f as bs
  | _, _ => false

/-- Equality test of expressions down to depth `n`. -/
def Expr.beqN : Nat → Expr → Expr → Bool
  | 0, _, _ => false
  | _ + 1, .name a p, .name b q => decide (a = b) && decide (p = q)
  | _ + 1, .string a p, .string b q => decide (a = b) && decide (p = q)
  | n + 1, .filter a as p, .filter b bs q =>
    decide (a = b) && decide (p = q) && beqWith (Expr.beqN n) as bs
  | _ + 1, _, _ => false

mutual
/-- Equality test of nodes down to depth `n`. -/
def Node.beqN : Nat → Node → Node → Bool
  | 0, _, _ => false
  | _ + 1, .nil, .nil => true
  | _ + 1, .text v p, .text v1 p1 => decide (v = v1) && decide (p = p1)
  | n + 1, .print x p, .print x1 p1 => Expr.beqN n x x1 && decide (p = p1)
  | n + 1, .module m, .module m1 => ModuleNode.beqN n m m1
  | n + 1, .block x b o p, .block x1 b1 o1 p1 =>
    Expr.beqN n x x1 && ModuleNode.beqN n b b1 && decide (o = o1) && decide (p = p1)
  | n + 1, .ifn c b e p, .ifn c1 b1 e1 p1 =>
    Expr.beqN n c c1 && ModuleNode.beqN n b b1 &&
      (match e, e1 with
        | none, none => true
        | some m, some m1 => ModuleNode.beqN n m m1
        | _, _ => false) && decide (p = p1)
  | _ + 1, _, _ => false
/-- Equality test of module nodes down to depth `n`. -/
def ModuleNode.beqN : Nat → ModuleNode → ModuleNode → Bool
  | 0, _, _ => false
  | n + 1, .mk o ns, .mk o1 ns1 => decide (o = o1) && beqWith (Node.beqN n) ns ns1
end

/-- The result `r` is a normal return with a state that passes the equality test
against `t`, the trees compared down to depth `n`. -/
def Res.okWith (n : Nat) (r : Res Unit) (t : tree) : Bool :=
  match r with
  | .ok _ t1 =>
    ModuleNode.beqN n t1.root t.root && decide (t1.input = t.input) &&
      decide (t1.lex = t.lex) && decide (t1.unread = t.unread) && decide (t1.read = t.read)
  | _ => false

/-! ## Token streams with an empty else-branch and with tight inner tags -/

/-- The template `{% if x %}A{% else %}{% endif %}`: an if whose else-branch is empty. -/
def srcIfEmptyElse : String := "\x7b% if x %\x7dA\x7b% else %\x7d\x7b% endif %\x7d"

/-- The tokens of `{% if x %}A{% else %}{% endif %}`. -/
def tokensIfEmptyElse : List token :=
  [⟨tokenTagOpen, lexTagOpen, 0⟩, ⟨tokenWhitespace, " ", 2⟩, ⟨tokenName, "if", 3⟩,
   ⟨tokenWhitespace, " ", 5⟩, ⟨tokenName, "x", 6⟩, ⟨tokenWhitespace, " ", 7⟩,
   ⟨tokenTagClose, lexTagClose, 8⟩, ⟨tokenText, "A", 10⟩, ⟨tokenTagOpen, lexTagOpen, 11⟩,
   ⟨tokenWhitespace, " ", 13⟩, ⟨tokenName, "else", 14⟩, ⟨tokenWhitespace, " ", 18⟩,
   ⟨tokenTagClose, lexTagClose, 19⟩, ⟨tokenTagOpen, lexTagOpen, 21⟩, ⟨tokenWhitespace, " ", 23⟩,
   ⟨tokenName, "endif", 24⟩, ⟨tokenWhitespace, " ", 29⟩, ⟨tokenTagClose, lexTagClose, 30⟩,
   ⟨tokenEof, "", 32⟩]

/-- The template `{% if x %}{%if y%}A{% endif %}B{% endif %}`: an if inside the
body of an if, with no whitespace after the tag-open of the inner if. -/
def srcTightNestedIf : String := "\x7b% if x %\x7d\x7b%if y%\x7dA\x7b% endif %\x7dB\x7b% endif %\x7d"

/-- The tokens of `{% if x %}{%if y%}A{% endif %}B{% endif %}`: the name `if` of
the inner tag follows its tag-open directly. -/
def tokensTightNestedIf : List token :=
  [⟨tokenTagOpen, lexTagOpen, 0⟩, ⟨tokenWhitespace, " ", 2⟩, ⟨tokenName, "if", 3⟩,
   ⟨tokenWhitespace, " ", 5⟩, ⟨tokenName, "x", 6⟩, ⟨tokenWhitespace, " ", 7⟩,
   ⟨tokenTagClose, lexTagClose, 8⟩, ⟨tokenTagOpen, lexTagOpen, 10⟩, ⟨tokenName, "if", 12⟩,
   ⟨tokenWhitespace, " ", 14⟩, ⟨tokenName, "y", 15⟩, ⟨tokenTagClose, lexTagClose, 16⟩,
   ⟨tokenText, "A", 18⟩, ⟨tokenTagOpen, lexTagOpen, 19⟩, ⟨tokenWhitespace, " ", 21⟩,
   ⟨tokenName, "endif", 22⟩, ⟨tokenWhitespace, " ", 27⟩, ⟨tokenTagClose, lexTagClose, 28⟩,
   ⟨tokenText, "B", 30⟩, ⟨tokenTagOpen, lexTagOpen, 31⟩, ⟨tokenWhitespace, " ", 33⟩,
   ⟨tokenName, "endif", 34⟩, ⟨tokenWhitespace, " ", 39⟩, ⟨tokenTagClose, lexTagClose, 40⟩,
   ⟨tokenEof, "", 42⟩]

/-- The template `{% block a %}{%block b%}x{% endblock %}y{% endblock %}`: a block
inside the body of a block, with no whitespace after the tag-open of the inner
block. -/
def srcTightBlockInBlock : String := "\x7b% block a %\x7d\x7b%block b%\x7dx\x7b% endblock %\x7dy\x7b% endblock %\x7d"

/-- The tokens of `{% block a %}{%block b%}x{% endblock %}y{% endblock %}`: the
name `block` of the inner tag follows its tag-open directly. -/
def tokensTightBlockInBlock : List token :=
  [⟨tokenTagOpen, lexTagOpen, 0⟩, ⟨tokenWhitespace, " ", 2⟩, ⟨tokenName, "block", 3⟩,
   ⟨tokenWhitespace, " ", 8⟩, ⟨tokenName, "a", 9⟩, ⟨tokenWhitespace, " ", 10⟩,
   ⟨tokenTagClose, lexTagClose, 11⟩, ⟨tokenTagOpen, lexTagOpen, 13⟩, ⟨tokenName, "block", 15⟩,
   ⟨tokenWhitespace, " ", 20⟩, ⟨tokenName, "b", 21⟩, ⟨tokenTagClose, lexTagClose, 22⟩,
   ⟨tokenText, "x", 24⟩, ⟨tokenTagOpen, lexTagOpen, 25⟩, ⟨tokenWhitespace, " ", 27⟩,
   ⟨tokenName, "endblock", 28⟩, ⟨tokenWhitespace, " ", 36⟩, ⟨tokenTagClose, lexTagClose, 37⟩,
   ⟨tokenText, "y", 39⟩, ⟨tokenTagOpen, lexTagOpen, 40⟩, ⟨tokenWhitespace, " ", 42⟩,
   ⟨tokenName, "endblock", 43⟩, ⟨tokenWhitespace, " ", 51⟩, ⟨tokenTagClose, lexTagClose, 52⟩,
   ⟨tokenEof, "", 54⟩]

/-! ## Templates as trees of statements

Specification-side definitions, none of them taken from the Go code: a family
of inputs for the parser and the tree expected for each. The statements are
those that the parser knows; the token stream of each is in the layout of the
examples of the spec, with one whitespace token after each tag-open and
print-open and before each tag-close and print-close. The positions that the
parser records in a node are free; the others are zero. -/

mutual
/-- A statement of a template: a text, the print of a name, a block with a name
and a body, an if with a condition name and a body, or an if with a body and an
else-branch. `pos` is the position that the parser records in the node: that of
the text, of the print-open, of the name `block` or `if`. -/
inductive Stmt where
  | text (value : String) (pos : Nat)
  | print (name : String) (pos : Nat)
  | block (name : String) (pos : Nat) (body : Stmts)
  | ifn (cond : String) (pos : Nat) (body : Stmts)
  | ifElse (cond : String) (pos : Nat) (body : Stmts) (els : Stmts)
/-- A run of statements: a body, an else-branch, a template. -/
inductive Stmts where
  | nil
  | cons (s : Stmt) (rest : Stmts)
end

/-- The whitespace token of the layout. -/
def spaceToken : token := ⟨tokenWhitespace, " ", 0⟩

/-- The tokens of a tag that holds a name only, as `{% endif %}`: tag-open,
whitespace, the name at `pos`, whitespace, tag-close. -/
def tagTokens (name : String) (pos : Nat) : List token :=
  [⟨tokenTagOpen, lexTagOpen, 0⟩, spaceToken, ⟨tokenName, name, pos⟩, spaceToken,
   ⟨tokenTagClose, lexTagClose, 0⟩]

/-- The tokens of a tag that holds a name and a name expression, as `{% if x %}`:
tag-open, whitespace, the name at `pos`, whitespace, the name `arg`, whitespace,
tag-close. -/
def tagTokensWith (name : String) (pos : Nat) (arg : String) : List token :=
  [⟨tokenTagOpen, lexTagOpen, 0⟩, spaceToken, ⟨tokenName, name, pos⟩, spaceToken,
   ⟨tokenName, arg, 0⟩, spaceToken, ⟨tokenTagClose, lexTagClose, 0⟩]

mutual
/-- The token stream of a statement. An if has an `else` tag exactly when it is
an `ifElse`, whatever its else-branch holds. -/
def Stmt.tokens : Stmt → List token
  | .text value pos => [⟨tokenText, value, pos⟩]
  | .print name pos =>
    [⟨tokenPrintOpen, lexPrintOpen, pos⟩, spaceToken, ⟨tokenName, name, 0⟩, spaceToken,
     ⟨tokenPrintClose, lexPrintClose, 0⟩]
  | .block name pos body =>
    tagTokensWith "block" pos name ++ (body.tokens ++ tagTokens "endblock" 0)
  | .ifn cond pos body =>
    tagTokensWith "if" pos cond ++ (body.tokens ++ tagTokens "endif" 0)
  | .ifElse cond pos body els =>
    tagTokensWith "if" pos cond ++
      (body.tokens ++ (tagTokens "else" 0 ++ (els.tokens ++ tagTokens "endif" 0)))
/-- The token stream of a run of statements. -/
def Stmts.tokens : Stmts → List token
  | .nil => []
  | .cons s rest => s.tokens ++ rest.tokens
end

mutual
/-- The node that a statement stands for: the body of a block or an if is a
module of the nodes of its statements, in order; the else-branch of an `ifn` is
nil, that of an `ifElse` is a module, be it empty. -/
def Stmt.node : Stmt → Node
  | .text value pos => Node.text value pos
  | .print name pos => Node.print (Expr.name name 0) pos
  | .block name pos body => Node.block (Expr.name name 0) (ModuleNode.mk "" body.nodes) "" pos
  | .ifn cond pos body => Node.ifn (Expr.name cond 0) (ModuleNode.mk "" body.nodes) none pos
  | .ifElse cond pos body els =>
    Node.ifn (Expr.name cond 0) (ModuleNode.mk "" body.nodes)
      (some (ModuleNode.mk "" els.nodes)) pos
/-- The nodes of a run of statements, in order. -/
def Stmts.nodes : Stmts → List Node
  | .nil => []
  | .cons s rest => s.node :: rest.nodes
end

/-! ## Fuel: more fuel never changes a result -/

theorem Res.le_refl {α : Type} (r : Res α) : Res.le r r := Or.inr rfl

theorem Res.le_trans {α : Type} {a b c : Res α} (h1 : Res.le a b) (h2 : Res.le b c) : Res.le a c := by
  rcases h1 with h | h
  · exact Or.inl h
  · rcases h2 with h' | h'
    · exact Or.inl (h.trans h')
    · exact Or.inr (h.trans h')

theorem P.bind_le {α β : Type} {m m' : P α} {f f' : α → P β}
    (hm : ∀ t, Res.le (m t) (m' t)) (hf : ∀ a t, Res.le (f a t) (f' a t)) :
    ∀ t, Res.le ((m >>= f) t) ((m' >>= f') t) := by
  intro t
  show Res.le (P.bind m f t) (P.bind m' f' t)
  unfold P.bind
  rcases hm t with h | h
  · left; rw [h]
  · rw [h]
    cases m' t with
    | ok a t1 => exact hf a t1
    | panic e => exact Res.le_refl _
    | blocked => exact Res.le_refl _
    | outOfFuel => exact Res.le_refl _

theorem nextNonSpace_le : ∀ fuel t, Res.le (tree.nextNonSpace fuel t) (tree.nextNonSpace (fuel + 1) t) := by
  intro fuel
  induction fuel with
  | zero => intro t; exact Or.inl rfl
  | succ n ih =>
    intro t
    rw [tree.nextNonSpace, tree.nextNonSpace]
    refine P.bind_le (fun t => Res.le_refl _) ?_ t
    intro a t
    split
    · exact Res.le_refl _
    · exact ih t

theorem expect_le (fuel : Nat) (typ : tokenType) (t : tree) :
    Res.le (tree.expect fuel typ t) (tree.expect (fuel + 1) typ t) := by
  unfold tree.expect
  exact P.bind_le (nextNonSpace_le fuel) (fun a t => Res.le_refl _) t

theorem parseExpr_le (fuel : Nat) (t : tree) :
    Res.le (tree.parseExpr fuel t) (tree.parseExpr (fuel + 1) t) := by
  unfold tree.parseExpr
  refine P.bind_le (nextNonSpace_le fuel) ?_ t
  intro a t
  split
  · exact Res.le_refl _
  · split
    · refine P.bind_le (expect_le fuel _) ?_ t
      intro a t
      exact P.bind_le (expect_le fuel _) (fun a t => Res.le_refl _) t
    · exact Res.le_refl _

theorem parse_le : ∀ fuel,
    (∀ t, Res.le (tree.parse fuel t) (tree.parse (fuel + 1) t)) ∧
    (∀ t, Res.le (tree.parseTag fuel t) (tree.parseTag (fuel + 1) t)) ∧
    (∀ b t, Res.le (tree.parseEndifOrElse fuel b t) (tree.parseEndifOrElse (fuel + 1) b t)) ∧
    (∀ name n t, Res.le (tree.parseUntilEndTag fuel name n t) (tree.parseUntilEndTag (fuel + 1) name n t)) := by
  intro fuel
  induction fuel with
  | zero => exact ⟨fun _ => Or.inl rfl, fun _ => Or.inl rfl, fun _ _ => Or.inl rfl, fun _ _ _ => Or.inl rfl⟩
  | succ n ih =>
    obtain ⟨ih1, ih2, ih3, ih4⟩ := ih
    refine ⟨?_, ?_, ?_, ?_⟩
    · intro t
      rw [tree.parse, tree.parse]
      refine P.bind_le (nextNonSpace_le n) ?_ t
      intro a t
      split
      · exact Res.le_refl _
      · split
        · refine P.bind_le (parseExpr_le n) ?_ t
          intro a t
          exact P.bind_le (expect_le n _) (fun a t => Res.le_refl _) t
        · split
          · exact ih2 t
          · exact Res.le_refl _
    · intro t
      rw [tree.parseTag, tree.parseTag]
      refine P.bind_le (expect_le n _) ?_ t
      intro a t
      split
      · refine P.bind_le (parseExpr_le n) ?_ t
        intro a t
        refine P.bind_le (expect_le n _) ?_ t
        intro a t
        exact P.bind_le (ih4 _ _) (fun a t => Res.le_refl _) t
      · split
        · refine P.bind_le (parseExpr_le n) ?_ t
          intro a t
          refine P.bind_le (expect_le n _) ?_ t
          intro a t
          exact P.bind_le (ih3 _) (fun a t => Res.le_refl _) t
        · exact Res.le_refl _
    · intro b t
      rw [tree.parseEndifOrElse, tree.parseEndifOrElse]
      refine P.bind_le (fun t => Res.le_refl _) ?_ t
      intro a t
      split
      · refine P.bind_le (fun t => Res.le_refl _) ?_ t
        intro a t
        refine P.bind_le (expect_le n _) ?_ t
        intro a t
        split
        · refine P.bind_le (expect_le n _) ?_ t
          intro a t
          exact P.bind_le (ih4 _ _) (fun a t => Res.le_refl _) t
        · split
          · exact P.bind_le (expect_le n _) (fun a t => Res.le_refl _) t
          · refine P.bind_le (fun t => Res.le_refl _) ?_ t
            intro a t
            refine P.bind_le (fun t => Res.le_refl _) ?_ t
            intro a t
            refine P.bind_le (fun t => Res.le_refl _) ?_ t
            intro a t
            exact P.bind_le ih1 (fun a t => ih3 _ t) t
      · exact P.bind_le ih1 (fun a t => ih3 _ t) t
    · intro name m t
      rw [tree.parseUntilEndTag, tree.parseUntilEndTag]
      refine P.bind_le (fun t => Res.le_refl _) ?_ t
      intro a t
      split
      · refine P.bind_le (fun t => Res.le_refl _) ?_ t
        intro a t
        refine P.bind_le (expect_le n _) ?_ t
        intro a t
        split
        · exact P.bind_le (expect_le n _) (fun a t => Res.le_refl _) t
        · refine P.bind_le (fun t => Res.le_refl _) ?_ t
          intro a t
          refine P.bind_le (fun t => Res.le_refl _) ?_ t
          intro a t
          refine P.bind_le (fun t => Res.le_refl _) ?_ t
          intro a t
          exact P.bind_le ih1 (fun a t => ih4 _ _ t) t
      · exact P.bind_le ih1 (fun a t => ih4 _ _ t) t


theorem parseLoop_le : ∀ fuel t, Res.le (parseLoop fuel t) (parseLoop (fuel + 1) t) := by
  intro fuel
  induction fuel with
  | zero => intro t; exact Or.inl rfl
  | succ n ih =>
    intro t
    rw [parseLoop, parseLoop]
    refine P.bind_le (parse_le n).1 ?_ t
    intro a t
    split
    · exact Res.le_refl _
    · exact ih _

theorem parseLoop_le_add (fuel k : Nat) (t : tree) :
    Res.le (parseLoop fuel t) (parseLoop (fuel + k) t) := by
  induction k with
  | zero => exact Res.le_refl _
  | succ k ih => exact Res.le_trans ih (parseLoop_le (fuel + k) t)

theorem parseLoop_mono (fuel : Nat) (t : tree) (r : Res Unit) (h : parseLoop fuel t = r)
    (hr : r ≠ .outOfFuel) : ∀ k, parseLoop (fuel + k) t = r := by
  intro k
  induction k with
  | zero => exact h
  | succ k ih =>
    rcases parseLoop_le (fuel + k) t with h1 | h1
    · rw [ih] at h1; exact absurd h1 hr
    · rw [← Nat.add_assoc, ← h1, ih]

theorem Parse_mono (fuel : Nat) (input : String) (lex : lexer) (r : Res Unit)
    (h : Parse fuel input lex = r) (hr : r ≠ .outOfFuel) :
    ∀ k, Parse (fuel + k) input lex = r :=
  parseLoop_mono fuel _ r h hr

theorem P.bind_ok {α β : Type} {m : P α} {f : α → P β} {t t1 : tree} {a : α}
    (h : m t = .ok a t1) : (m >>= f) t = f a t1 := by
  show P.bind m f t = f a t1
  unfold P.bind
  rw [h]


theorem nextNonSpace_skip (ws : List (String × Nat)) :
    ∀ (fuel : Nat) (tok : token) (rest : List token) (root : ModuleNode) (input : String)
      (read : List token),
      ws.length < fuel → tok.tokenType ≠ tokenWhitespace →
      tree.nextNonSpace fuel ⟨root, input, ⟨spaces ws ++ tok :: rest⟩, [], read⟩
        = .ok tok ⟨root, input, ⟨rest⟩, [], read ++ (spaces ws ++ [tok])⟩ := by
  induction ws with
  | nil =>
    intro fuel tok rest root input read hf hne
    obtain ⟨f, rfl⟩ : ∃ f, fuel = f + 1 := ⟨fuel - 1, by simp at hf; omega⟩
    rw [tree.nextNonSpace]
    have h1 : tree.next ⟨root, input, ⟨spaces [] ++ tok :: rest⟩, [], read⟩
        = .ok tok ⟨root, input, ⟨rest⟩, [], read ++ [tok]⟩ := rfl
    rw [P.bind_ok h1]
    simp [hne, spaces]
    rfl
  | cons w ws ih =>
    intro fuel tok rest root input read hf hne
    obtain ⟨f, rfl⟩ : ∃ f, fuel = f + 1 := ⟨fuel - 1, by simp at hf; omega⟩
    rw [tree.nextNonSpace]
    have h1 : tree.next ⟨root, input, ⟨spaces (w :: ws) ++ tok :: rest⟩, [], read⟩
        = .ok ⟨tokenWhitespace, w.1, w.2⟩
            ⟨root, input, ⟨spaces ws ++ tok :: rest⟩, [], read ++ [⟨tokenWhitespace, w.1, w.2⟩]⟩ := rfl
    rw [P.bind_ok h1]
    simp only [ne_eq, not_true_eq_false, if_false]
    rw [ih f tok rest root input _ (by simp at hf; omega) hne]
    simp [spaces]


theorem expect_skip (ws : List (String × Nat)) (fuel : Nat) (typ : tokenType) (tok : token)
    (rest : List token) (root : ModuleNode) (input : String) (read : List token)
    (hf : ws.length < fuel) (hty : tok.tokenType = typ) (hne : typ ≠ tokenWhitespace) :
    tree.expect fuel typ ⟨root, input, ⟨spaces ws ++ tok :: rest⟩, [], read⟩
      = .ok tok ⟨root, input, ⟨rest⟩, [], read ++ (spaces ws ++ [tok])⟩ := by
  unfold tree.expect
  rw [P.bind_ok (nextNonSpace_skip ws fuel tok rest root input read hf (by rw [hty]; exact hne))]
  simp [hty]
  rfl

theorem parseExpr_name (ws : List (String × Nat)) (fuel : Nat) (v : String) (p : Nat)
    (rest : List token) (root : ModuleNode) (input : String) (read : List token)
    (hf : ws.length < fuel) :
    tree.parseExpr fuel ⟨root, input, ⟨spaces ws ++ ⟨tokenName, v, p⟩ :: rest⟩, [], read⟩
      = .ok (Expr.name v 0) ⟨root, input, ⟨rest⟩, [], read ++ (spaces ws ++ [⟨tokenName, v, p⟩])⟩ := by
  unfold tree.parseExpr
  rw [P.bind_ok (nextNonSpace_skip ws fuel _ rest root input read hf (by simp))]
  rfl

theorem parse_print (w1 w2 w3 : List (String × Nat)) (fuel : Nat) (v vo vc : String)
    (p1 p2 p3 : Nat) (rest : List token) (root : ModuleNode) (input : String) (read : List token)
    (h1 : w1.length < fuel) (h2 : w2.length < fuel) (h3 : w3.length < fuel) :
    tree.parse (fuel + 1) ⟨root, input, ⟨spaces w1 ++ ⟨tokenPrintOpen, vo, p1⟩ ::
        (spaces w2 ++ ⟨tokenName, v, p2⟩ :: (spaces w3 ++ ⟨tokenPrintClose, vc, p3⟩ :: rest))⟩,
        [], read⟩
      = .ok (Node.print (Expr.name v 0) p1) ⟨root, input, ⟨rest⟩, [],
          read ++ (spaces w1 ++ ⟨tokenPrintOpen, vo, p1⟩ ::
            (spaces w2 ++ ⟨tokenName, v, p2⟩ :: (spaces w3 ++ [⟨tokenPrintClose, vc, p3⟩])))⟩ := by
  rw [tree.parse]
  rw [P.bind_ok (nextNonSpace_skip w1 fuel _ _ root input read h1 (by simp))]
  simp only [reduceCtorEq, if_false, if_true]
  rw [P.bind_ok (parseExpr_name w2 fuel v p2 _ root input _ h2)]
  rw [P.bind_ok (expect_skip w3 fuel tokenPrintClose _ rest root input _ h3 rfl (by decide))]
  simp [newPrintNode, pure]

theorem parse_eof (w : List (String × Nat)) (fuel : Nat) (ve : String) (p : Nat)
    (rest : List token) (root : ModuleNode) (input : String) (read : List token)
    (h : w.length < fuel) :
    tree.parse (fuel + 1) ⟨root, input, ⟨spaces w ++ ⟨tokenEof, ve, p⟩ :: rest⟩, [], read⟩
      = .ok Node.nil ⟨root, input, ⟨rest⟩, [], read ++ (spaces w ++ [⟨tokenEof, ve, p⟩])⟩ := by
  rw [tree.parse]
  rw [P.bind_ok (nextNonSpace_skip w fuel _ _ root input read h (by simp))]
  rfl

theorem Parse_print_spaces (v vo vc ve input : String) (p1 p2 p3 p4 : Nat)
    (w1 w2 w3 w4 : List (String × Nat)) (k : Nat) :
    Parse (w1.length + w2.length + w3.length + w4.length + 4 + k) input
      ⟨spaces w1 ++ ⟨tokenPrintOpen, vo, p1⟩ :: (spaces w2 ++ ⟨tokenName, v, p2⟩ ::
        (spaces w3 ++ ⟨tokenPrintClose, vc, p3⟩ :: (spaces w4 ++ [⟨tokenEof, ve, p4⟩])))⟩
    = .ok () ⟨ModuleNode.mk "" [Node.print (Expr.name v 0) p1], input, ⟨[]⟩, [],
        spaces w1 ++ ⟨tokenPrintOpen, vo, p1⟩ :: (spaces w2 ++ ⟨tokenName, v, p2⟩ ::
        (spaces w3 ++ ⟨tokenPrintClose, vc, p3⟩ :: (spaces w4 ++ [⟨tokenEof, ve, p4⟩])))⟩ := by
  obtain ⟨f, hf⟩ : ∃ f, w1.length + w2.length + w3.length + w4.length + 4 + k = f + 3 :=
    ⟨w1.length + w2.length + w3.length + w4.length + 1 + k, by omega⟩
  rw [hf]
  unfold Parse
  rw [parseLoop]
  rw [P.bind_ok (parse_print w1 w2 w3 (f + 1) v vo vc p1 p2 p3 _ _ input [] (by omega) (by omega) (by omega))]
  simp only
  rw [parseLoop]
  rw [P.bind_ok (parse_eof w4 f ve p4 [] _ input _ (by omega))]
  simp [pure, newModuleNode, ModuleNode.append, ModuleNode.Origin, ModuleNode.nodes]

/-! ## Strings -/

theorem lastIndexLoop_absent (s : List Char) (c : Char) (h : c ∉ s) :
    ∀ n, lastIndexLoop s c n = -1 := by
  intro n
  induction n with
  | zero => rfl
  | succ i ih =>
    rw [lastIndexLoop]
    split
    · rename_i hg
      exact absurd (List.get?_mem hg) h
    · exact ih

theorem lastIndexLoop_found (s : List Char) (c : Char) :
    ∀ n, (∃ j, j < n ∧ s.get? j = some c) →
      ∃ i : Nat, i < n ∧ lastIndexLoop s c n = (i : Int) ∧ s.get? i = some c ∧
        ∀ j, i < j → j < n → s.get? j ≠ some c := by
  intro n
  induction n with
  | zero => rintro ⟨j, hj, _⟩; omega
  | succ i ih =>
    rintro ⟨j, hj, hjc⟩
    rw [lastIndexLoop]
    split
    · rename_i hg
      exact ⟨i, by omega, rfl, hg, fun j h1 h2 => by omega⟩
    · rename_i hg
      have hji : j < i := by
        rcases Nat.lt_or_ge j i with h | h
        · exact h
        · have : j = i := by omega
          subst this
          exact absurd hjc hg
      obtain ⟨k, hk1, hk2, hk3, hk4⟩ := ih ⟨j, hji, hjc⟩
      refine ⟨k, by omega, hk2, hk3, ?_⟩
      intro m hm1 hm2
      rcases Nat.lt_or_ge m i with h | h
      · exact hk4 m hm1 h
      · have : m = i := by omega
        subst this
        exact hg

/-- What `guessTypeFromName` returns for a name that keeps a `.` once the suffix
is stripped: the last `.` itself followed by the text after it. -/
theorem guessTypeFromName_of_dot (name : String)
    (h : '.' ∈ (TrimSuffix name ".twig").data) :
    ∃ pre rest : List Char, (TrimSuffix name ".twig").data = pre ++ '.' :: rest ∧ '.' ∉ rest ∧
      guessTypeFromName name = String.mk ('.' :: rest) := by
  obtain ⟨j, hj⟩ := List.mem_iff_get?.1 h
  have hjlt : j < (TrimSuffix name ".twig").data.length := by
    rw [List.get?_eq_getElem?] at hj
    exact (List.getElem?_eq_some.1 hj).1
  obtain ⟨i, hi1, hi2, hi3, hi4⟩ :=
    lastIndexLoop_found (TrimSuffix name ".twig").data '.' (TrimSuffix name ".twig").data.length
      ⟨j, hjlt, hj⟩
  have hget : (TrimSuffix name ".twig").data[i] = '.' := by
    rw [List.get?_eq_getElem?] at hi3
    obtain ⟨_, h2⟩ := List.getElem?_eq_some.1 hi3
    exact h2
  refine ⟨(TrimSuffix name ".twig").data.take i, (TrimSuffix name ".twig").data.drop (i + 1), ?_, ?_, ?_⟩
  · rw [← hget, List.getElem_cons_drop, List.take_append_drop]
  · intro hmem
    obtain ⟨k, hk⟩ := List.mem_iff_get?.1 hmem
    rw [List.get?_eq_getElem?, List.getElem?_drop] at hk
    have hlt : i + 1 + k < (TrimSuffix name ".twig").data.length := (List.getElem?_eq_some.1 hk).1
    exact hi4 (i + 1 + k) (by omega) hlt (by rw [List.get?_eq_getElem?]; exact hk)
  · unfold guessTypeFromName LastIndex
    simp only [String.length]
    rw [hi2]
    simp only [Int.toNat_ofNat]
    rw [if_neg (by omega)]
    rw [List.drop_eq_getElem_cons hi1, hget]

/-! ## Visitor -/

theorem current_push (rest : List String) (L : String) :
    autoEscapeVisitor.current { stack := rest ++ [L] } = L := by
  simp [autoEscapeVisitor.current]

theorem current_eq_scopeLabel (s : List String) :
    autoEscapeVisitor.current { stack := s } = scopeLabel s := by
  rcases List.eq_nil_or_concat s with h | ⟨rest, L, h⟩
  · subst h; rfl
  · rw [List.concat_eq_append] at h
    subst h
    rw [current_push]
    simp [scopeLabel]

theorem pop_push (s : List String) (name : String) :
    autoEscapeVisitor.pop { stack := s ++ [name] } = some { stack := s } := by
  simp [autoEscapeVisitor.pop]

mutual
theorem walkNode_eq (s : List String) : ∀ n : Node,
    walkNode { stack := s } n = some ({ stack := s }, mapPrintsNode escapeCall s n)
  | .nil => rfl
  | .text _ _ => rfl
  | .print x pos => by
    simp only [walkNode, autoEscapeVisitor.Enter, autoEscapeVisitor.Leave, mapPrintsNode,
      current_eq_scopeLabel, NewFilterExpr, NewStringExpr, escapeCall, Option.map_some']
  | .module m => by
    simp only [walkNode, walkModule_eq s m, mapPrintsNode, Option.map_some']
  | .block name body origin pos => by
    simp only [walkNode, autoEscapeVisitor.Enter, autoEscapeVisitor.push,
      walkModule_eq (s ++ [guessTypeFromName origin]) body, autoEscapeVisitor.Leave, pop_push,
      mapPrintsNode, Option.map_some']
  | .ifn cond body els pos => by
    simp only [walkNode, autoEscapeVisitor.Enter, walkModule_eq s body, walkElse_eq s els,
      autoEscapeVisitor.Leave, mapPrintsNode, Option.map_some']
theorem walkModule_eq (s : List String) : ∀ m : ModuleNode,
    walkModule { stack := s } m = some ({ stack := s }, mapPrintsModule escapeCall s m)
  | .mk origin nodes => by
    simp only [walkModule, autoEscapeVisitor.Enter, autoEscapeVisitor.push, ModuleNode.Origin,
      walkList_eq (s ++ [guessTypeFromName origin]) nodes, autoEscapeVisitor.Leave, pop_push,
      mapPrintsModule, Option.map_some']
theorem walkElse_eq (s : List String) : ∀ e : Option ModuleNode,
    walkElse { stack := s } e = some ({ stack := s }, mapPrintsElse escapeCall s e)
  | none => rfl
  | some m => by
    simp only [walkElse, walkModule_eq s m, mapPrintsElse, Option.map_some']
theorem walkList_eq (s : List String) : ∀ ns : List Node,
    walkList { stack := s } ns = some ({ stack := s }, mapPrintsList escapeCall s ns)
  | [] => rfl
  | n :: ns => by
    simp only [walkList, walkNode_eq s n, walkList_eq s ns, mapPrintsList]
end

mutual
theorem mapPrintsNode_comp (f g : String → Expr → Expr) (s : List String) : ∀ n : Node,
    mapPrintsNode g s (mapPrintsNode f s n) = mapPrintsNode (fun L e => g L (f L e)) s n
  | .nil => rfl
  | .text _ _ => rfl
  | .print _ _ => rfl
  | .module m => by
    simp only [mapPrintsNode, mapPrintsModule_comp f g s m]
  | .block name body origin pos => by
    simp only [mapPrintsNode, mapPrintsModule_comp f g _ body]
  | .ifn cond body els pos => by
    simp only [mapPrintsNode, mapPrintsModule_comp f g s body, mapPrintsElse_comp f g s els]
theorem mapPrintsModule_comp (f g : String → Expr → Expr) (s : List String) : ∀ m : ModuleNode,
    mapPrintsModule g s (mapPrintsModule f s m) = mapPrintsModule (fun L e => g L (f L e)) s m
  | .mk origin nodes => by
    simp only [mapPrintsModule, mapPrintsList_comp f g _ nodes]
theorem mapPrintsElse_comp (f g : String → Expr → Expr) (s : List String) : ∀ e : Option ModuleNode,
    mapPrintsElse g s (mapPrintsElse f s e) = mapPrintsElse (fun L e => g L (f L e)) s e
  | none => rfl
  | some m => by
    simp only [mapPrintsElse, mapPrintsModule_comp f g s m]
theorem mapPrintsList_comp (f g : String → Expr → Expr) (s : List String) : ∀ ns : List Node,
    mapPrintsList g s (mapPrintsList f s ns) = mapPrintsList (fun L e => g L (f L e)) s ns
  | [] => rfl
  | n :: ns => by
    simp only [mapPrintsList, mapPrintsNode_comp f g s n, mapPrintsList_comp f g s ns]
end

theorem filter_cons_ne (name : String) (e : Expr) (rest : List Expr) (pos : Nat) :
    Expr.filter name (e :: rest) pos ≠ e := by
  intro h
  have := congrArg sizeOf h
  simp at this
  omega

theorem escapeCall_twice_ne (L : String) (e : Expr) :
    escapeCall L (escapeCall L e) ≠ escapeCall L e := by
  intro h
  unfold escapeCall at h
  injection h with _ h2 _
  injection h2 with h3 _
  exact filter_cons_ne _ _ _ _ h3


/-! ## End-of-input inside a body -/

theorem P.bind_stuck {α β : Type} {m : P α} {f : α → P β} {t : tree}
    (h : Res.stuck (m t)) : Res.stuck ((m >>= f) t) := by
  show Res.stuck (P.bind m f t)
  unfold P.bind
  rcases h with h | h <;> rw [h]
  · exact Or.inl rfl
  · exact Or.inr rfl

theorem P.bind_ok_stuck {α β : Type} {m : P α} {f : α → P β} {t t1 : tree} {a : α}
    (h : m t = .ok a t1) (hs : Res.stuck (f a t1)) : Res.stuck ((m >>= f) t) := by
  rw [P.bind_ok h]
  exact hs

theorem Res.stuck_of_le {α : Type} {r r' : Res α} (h : Res.le r r') (hs : Res.stuck r') :
    Res.stuck r := by
  rcases h with h | h
  · exact Or.inr h
  · rw [h]; exact hs

theorem peek_lex (tok : token) (ts : List token) (root : ModuleNode) (input : String)
    (read : List token) :
    tree.peek ⟨root, input, ⟨tok :: ts⟩, [], read⟩ = .ok tok ⟨root, input, ⟨ts⟩, [tok], read⟩ := by
  have h1 : tree.next ⟨root, input, ⟨tok :: ts⟩, [], read⟩
      = .ok tok ⟨root, input, ⟨ts⟩, [], read ++ [tok]⟩ := rfl
  have h2 : tree.backup ⟨root, input, ⟨ts⟩, [], read ++ [tok]⟩
      = .ok () ⟨root, input, ⟨ts⟩, [tok], read⟩ := by
    simp [tree.backup]
  unfold tree.peek
  rw [P.bind_ok h1, P.bind_ok h2]
  rfl

theorem parse_unread_plain (tok : token) (h : tok.tokenType = tokenText ∨ tok.tokenType = tokenEof)
    (root : ModuleNode) (input : String) (lex : lexer) (read : List token) (f : Nat) :
    ∃ c, tree.parse (f + 2) ⟨root, input, lex, [tok], read⟩
      = .ok c ⟨root, input, lex, [], read ++ [tok]⟩ := by
  have hne : tok.tokenType ≠ tokenWhitespace := by
    rcases h with h | h <;> rw [h] <;> decide
  have h1 : tree.next ⟨root, input, lex, [tok], read⟩
      = .ok tok ⟨root, input, lex, [], read ++ [tok]⟩ := rfl
  have h2 : tree.nextNonSpace (f + 1) ⟨root, input, lex, [tok], read⟩
      = .ok tok ⟨root, input, lex, [], read ++ [tok]⟩ := by
    rw [tree.nextNonSpace, P.bind_ok h1]
    simp [hne]
    rfl
  rw [tree.parse, P.bind_ok h2]
  rcases h with h | h
  · exact ⟨newTextNode tok.value tok.pos, by simp [h]; rfl⟩
  · exact ⟨Node.nil, by simp [h]; rfl⟩

theorem P.bind_ok_eq {α β : Type} {m : P α} {f : α → P β} {t t1 : tree} {a : α} {r : Res β}
    (h : m t = .ok a t1) (h2 : f a t1 = r) : (m >>= f) t = r := by
  rw [P.bind_ok h]
  exact h2

theorem P.bind_blocked {α β : Type} {m : P α} {f : α → P β} {t : tree}
    (h : m t = .blocked) : (m >>= f) t = .blocked := by
  show P.bind m f t = .blocked
  unfold P.bind
  rw [h]

theorem parseUntilEndTag_blocked (name : String) :
    ∀ ts : List token, (∀ tok ∈ ts, tok.tokenType = tokenText ∨ tok.tokenType = tokenEof) →
      ∀ (fuel : Nat) (n root : ModuleNode) (input : String) (read : List token),
        ts.length + 2 ≤ fuel →
        tree.parseUntilEndTag fuel name n ⟨root, input, ⟨ts⟩, [], read⟩ = .blocked := by
  intro ts
  induction ts with
  | nil =>
    intro _ fuel n root input read hf
    obtain ⟨f, rfl⟩ : ∃ f, fuel = f + 1 := ⟨fuel - 1, by simp at hf; omega⟩
    rw [tree.parseUntilEndTag]
    exact P.bind_blocked rfl
  | cons tok ts ih =>
    intro hall fuel n root input read hf
    obtain ⟨g, rfl⟩ : ∃ g, fuel = g + 2 + 1 := ⟨fuel - 3, by simp at hf; omega⟩
    have htok := hall tok (List.mem_cons_self _ _)
    have hne : tok.tokenType ≠ tokenTagOpen := by
      rcases htok with h | h <;> rw [h] <;> decide
    rw [tree.parseUntilEndTag, P.bind_ok (peek_lex tok ts root input read)]
    simp only [hne, if_false]
    obtain ⟨c, h⟩ := parse_unread_plain tok htok root input ⟨ts⟩ read g
    rw [P.bind_ok h]
    exact ih (fun t ht => hall t (List.mem_cons_of_mem _ ht)) (g + 2) _ root input _
      (by simp at hf; omega)

theorem parseUntilEndTag_stuck (name : String) :
    ∀ ts : List token, (∀ tok ∈ ts, tok.tokenType = tokenText ∨ tok.tokenType = tokenEof) →
      ∀ (fuel : Nat) (n root : ModuleNode) (input : String) (read : List token),
        Res.stuck (tree.parseUntilEndTag fuel name n ⟨root, input, ⟨ts⟩, [], read⟩) := by
  intro ts
  induction ts with
  | nil =>
    intro _ fuel n root input read
    cases fuel with
    | zero => exact Or.inr rfl
    | succ f =>
      rw [tree.parseUntilEndTag]
      exact P.bind_stuck (Or.inl rfl)
  | cons tok ts ih =>
    intro hall fuel n root input read
    cases fuel with
    | zero => exact Or.inr rfl
    | succ f =>
      have htok := hall tok (List.mem_cons_self _ _)
      have hne : tok.tokenType ≠ tokenTagOpen := by
        rcases htok with h | h <;> rw [h] <;> decide
      rw [tree.parseUntilEndTag, P.bind_ok (peek_lex tok ts root input read)]
      simp only [hne, if_false]
      rcases f with _ | _ | g
      · exact P.bind_stuck (Or.inr rfl)
      · exact P.bind_stuck (Or.inr rfl)
      · obtain ⟨c, h⟩ := parse_unread_plain tok htok root input ⟨ts⟩ read g
        exact P.bind_ok_stuck h
          (ih (fun t ht => hall t (List.mem_cons_of_mem _ ht)) (g + 2) _ root input _)

theorem Parse_open_block_stuck (input : String) (ts : List token)
    (hall : ∀ tok ∈ ts, tok.tokenType = tokenText ∨ tok.tokenType = tokenEof) (fuel : Nat) :
    Res.stuck (Parse fuel input ⟨tokensOpenBlock ++ ts⟩) := by
  have key : ∀ f, Res.stuck (Parse (f + 5) input ⟨tokensOpenBlock ++ ts⟩) := by
    intro f
    unfold Parse
    rw [parseLoop]
    apply P.bind_stuck
    rw [tree.parse]
    refine P.bind_ok_stuck
      (nextNonSpace_skip [] (f + 3) ⟨tokenTagOpen, lexTagOpen, 0⟩ _ _ _ _ (by simp) (by simp)) ?_
    simp only [reduceCtorEq, if_false, if_true]
    rw [tree.parseTag]
    refine P.bind_ok_stuck
      (expect_skip [(" ", 2)] (f + 2) tokenName ⟨tokenName, "block", 3⟩ _ _ _ _ (by simp) rfl
        (by decide)) ?_
    simp only [if_true]
    refine P.bind_ok_stuck (parseExpr_name [(" ", 8)] (f + 2) "t" 9 _ _ _ _ (by simp)) ?_
    refine P.bind_ok_stuck
      (expect_skip [(" ", 10)] (f + 2) tokenTagClose ⟨tokenTagClose, lexTagClose, 11⟩ _ _ _ _ (by simp) rfl
        (by decide)) ?_
    apply P.bind_stuck
    refine parseUntilEndTag_stuck "block" (⟨tokenText, "hi", 13⟩ :: ts) ?_ _ _ _ _ _
    intro tok htok
    rcases List.mem_cons.1 htok with h | h
    · left; rw [h]
    · exact hall tok h
  exact Res.stuck_of_le (parseLoop_le_add fuel 5 _) (key fuel)

theorem Parse_open_block_blocked (input : String) (ts : List token)
    (hall : ∀ tok ∈ ts, tok.tokenType = tokenText ∨ tok.tokenType = tokenEof) (k : Nat) :
    Parse (ts.length + 6 + k) input ⟨tokensOpenBlock ++ ts⟩ = .blocked := by
  obtain ⟨f, hf, hlen⟩ : ∃ f, ts.length + 6 + k = f + 3 ∧ ts.length + 3 ≤ f :=
    ⟨ts.length + 3 + k, by omega, by omega⟩
  rw [hf]
  unfold Parse
  rw [parseLoop]
  apply P.bind_blocked
  rw [tree.parse]
  refine P.bind_ok_eq
    (nextNonSpace_skip [] (f + 1) ⟨tokenTagOpen, lexTagOpen, 0⟩ _ _ _ _ (by simp) (by simp)) ?_
  simp only [reduceCtorEq, if_false, if_true]
  rw [tree.parseTag]
  refine P.bind_ok_eq
    (expect_skip [(" ", 2)] f tokenName ⟨tokenName, "block", 3⟩ _ _ _ _ (by simp; omega) rfl
      (by decide)) ?_
  simp only [if_true]
  refine P.bind_ok_eq (parseExpr_name [(" ", 8)] f "t" 9 _ _ _ _ (by simp; omega)) ?_
  refine P.bind_ok_eq
    (expect_skip [(" ", 10)] f tokenTagClose ⟨tokenTagClose, lexTagClose, 11⟩ _ _ _ _ (by simp; omega) rfl
      (by decide)) ?_
  apply P.bind_blocked
  refine parseUntilEndTag_blocked "block" (⟨tokenText, "hi", 13⟩ :: ts) ?_ _ _ _ _ _
    (by simp; omega)
  intro tok htok
  rcases List.mem_cons.1 htok with h | h
  · left; rw [h]
  · exact hall tok h

/-! ## The claims -/

/-- C1 (the code departs from the claim): `guessTypeFromName` returns `name[p:]`,
which starts at the last `.` and so keeps it: `"a.b.twig"` gives `".b"`,
`"page.js"` gives `".js"` and `"page.html.twig"` gives `".html"`, where the claim
has `"b"`, `"js"` and `"html"`. -/
theorem guessTypeFromName_keeps_dot :
    guessTypeFromName "a.b.twig" = ".b" ∧ guessTypeFromName "page.js" = ".js" ∧
    guessTypeFromName "page.html.twig" = ".html" ∧
    guessTypeFromName "a.b.twig" ≠ "b" ∧ guessTypeFromName "page.js" ≠ "js" ∧
    guessTypeFromName "page.html.twig" ≠ "html" := by
  decide

/-- C2: for every name that contains no `.` once one trailing `.twig` is
stripped, `guessTypeFromName` returns `"html"`. -/
theorem guessTypeFromName_default (name : String)
    (h : '.' ∉ (TrimSuffix name ".twig").data) : guessTypeFromName name = "html" := by
  unfold guessTypeFromName LastIndex
  simp only
  rw [lastIndexLoop_absent _ _ h]
  rfl

/-- C2 at the names of the claim: `"a.twig"`, `"noext"`, `"page"`, `""` and
`".twig"` hold no `.` after stripping and give `"html"`. -/
theorem guessTypeFromName_default_witness :
    '.' ∉ (TrimSuffix "a.twig" ".twig").data ∧
    guessTypeFromName "a.twig" = "html" ∧ guessTypeFromName "noext" = "html" ∧
    guessTypeFromName "page" = "html" ∧ guessTypeFromName "" = "html" ∧
    guessTypeFromName ".twig" = "html" :=
  ⟨by decide, guessTypeFromName_default "a.twig" (by decide),
    guessTypeFromName_default "noext" (by decide), guessTypeFromName_default "page" (by decide),
    guessTypeFromName_default "" (by decide), guessTypeFromName_default ".twig" (by decide)⟩

/-- C3 (the code departs from the claim): one run of the visitor, from an empty
stack, over a module with origin `"a.html"` whose only child is
`PrintNode(NameExpr("x"))` ends with an empty stack and leaves the print node
holding `FilterExpr("escape", [NameExpr("x"), StringExpr(".html")])`: the label
is `".html"`, with the dot, not the `"html"` of the claim. -/
theorem autoEscape_a_html (p q : Nat) :
    AutoEscape (.module (.mk "a.html" [.print (.name "x" p) q]))
      = some ({ stack := [] },
          .module (.mk "a.html"
            [.print (.filter "escape" [.name "x" p, .string ".html" p] p) q])) ∧
    AutoEscape (.module (.mk "a.html" [.print (.name "x" p) q]))
      ≠ some ({ stack := [] },
          .module (.mk "a.html"
            [.print (.filter "escape" [.name "x" p, .string "html" p] p) q])) := by
  have h : AutoEscape (.module (.mk "a.html" [.print (.name "x" p) q]))
      = some ({ stack := [] },
          .module (.mk "a.html"
            [.print (.filter "escape" [.name "x" p, .string ".html" p] p) q])) := rfl
  refine ⟨h, ?_⟩
  rw [h]
  simp

/-- C4: on a stack whose top label is `L` (`rest ++ [L]`, any `rest`), `Enter` of
a print node holding `e` leaves the stack as it is and replaces the expression
by the filter expression named `"escape"` with the arguments `[e, StringExpr(L)]`
in that order, the filter expression and the string expression both at the start
position of `e`; the position of the print node is kept. -/
theorem Enter_print (rest : List String) (L : String) (e : Expr) (pos : Nat) :
    autoEscapeVisitor.Enter { stack := rest ++ [L] } (.print e pos)
      = ({ stack := rest ++ [L] },
          .print (Expr.filter "escape" [e, Expr.string L e.Start] e.Start) pos) := by
  simp only [autoEscapeVisitor.Enter, current_push, NewFilterExpr, NewStringExpr]

/-- C5: for every tree rooted at a module node, one run of the visitor ends with
an empty stack and replaces the expression `e` of every print node by
`escapeCall L e`, `L` being the label inferred for it; a second run over the
result ends with an empty stack and leaves every print node holding
`escapeCall L (escapeCall L e)`, that is
`FilterExpr("escape", [FilterExpr("escape", [e, StringExpr(L)]), StringExpr(L)])`,
which is never the expression `escapeCall L e` of the first run. -/
theorem autoEscape_not_idempotent (origin : String) (nodes : List Node) :
    AutoEscape (.module (.mk origin nodes))
      = some ({ stack := [] }, mapPrintsNode escapeCall [] (.module (.mk origin nodes))) ∧
    AutoEscape (mapPrintsNode escapeCall [] (.module (.mk origin nodes)))
      = some ({ stack := [] },
          mapPrintsNode (fun L e => escapeCall L (escapeCall L e)) []
            (.module (.mk origin nodes))) ∧
    (∀ (L : String) (e : Expr),
      escapeCall L (escapeCall L e)
        = Expr.filter "escape"
            [Expr.filter "escape" [e, Expr.string L e.Start] e.Start, Expr.string L e.Start]
            e.Start ∧
      escapeCall L (escapeCall L e) ≠ escapeCall L e) := by
  refine ⟨walkNode_eq [] _, ?_, fun L e => ⟨rfl, escapeCall_twice_ne L e⟩⟩
  unfold AutoEscape
  rw [walkNode_eq [] _, mapPrintsNode_comp]

/-- C6: with enough fuel (any amount from the bound on), parsing the stream
print-open, name `v`, print-close, end-of-input, with any whitespace tokens
before each of the four, returns a tree whose root has exactly one child, the
print node of `NameExpr(v)` at the position of the print-open token; every token
has been read. The stream of `{{ name }}` is the case of one whitespace token
before the name and one before the print-close. -/
theorem Parse_print_name (v vo vc ve input : String) (p1 p2 p3 p4 : Nat)
    (w1 w2 w3 w4 : List (String × Nat)) (k : Nat) :
    Parse (w1.length + w2.length + w3.length + w4.length + 4 + k) input
      ⟨spaces w1 ++ ⟨tokenPrintOpen, vo, p1⟩ :: (spaces w2 ++ ⟨tokenName, v, p2⟩ ::
        (spaces w3 ++ ⟨tokenPrintClose, vc, p3⟩ :: (spaces w4 ++ [⟨tokenEof, ve, p4⟩])))⟩
      = .ok () ⟨ModuleNode.mk "" [Node.print (Expr.name v 0) p1], input, ⟨[]⟩, [],
          spaces w1 ++ ⟨tokenPrintOpen, vo, p1⟩ :: (spaces w2 ++ ⟨tokenName, v, p2⟩ ::
          (spaces w3 ++ ⟨tokenPrintClose, vc, p3⟩ :: (spaces w4 ++ [⟨tokenEof, ve, p4⟩])))⟩ ∧
    Parse (6 + k) srcPrintName ⟨tokensPrintName⟩
      = .ok () ⟨ModuleNode.mk "" [Node.print (Expr.name "name" 0) 0], srcPrintName, ⟨[]⟩, [],
          tokensPrintName⟩ :=
  ⟨Parse_print_spaces v vo vc ve input p1 p2 p3 p4 w1 w2 w3 w4 k,
    Parse_print_spaces "name" lexPrintOpen lexPrintClose "" srcPrintName 0 3 8 10 [] [(" ", 2)] [(" ", 7)] [] k⟩

/-- C7: with enough fuel (7 or more), parsing the stream of
`{% block title %}hi{% endblock %}` returns a tree whose root has exactly one
child, the block node with name `NameExpr("title")` whose body is a module with
the single child `TextNode("hi")`; every token through the tag-close of the
`endblock` tag and the end-of-input has been read and none is left unread, so
the `endblock` tag has produced no node. -/
theorem Parse_block_title (k : Nat) :
    Parse (7 + k) srcBlockTitle ⟨tokensBlockTitle⟩
      = .ok () ⟨ModuleNode.mk ""
            [Node.block (Expr.name "title" 0) (ModuleNode.mk "" [Node.text "hi" 17]) "" 3],
          srcBlockTitle, ⟨[]⟩, [], tokensBlockTitle⟩ :=
  Parse_mono 7 _ _ _ (by decide!) (by simp) k

/-- C9 (the code departs from the claim): after the open block of
`{% block t %}hi`, on any run of text and end-of-input tokens `ts` (the stream
of the template has the single end-of-input token), the parser raises no fatal
failure. At end-of-input inside the body `parse()` returns `nil`,
`parseUntilEndTag` appends it and asks for the next token: whatever the fuel the
run neither returns a tree nor panics, and with enough fuel it waits for a token
that never comes. -/
theorem Parse_unterminated_block (ts : List token)
    (hall : ∀ tok ∈ ts, tok.tokenType = tokenText ∨ tok.tokenType = tokenEof) :
    (∀ fuel : Nat,
      Parse fuel srcUnterminated ⟨tokensOpenBlock ++ ts⟩ = .blocked ∨
      Parse fuel srcUnterminated ⟨tokensOpenBlock ++ ts⟩ = .outOfFuel) ∧
    (∀ k : Nat, Parse (ts.length + 6 + k) srcUnterminated ⟨tokensOpenBlock ++ ts⟩ = .blocked) :=
  ⟨fun fuel => Parse_open_block_stuck _ ts hall fuel,
    fun k => Parse_open_block_blocked _ ts hall k⟩

/-- C9 at the stream of `{% block t %}hi`: one end-of-input token after the open
block; from fuel 7 on the run waits for a token. -/
theorem Parse_unterminated_block_witness :
    (∀ tok ∈ [(⟨tokenEof, "", 15⟩ : token)], tok.tokenType = tokenText ∨ tok.tokenType = tokenEof) ∧
    (∀ fuel : Nat,
      Parse fuel srcUnterminated ⟨tokensUnterminated⟩ = .blocked ∨
      Parse fuel srcUnterminated ⟨tokensUnterminated⟩ = .outOfFuel) ∧
    (∀ k : Nat, Parse (7 + k) srcUnterminated ⟨tokensUnterminated⟩ = .blocked) :=
  ⟨by decide, Parse_unterminated_block [⟨tokenEof, "", 15⟩] (by decide)⟩

/-- C10 (the code departs from the claim): on the stream of `{% foo %}x`,
with enough fuel, `Parse` returns normally with a root without children after
reading only the tag-open, the whitespace and the name `foo`: `parseTag` returns
`nil` for the unrecognized name and `Parse` takes it for the end of the input.
The tag-close, the text `x` and the end-of-input token are never read. -/
theorem Parse_unknown_tag (k : Nat) :
    Parse (5 + k) srcUnknownTag ⟨tokensUnknownTag⟩
      = .ok () ⟨ModuleNode.mk "" [], srcUnknownTag,
          ⟨[⟨tokenWhitespace, " ", 6⟩, ⟨tokenTagClose, lexTagClose, 7⟩, ⟨tokenText, "x", 9⟩,
            ⟨tokenEof, "", 10⟩]⟩, [],
          [⟨tokenTagOpen, lexTagOpen, 0⟩, ⟨tokenWhitespace, " ", 2⟩, ⟨tokenName, "foo", 3⟩]⟩ :=
  Parse_mono 5 _ _ _ (by decide!) (by simp) k

/-! ## The token buffer -/

theorem tree.next_cases (t : tree) :
    (∃ tok t1, tree.next t = .ok tok t1 ∧ t.pending = tok :: t1.pending ∧
        t1.read = t.read ++ [tok] ∧ t1.root = t.root ∧ t1.input = t.input) ∨
    (tree.next t = .blocked ∧ t.pending = []) := by
  obtain ⟨root, input, lex, unread, read⟩ := t
  rcases List.eq_nil_or_concat unread with h | ⟨u, x, h⟩
  · subst h
    obtain ⟨toks⟩ := lex
    cases toks with
    | nil => exact Or.inr ⟨rfl, rfl⟩
    | cons tok rest => exact Or.inl ⟨tok, _, rfl, rfl, rfl, rfl, rfl⟩
  · rw [List.concat_eq_append] at h
    subst h
    left
    refine ⟨x, ⟨root, input, lex, u, read ++ [x]⟩, ?_, ?_, rfl, rfl, rfl⟩
    · simp [tree.next]
    · simp [tree.pending]

theorem tree.backup_concat (root : ModuleNode) (input : String) (lex : lexer)
    (unread read : List token) (tok : token) :
    tree.backup ⟨root, input, lex, unread, read ++ [tok]⟩
      = .ok () ⟨root, input, lex, unread ++ [tok], read⟩ := by
  simp [tree.backup]

theorem tree.backup_nil (root : ModuleNode) (input : String) (lex : lexer)
    (unread : List token) :
    tree.backup ⟨root, input, lex, unread, []⟩ = .panic .indexOutOfRange := rfl

theorem List.get?_append_cons {α : Type} (l r : List α) (a : α) :
    (l ++ a :: r).get? l.length = some a := by
  induction l with
  | nil => rfl
  | cons x l ih => simpa using ih

theorem tree.next_view (t : tree) : (tree.next t).view = some (t.toCursor.next) := by
  rcases tree.next_cases t with ⟨tok, t1, h1, h2, h3, _, _⟩ | ⟨h1, h2⟩
  · rw [h1]
    simp only [Res.view, tree.toCursor, Cursor.next, h2, h3, List.get?_append_cons]
    simp
  · rw [h1]
    simp [Res.view, tree.toCursor, Cursor.next, h2]

theorem tree.backup_view (t : tree) : (tree.backup t).view = some (t.toCursor.backup) := by
  obtain ⟨root, input, lex, unread, read⟩ := t
  rcases List.eq_nil_or_concat read with h | ⟨r, x, h⟩
  · subst h
    rfl
  · rw [List.concat_eq_append] at h
    subst h
    rw [tree.backup_concat]
    simp [Res.view, tree.toCursor, Cursor.backup, tree.pending]

theorem tree.runOps_view : ∀ (ops : List BufOp) (t : tree),
    (tree.runOps ops t).view = some (Cursor.runOps ops t.toCursor)
  | [], t => rfl
  | .next :: ops, t => by
    have hn := tree.next_view t
    rw [tree.runOps, Cursor.runOps]
    show (P.bind tree.next _ t).view = _
    unfold P.bind
    cases h : tree.next t with
    | ok tok t1 =>
      rw [h] at hn
      simp only [Res.view, Option.some.injEq] at hn
      rw [← hn]
      have ih := tree.runOps_view ops t1
      simp only
      show (P.bind (tree.runOps ops) _ t1).view = _
      unfold P.bind
      cases h2 : tree.runOps ops t1 with
      | ok toks t2 =>
        rw [h2] at ih
        simp only [Res.view, Option.some.injEq] at ih
        rw [← ih]
        rfl
      | panic f =>
        rw [h2] at ih
        simp only [Res.view, Option.some.injEq] at ih
        rw [← ih]
        rfl
      | blocked =>
        rw [h2] at ih
        simp only [Res.view, Option.some.injEq] at ih
        rw [← ih]
        rfl
      | outOfFuel =>
        rw [h2] at ih
        simp [Res.view] at ih
    | panic f =>
      rw [h] at hn
      simp only [Res.view, Option.some.injEq] at hn
      rw [← hn]
      rfl
    | blocked =>
      rw [h] at hn
      simp only [Res.view, Option.some.injEq] at hn
      rw [← hn]
      rfl
    | outOfFuel =>
      rw [h] at hn
      simp [Res.view] at hn
  | .backup :: ops, t => by
    have hn := tree.backup_view t
    rw [tree.runOps, Cursor.runOps]
    show (P.bind tree.backup _ t).view = _
    unfold P.bind
    cases h : tree.backup t with
    | ok u t1 =>
      rw [h] at hn
      simp only [Res.view, Option.some.injEq] at hn
      rw [← hn]
      exact tree.runOps_view ops t1
    | panic f =>
      rw [h] at hn
      simp only [Res.view, Option.some.injEq] at hn
      rw [← hn]
      rfl
    | blocked =>
      rw [h] at hn
      simp only [Res.view, Option.some.injEq] at hn
      rw [← hn]
      rfl
    | outOfFuel =>
      rw [h] at hn
      simp [Res.view] at hn

theorem Res.view_ok {α : Type} {r : Res α} {a : α} {c : Cursor}
    (h : r.view = some (.ok a c)) : ∃ t, r = .ok a t ∧ t.toCursor = c := by
  cases r with
  | ok b t =>
    simp only [Res.view, Option.some.injEq, CursorRes.ok.injEq] at h
    exact ⟨t, by rw [h.1], h.2⟩
  | panic f => simp [Res.view] at h
  | blocked => simp [Res.view] at h
  | outOfFuel => simp [Res.view] at h

theorem Cursor.runOps_nexts : ∀ (k : Nat) (c : Cursor) (ts : List token) (c1 : Cursor),
    Cursor.runOps (List.replicate k .next) c = .ok ts c1 →
      c1 = { tokens := c.tokens, pos := c.pos + k } ∧ ts.length = k := by
  intro k
  induction k with
  | zero =>
    intro c ts c1 h
    simp only [List.replicate, Cursor.runOps, CursorRes.ok.injEq] at h
    obtain ⟨toks, p⟩ := c
    exact ⟨by rw [← h.2]; rfl, by rw [← h.1]; rfl⟩
  | succ k ih =>
    intro c ts c1 h
    rw [List.replicate_succ, Cursor.runOps] at h
    cases hn : c.next with
    | ok tok c2 =>
      rw [hn] at h
      simp only at h
      have hc2 : c2 = { tokens := c.tokens, pos := c.pos + 1 } := by
        unfold Cursor.next at hn
        split at hn
        · simp only [CursorRes.ok.injEq] at hn
          exact hn.2.symm
        · simp at hn
      cases hr : Cursor.runOps (List.replicate k .next) c2 with
      | ok toks c3 =>
        rw [hr] at h
        simp only [CursorRes.ok.injEq] at h
        obtain ⟨h1, h2⟩ := ih c2 toks c3 hr
        refine ⟨?_, ?_⟩
        · rw [← h.2, h1, hc2]
          simp only [Cursor.mk.injEq, true_and]
          omega
        · rw [← h.1]
          simp [h2]
      | panic f => rw [hr] at h; simp at h
      | blocked => rw [hr] at h; simp at h
    | panic f => rw [hn] at h; simp at h
    | blocked => rw [hn] at h; simp at h

theorem Cursor.runOps_backups (toks : List token) : ∀ (k p : Nat),
    Cursor.runOps (List.replicate k .backup) { tokens := toks, pos := p + k }
      = .ok [] { tokens := toks, pos := p } := by
  intro k
  induction k with
  | zero => intro p; rfl
  | succ k ih =>
    intro p
    rw [List.replicate_succ, Cursor.runOps]
    have hb : Cursor.backup { tokens := toks, pos := p + (k + 1) }
        = .ok () { tokens := toks, pos := p + k } := by
      unfold Cursor.backup
      rw [if_neg (by simp)]
      rfl
    rw [hb]
    exact ih p

theorem tree.nexts_backups_nexts (k : Nat) (t : tree) (toks : List token) (t1 : tree)
    (h : tree.runOps (List.replicate k .next) t = .ok toks t1) :
    toks.length = k ∧
    ∃ t2 t3, tree.runOps (List.replicate k .backup) t1 = .ok [] t2 ∧
      tree.runOps (List.replicate k .next) t2 = .ok toks t3 ∧
      t2.toCursor = t.toCursor ∧ t3.toCursor = t1.toCursor := by
  have hv := tree.runOps_view (List.replicate k .next) t
  rw [h] at hv
  simp only [Res.view, Option.some.injEq] at hv
  obtain ⟨hc1, hlen⟩ := Cursor.runOps_nexts k _ _ _ hv.symm
  refine ⟨hlen, ?_⟩
  have hb := tree.runOps_view (List.replicate k .backup) t1
  rw [hc1, Cursor.runOps_backups] at hb
  obtain ⟨t2, ht2, hc2⟩ := Res.view_ok hb
  have hn := tree.runOps_view (List.replicate k .next) t2
  have hc2' : t2.toCursor = t.toCursor := hc2
  rw [hc2', ← hv] at hn
  obtain ⟨t3, ht3, hc3⟩ := Res.view_ok hn
  exact ⟨t2, t3, ht2, ht3, hc2', hc3⟩

theorem tree.peek_cases (t : tree) :
    (tree.peek t = .blocked ∧ tree.next t = .blocked) ∨
    ∃ tok t1, tree.peek t = .ok tok t1 ∧ t1.read = t.read ∧ t1.pending = t.pending ∧
      t1.root = t.root ∧ t1.input = t.input ∧ t.pending = tok :: t1.pending.tail ∧
      (∃ t2, tree.next t1 = .ok tok t2) ∧ (∃ t3, tree.next t = .ok tok t3) := by
  rcases tree.next_cases t with ⟨tok, t1, h1, h2, h3, h4, h5⟩ | ⟨h1, h2⟩
  · right
    obtain ⟨root1, input1, lex1, unread1, read1⟩ := t1
    simp only at h3 h4 h5
    subst h3
    have hb := tree.backup_concat root1 input1 lex1 unread1 t.read tok
    have hp : tree.peek t = .ok tok ⟨root1, input1, lex1, unread1 ++ [tok], t.read⟩ := by
      unfold tree.peek
      rw [P.bind_ok h1, P.bind_ok hb]
      rfl
    have hpend : tree.pending ⟨root1, input1, lex1, unread1 ++ [tok], t.read⟩ = t.pending := by
      rw [h2]
      simp [tree.pending]
    refine ⟨tok, _, hp, rfl, hpend, h4, h5, ?_, ?_, ⟨_, h1⟩⟩
    · rw [hpend, h2]
      rfl
    · rcases tree.next_cases ⟨root1, input1, lex1, unread1 ++ [tok], t.read⟩ with
        ⟨tok2, t2, g1, g2, _⟩ | ⟨_, g2⟩
      · rw [hpend, h2] at g2
        simp only [List.cons.injEq] at g2
        rw [← g2.1] at g1
        exact ⟨t2, g1⟩
      · rw [hpend, h2] at g2
        simp at g2
  · left
    refine ⟨?_, h1⟩
    unfold tree.peek
    exact P.bind_blocked h1

theorem P.bind_eq_ok {α β : Type} {m : P α} {f : α → P β} {t t2 : tree} {b : β}
    (h : (m >>= f) t = .ok b t2) : ∃ a t1, m t = .ok a t1 ∧ f a t1 = .ok b t2 := by
  change P.bind m f t = .ok b t2 at h
  unfold P.bind at h
  cases hm : m t with
  | ok a t1 => rw [hm] at h; exact ⟨a, t1, rfl, h⟩
  | panic e => rw [hm] at h; exact Res.noConfusion h
  | blocked => rw [hm] at h; exact Res.noConfusion h
  | outOfFuel => rw [hm] at h; exact Res.noConfusion h

theorem nextNonSpace_pending : ∀ (ws : List token),
    (∀ w ∈ ws, w.tokenType = tokenWhitespace) →
    ∀ (fuel : Nat) (t : tree) (tok : token) (tail : List token),
      t.pending = ws ++ tok :: tail → tok.tokenType ≠ tokenWhitespace → ws.length < fuel →
      ∃ t1, tree.nextNonSpace fuel t = .ok tok t1 ∧ t1.pending = tail ∧
        t1.read = t.read ++ ws ++ [tok] ∧ t1.root = t.root ∧ t1.input = t.input := by
  intro ws
  induction ws with
  | nil =>
    intro _ fuel t tok tail hp hne hf
    obtain ⟨f, rfl⟩ : ∃ f, fuel = f + 1 := ⟨fuel - 1, by simp at hf; omega⟩
    rcases tree.next_cases t with ⟨tok1, t1, h1, h2, h3, h4, h5⟩ | ⟨_, h2⟩
    · rw [hp] at h2
      simp only [List.nil_append, List.cons.injEq] at h2
      obtain ⟨e1, e2⟩ := h2
      subst e1
      refine ⟨t1, ?_, e2.symm, by simp [h3], h4, h5⟩
      rw [tree.nextNonSpace, P.bind_ok h1]
      simp only [ne_eq, hne, not_false_eq_true, if_true]
      rfl
    · rw [hp] at h2
      simp at h2
  | cons w ws ih =>
    intro hall fuel t tok tail hp hne hf
    obtain ⟨f, rfl⟩ : ∃ f, fuel = f + 1 := ⟨fuel - 1, by simp at hf; omega⟩
    have hw : w.tokenType = tokenWhitespace := hall w (List.mem_cons_self _ _)
    rcases tree.next_cases t with ⟨tok1, t1, h1, h2, h3, h4, h5⟩ | ⟨_, h2⟩
    · rw [hp] at h2
      simp only [List.cons_append, List.cons.injEq] at h2
      obtain ⟨e1, e2⟩ := h2
      subst e1
      obtain ⟨t2, g1, g2, g3, g4, g5⟩ :=
        ih (fun x hx => hall x (List.mem_cons_of_mem _ hx)) f t1 tok tail e2.symm hne
          (by simp at hf; omega)
      refine ⟨t2, ?_, g2, by rw [g3, h3]; simp, g4.trans h4, g5.trans h5⟩
      rw [tree.nextNonSpace, P.bind_ok h1]
      simp only [ne_eq, hw, not_true_eq_false, if_false]
      exact g1
    · rw [hp] at h2
      simp at h2

theorem expect_pending (ws : List token) (hws : ∀ w ∈ ws, w.tokenType = tokenWhitespace)
    (fuel : Nat) (typ : tokenType) (t : tree) (tok : token) (tail : List token)
    (hp : t.pending = ws ++ tok :: tail) (hne : tok.tokenType ≠ tokenWhitespace)
    (hf : ws.length < fuel) :
    (tok.tokenType ≠ typ → tree.expect fuel typ t = .panic (.expected typ tok.tokenType)) ∧
    (tok.tokenType = typ → ∃ t1, tree.expect fuel typ t = .ok tok t1 ∧ t1.pending = tail ∧
        t1.read = t.read ++ ws ++ [tok] ∧ t1.root = t.root ∧ t1.input = t.input) := by
  obtain ⟨t1, g1, g2, g3, g4, g5⟩ := nextNonSpace_pending ws hws fuel t tok tail hp hne hf
  constructor
  · intro h
    unfold tree.expect
    rw [P.bind_ok g1]
    simp only [ne_eq, h, not_false_eq_true, if_true]
    rfl
  · intro h
    refine ⟨t1, ?_, g2, g3, g4, g5⟩
    unfold tree.expect
    rw [P.bind_ok g1]
    simp only [ne_eq, h, not_true_eq_false, if_false]
    rfl

/-- When `nextNonSpace` returns a token, it has consumed whitespace tokens and
that token, which is no whitespace. -/
theorem nextNonSpace_inv : ∀ (fuel : Nat) (t : tree) (tok : token) (t1 : tree),
    tree.nextNonSpace fuel t = .ok tok t1 →
    ∃ ws, (∀ w ∈ ws, w.tokenType = tokenWhitespace) ∧ tok.tokenType ≠ tokenWhitespace ∧
      t.pending = ws ++ tok :: t1.pending ∧ t1.read = t.read ++ ws ++ [tok] ∧
      ws.length < fuel := by
  intro fuel
  induction fuel with
  | zero =>
    intro t tok t1 h
    exact Res.noConfusion h
  | succ f ih =>
    intro t tok t1 h
    rw [tree.nextNonSpace] at h
    obtain ⟨a, t2, h1, h⟩ := P.bind_eq_ok h
    rcases tree.next_cases t with ⟨tok1, s, g1, g2, g3, _, _⟩ | ⟨g1, _⟩
    · rw [g1] at h1
      simp only [Res.ok.injEq] at h1
      obtain ⟨e1, e2⟩ := h1
      subst e1 e2
      by_cases hw : tok1.tokenType = tokenWhitespace
      · simp only [ne_eq, hw, not_true_eq_false, if_false] at h
        obtain ⟨ws, k1, k2, k3, k4, k5⟩ := ih _ _ _ h
        refine ⟨tok1 :: ws, ?_, k2, ?_, ?_, ?_⟩
        · intro w hwm
          rcases List.mem_cons.1 hwm with e | e
          · rw [e]; exact hw
          · exact k1 w e
        · rw [g2, k3]
          rfl
        · rw [k4, g3]
          simp
        · simp only [List.length_cons]
          omega
      · simp only [ne_eq, hw, not_false_eq_true, if_true] at h
        change Res.ok tok1 s = Res.ok tok t1 at h
        simp only [Res.ok.injEq] at h
        obtain ⟨e1, e2⟩ := h
        subst e1 e2
        exact ⟨[], by simp, hw, by rw [g2]; rfl, by rw [g3]; simp, by simp⟩
    · rw [g1] at h1
      exact Res.noConfusion h1

/-- When `expect(typ)` returns a token, it is of type `typ` and what was
consumed is whitespace tokens and that token. -/
theorem expect_inv (fuel : Nat) (typ : tokenType) (t : tree) (tok : token) (t1 : tree)
    (h : tree.expect fuel typ t = .ok tok t1) :
    tok.tokenType = typ ∧
    ∃ ws, (∀ w ∈ ws, w.tokenType = tokenWhitespace) ∧ tok.tokenType ≠ tokenWhitespace ∧
      t.pending = ws ++ tok :: t1.pending ∧ t1.read = t.read ++ ws ++ [tok] ∧
      ws.length < fuel := by
  unfold tree.expect at h
  obtain ⟨a, t2, h1, h⟩ := P.bind_eq_ok h
  by_cases hty : a.tokenType = typ
  · simp only [ne_eq, hty, not_true_eq_false, if_false] at h
    change Res.ok a t2 = Res.ok tok t1 at h
    simp only [Res.ok.injEq] at h
    obtain ⟨e1, e2⟩ := h
    subst e1 e2
    exact ⟨hty, nextNonSpace_inv fuel t a t2 h1⟩
  · simp only [ne_eq, hty, not_false_eq_true, if_true] at h
    exact Res.noConfusion h

/-! ## The claims on the token buffer and the expression rule -/

/-- C11: the two stacks of the token buffer behave as a cursor over one token
list (the read history followed by the pending tokens, the cursor at the length
of the read history). `next()` returns the token at the cursor and moves the
cursor on by one, `backup()` moves it back by one and panics exactly at cursor
zero, and every sequence of `next()` and `backup()` calls gives on the buffer
what it gives on the cursor. Hence `k` calls of `next()` that return `toks`,
followed by `k` calls of `backup()`, are followed by `k` calls of `next()` that
return the same `toks`. -/
theorem buffer_is_cursor (t : tree) :
    (tree.next t).view = some t.toCursor.next ∧
    (tree.backup t).view = some t.toCursor.backup ∧
    (∀ ops : List BufOp, (tree.runOps ops t).view = some (Cursor.runOps ops t.toCursor)) ∧
    (∀ (k : Nat) (toks : List token) (t1 : tree),
      tree.runOps (List.replicate k .next) t = .ok toks t1 →
      toks.length = k ∧
      ∃ t2 t3, tree.runOps (List.replicate k .backup) t1 = .ok [] t2 ∧
        tree.runOps (List.replicate k .next) t2 = .ok toks t3 ∧
        t2.toCursor = t.toCursor ∧ t3.toCursor = t1.toCursor) :=
  ⟨tree.next_view t, tree.backup_view t, fun ops => tree.runOps_view ops t,
    fun k toks t1 h => tree.nexts_backups_nexts k t toks t1 h⟩

/-- C11 on the buffer over the tokens of `{{ name }}` with nothing read yet:
three calls of `next()` return the print-open, the whitespace and the name, and
after three calls of `backup()` three calls of `next()` return them again. -/
theorem buffer_is_cursor_witness :
    tree.runOps (List.replicate 3 .next) ⟨newModuleNode, srcPrintName, ⟨tokensPrintName⟩, [], []⟩
      = .ok [⟨tokenPrintOpen, lexPrintOpen, 0⟩, ⟨tokenWhitespace, " ", 2⟩, ⟨tokenName, "name", 3⟩]
          ⟨newModuleNode, srcPrintName,
            ⟨[⟨tokenWhitespace, " ", 7⟩, ⟨tokenPrintClose, lexPrintClose, 8⟩, ⟨tokenEof, "", 10⟩]⟩,
            [],
            [⟨tokenPrintOpen, lexPrintOpen, 0⟩, ⟨tokenWhitespace, " ", 2⟩, ⟨tokenName, "name", 3⟩]⟩ ∧
    ∃ t2 t3,
      tree.runOps (List.replicate 3 .backup)
          ⟨newModuleNode, srcPrintName,
            ⟨[⟨tokenWhitespace, " ", 7⟩, ⟨tokenPrintClose, lexPrintClose, 8⟩, ⟨tokenEof, "", 10⟩]⟩,
            [],
            [⟨tokenPrintOpen, lexPrintOpen, 0⟩, ⟨tokenWhitespace, " ", 2⟩, ⟨tokenName, "name", 3⟩]⟩
        = .ok [] t2 ∧
      tree.runOps (List.replicate 3 .next) t2
        = .ok [⟨tokenPrintOpen, lexPrintOpen, 0⟩, ⟨tokenWhitespace, " ", 2⟩,
            ⟨tokenName, "name", 3⟩] t3 :=
  ⟨by decide!,
    let ⟨t2, t3, h2, h3, _, _⟩ :=
      ((buffer_is_cursor ⟨newModuleNode, srcPrintName, ⟨tokensPrintName⟩, [], []⟩).2.2.2 3 _ _
        (by decide!)).2
    ⟨t2, t3, h2, h3⟩⟩

/-- C12: `peek()` is a non-destructive lookahead. On every buffer state either
no token is to be had (`peek()` and `next()` both wait), or `peek()` returns a
token `tok` and a state on which the next `next()` returns `tok`, as `next()`
would have on the state before; the read history, the root and the cursor view
are those of the state before, and every later sequence of `next()` and
`backup()` calls gives what it would have given had `peek()` not been called. -/
theorem peek_nondestructive (t : tree) :
    (tree.peek t = .blocked ∧ tree.next t = .blocked) ∨
    ∃ tok t1, tree.peek t = .ok tok t1 ∧
      (∃ t2, tree.next t1 = .ok tok t2) ∧ (∃ t3, tree.next t = .ok tok t3) ∧
      t1.read = t.read ∧ t1.root = t.root ∧ t1.toCursor = t.toCursor ∧
      ∀ ops : List BufOp, (tree.runOps ops t1).view = (tree.runOps ops t).view := by
  rcases tree.peek_cases t with h | ⟨tok, t1, h1, h2, h3, h4, _, _, h7, h8⟩
  · exact Or.inl h
  · right
    have hc : t1.toCursor = t.toCursor := by
      simp only [tree.toCursor, h2, h3]
    refine ⟨tok, t1, h1, h7, h8, h2, h4, hc, fun ops => ?_⟩
    rw [tree.runOps_view, tree.runOps_view, hc]

/-- C13: let the pending tokens of the buffer be whitespace tokens `ws`, then a
token `tok` that is not whitespace, then `tail`. With fuel for the whitespace,
`expect(typ)` panics if and only if the type of `tok` differs from `typ`, and the
panic carries both `typ` and the type of `tok`; otherwise it returns `tok`, and
what it has consumed is `ws` and `tok`: they are appended to the read history
and `tail` is what is pending. -/
theorem expect_spec (fuel : Nat) (typ : tokenType) (t : tree) (ws : List token) (tok : token)
    (tail : List token) (hp : t.pending = ws ++ tok :: tail)
    (hws : ∀ w ∈ ws, w.tokenType = tokenWhitespace) (hne : tok.tokenType ≠ tokenWhitespace)
    (hf : ws.length < fuel) :
    ((∃ f, tree.expect fuel typ t = .panic f) ↔ tok.tokenType ≠ typ) ∧
    (tok.tokenType ≠ typ → tree.expect fuel typ t = .panic (.expected typ tok.tokenType)) ∧
    (tok.tokenType = typ → ∃ t1, tree.expect fuel typ t = .ok tok t1 ∧ t1.pending = tail ∧
        t1.read = t.read ++ ws ++ [tok] ∧ t1.root = t.root ∧ t1.input = t.input) := by
  obtain ⟨h1, h2⟩ := expect_pending ws hws fuel typ t tok tail hp hne hf
  refine ⟨⟨?_, fun h => ⟨_, h1 h⟩⟩, h1, h2⟩
  rintro ⟨f, hf1⟩ heq
  obtain ⟨t1, g, _⟩ := h2 heq
  rw [g] at hf1
  exact Res.noConfusion hf1

/-- C13 on the tokens of `{{ name }}` after the print-open: one whitespace, then
the name. `expect(tokenName)` returns the name, `expect(tokenPrintClose)` panics
with expected print-close, got name. -/
theorem expect_spec_witness :
    tree.expect 2 tokenName ⟨newModuleNode, srcPrintName, ⟨tokensPrintName.tail⟩, [], []⟩
      = .ok ⟨tokenName, "name", 3⟩
          ⟨newModuleNode, srcPrintName,
            ⟨[⟨tokenWhitespace, " ", 7⟩, ⟨tokenPrintClose, lexPrintClose, 8⟩, ⟨tokenEof, "", 10⟩]⟩,
            [], [⟨tokenWhitespace, " ", 2⟩, ⟨tokenName, "name", 3⟩]⟩ ∧
    tree.expect 2 tokenPrintClose ⟨newModuleNode, srcPrintName, ⟨tokensPrintName.tail⟩, [], []⟩
      = .panic (.expected tokenPrintClose tokenName) :=
  ⟨by decide!,
    (expect_spec 2 tokenPrintClose ⟨newModuleNode, srcPrintName, ⟨tokensPrintName.tail⟩, [], []⟩
      [⟨tokenWhitespace, " ", 2⟩] ⟨tokenName, "name", 3⟩
      [⟨tokenWhitespace, " ", 7⟩, ⟨tokenPrintClose, lexPrintClose, 8⟩, ⟨tokenEof, "", 10⟩]
      rfl (by decide) (by decide) (by decide)).2.1 (by decide)⟩

/-- C14: `parseExpr` accepts exactly two forms. Let the pending tokens of the
buffer be whitespace tokens `ws`, then a token `tok` that is not whitespace, then
`tail`, with fuel for the whitespace. If `tok` is a name, `parseExpr` returns the
name expression of its value. If `tok` is a string-open and `tail` is,
whitespace apart, a text token and a string-close, `parseExpr` returns the
string expression of the value of the text. If `tok` is of any other type,
`parseExpr` panics with `unknown expression`. A string-open that is not followed
by the two tokens of the form is refused: if the next token that is not
whitespace is no text, or if it is a text and the next one after it is no
string-close, `parseExpr` panics with the type that `expect` asked for and the
type it got. And whenever `parseExpr` returns an expression, the tokens were of
one of the two forms and the expression is the one of that form. -/
theorem parseExpr_spec (fuel : Nat) (t : tree) (ws : List token) (tok : token)
    (tail : List token) (hp : t.pending = ws ++ tok :: tail)
    (hws : ∀ w ∈ ws, w.tokenType = tokenWhitespace) (hne : tok.tokenType ≠ tokenWhitespace)
    (hf : ws.length < fuel) :
    (tok.tokenType = tokenName →
      ∃ t1, tree.parseExpr fuel t = .ok (Expr.name tok.value 0) t1 ∧ t1.pending = tail ∧
        t1.read = t.read ++ ws ++ [tok]) ∧
    (tok.tokenType = tokenStringOpen →
      ∀ (ws2 ws3 : List token) (txt close : token) (tail2 : List token),
        tail = ws2 ++ txt :: (ws3 ++ close :: tail2) →
        (∀ w ∈ ws2, w.tokenType = tokenWhitespace) → (∀ w ∈ ws3, w.tokenType = tokenWhitespace) →
        txt.tokenType = tokenText → close.tokenType = tokenStringClose →
        ws2.length < fuel → ws3.length < fuel →
        ∃ t1, tree.parseExpr fuel t = .ok (Expr.string txt.value 0) t1 ∧ t1.pending = tail2) ∧
    (tok.tokenType ≠ tokenName → tok.tokenType ≠ tokenStringOpen →
      tree.parseExpr fuel t = .panic .unknownExpression) ∧
    (tok.tokenType = tokenStringOpen →
      ∀ (ws2 : List token) (nxt : token) (tail2 : List token),
        tail = ws2 ++ nxt :: tail2 →
        (∀ w ∈ ws2, w.tokenType = tokenWhitespace) → nxt.tokenType ≠ tokenWhitespace →
        nxt.tokenType ≠ tokenText → ws2.length < fuel →
        tree.parseExpr fuel t = .panic (.expected tokenText nxt.tokenType)) ∧
    (tok.tokenType = tokenStringOpen →
      ∀ (ws2 ws3 : List token) (txt nxt : token) (tail2 : List token),
        tail = ws2 ++ txt :: (ws3 ++ nxt :: tail2) →
        (∀ w ∈ ws2, w.tokenType = tokenWhitespace) → (∀ w ∈ ws3, w.tokenType = tokenWhitespace) →
        txt.tokenType = tokenText → nxt.tokenType ≠ tokenWhitespace →
        nxt.tokenType ≠ tokenStringClose → ws2.length < fuel → ws3.length < fuel →
        tree.parseExpr fuel t = .panic (.expected tokenStringClose nxt.tokenType)) ∧
    (∀ (e : Expr) (t1 : tree), tree.parseExpr fuel t = .ok e t1 →
      (tok.tokenType = tokenName ∧ e = Expr.name tok.value 0 ∧ t1.pending = tail) ∨
      (tok.tokenType = tokenStringOpen ∧
        ∃ (ws2 ws3 : List token) (txt close : token),
          tail = ws2 ++ txt :: (ws3 ++ close :: t1.pending) ∧
          (∀ w ∈ ws2, w.tokenType = tokenWhitespace) ∧
          (∀ w ∈ ws3, w.tokenType = tokenWhitespace) ∧
          txt.tokenType = tokenText ∧ close.tokenType = tokenStringClose ∧
          e = Expr.string txt.value 0)) := by
  obtain ⟨t1, g1, g2, g3, g4, g5⟩ := nextNonSpace_pending ws hws fuel t tok tail hp hne hf
  refine ⟨?_, ?_, ?_, ?_, ?_, ?_⟩
  · intro h
    refine ⟨t1, ?_, g2, g3⟩
    unfold tree.parseExpr
    rw [P.bind_ok g1]
    simp only [h, if_true]
    rfl
  · intro h ws2 ws3 txt close tail2 htail hws2 hws3 htxt hclose hf2 hf3
    have hp1 : t1.pending = ws2 ++ txt :: (ws3 ++ close :: tail2) := by rw [g2, htail]
    obtain ⟨t2, e1, e2, _⟩ :=
      (expect_pending ws2 hws2 fuel tokenText t1 txt _ hp1 (by rw [htxt]; decide) hf2).2 htxt
    obtain ⟨t3, e3, e4, _⟩ :=
      (expect_pending ws3 hws3 fuel tokenStringClose t2 close tail2 e2 (by rw [hclose]; decide)
        hf3).2 hclose
    refine ⟨t3, ?_, e4⟩
    unfold tree.parseExpr
    rw [P.bind_ok g1]
    simp only [h, reduceCtorEq, if_false, if_true]
    rw [P.bind_ok e1, P.bind_ok e3]
    rfl
  · intro h1 h2
    unfold tree.parseExpr
    rw [P.bind_ok g1]
    simp only [h1, h2, if_false]
    rfl
  · intro h ws2 nxt tail2 htail hws2 hnw hnt hf2
    have hp1 : t1.pending = ws2 ++ nxt :: tail2 := by rw [g2, htail]
    have e1 := (expect_pending ws2 hws2 fuel tokenText t1 nxt _ hp1 hnw hf2).1 hnt
    unfold tree.parseExpr
    rw [P.bind_ok g1]
    simp only [h, reduceCtorEq, if_false, if_true]
    change P.bind (tree.expect fuel tokenText) _ t1 = _
    unfold P.bind
    rw [e1]
  · intro h ws2 ws3 txt nxt tail2 htail hws2 hws3 htxt hnw hnc hf2 hf3
    have hp1 : t1.pending = ws2 ++ txt :: (ws3 ++ nxt :: tail2) := by rw [g2, htail]
    obtain ⟨t2, e1, e2, _⟩ :=
      (expect_pending ws2 hws2 fuel tokenText t1 txt _ hp1 (by rw [htxt]; decide) hf2).2 htxt
    have e3 := (expect_pending ws3 hws3 fuel tokenStringClose t2 nxt tail2 e2 hnw hf3).1 hnc
    unfold tree.parseExpr
    rw [P.bind_ok g1]
    simp only [h, reduceCtorEq, if_false, if_true]
    rw [P.bind_ok e1]
    change P.bind (tree.expect fuel tokenStringClose) _ t2 = _
    unfold P.bind
    rw [e3]
  · intro e s h
    unfold tree.parseExpr at h
    rw [P.bind_ok g1] at h
    by_cases hn : tok.tokenType = tokenName
    · left
      simp only [hn, if_true] at h
      change Res.ok (newNameExpr tok.value) t1 = Res.ok e s at h
      simp only [Res.ok.injEq] at h
      obtain ⟨e1, e2⟩ := h
      subst e1 e2
      exact ⟨hn, rfl, g2⟩
    · by_cases hs : tok.tokenType = tokenStringOpen
      · right
        simp only [hs, reduceCtorEq, if_false, if_true] at h
        obtain ⟨txt, t2, h2, h⟩ := P.bind_eq_ok h
        obtain ⟨close, t3, h3, h⟩ := P.bind_eq_ok h
        change Res.ok (newStringExpr txt.value) t3 = Res.ok e s at h
        simp only [Res.ok.injEq] at h
        obtain ⟨e1, e2⟩ := h
        subst e1 e2
        obtain ⟨k1, ws2, k2, _, k3, _, _⟩ := expect_inv _ _ _ _ _ h2
        obtain ⟨j1, ws3, j2, _, j3, _, _⟩ := expect_inv _ _ _ _ _ h3
        refine ⟨hs, ws2, ws3, txt, close, ?_, k2, j2, k1, j1, rfl⟩
        rw [← g2, k3, j3]
      · simp only [hn, hs, if_false] at h
        exact Res.noConfusion h

/-- C14 on five buffers: a whitespace and the name `x`; a string-open, the
text `hi` and a string-close; a text token; a string-open followed by a name; a
string-open and a text followed by end-of-input. -/
theorem parseExpr_spec_witness :
    (∃ t1, tree.parseExpr 2
        ⟨newModuleNode, "", ⟨[⟨tokenWhitespace, " ", 2⟩, ⟨tokenName, "x", 3⟩]⟩, [], []⟩
      = .ok (Expr.name "x" 0) t1 ∧ t1.pending = [] ∧
        t1.read = [] ++ [⟨tokenWhitespace, " ", 2⟩] ++ [⟨tokenName, "x", 3⟩]) ∧
    (∃ t1, tree.parseExpr 2
        ⟨newModuleNode, "",
          ⟨[⟨tokenStringOpen, "\x22", 3⟩, ⟨tokenText, "hi", 4⟩, ⟨tokenStringClose, "\x22", 6⟩]⟩, [], []⟩
      = .ok (Expr.string "hi" 0) t1 ∧ t1.pending = []) ∧
    tree.parseExpr 2 ⟨newModuleNode, "", ⟨[⟨tokenText, "hi", 0⟩]⟩, [], []⟩
      = .panic .unknownExpression ∧
    tree.parseExpr 2
        ⟨newModuleNode, "",
          ⟨[⟨tokenStringOpen, "\x22", 3⟩, ⟨tokenName, "hi", 4⟩, ⟨tokenStringClose, "\x22", 6⟩]⟩, [], []⟩
      = .panic (.expected tokenText tokenName) ∧
    tree.parseExpr 2
        ⟨newModuleNode, "",
          ⟨[⟨tokenStringOpen, "\x22", 3⟩, ⟨tokenText, "hi", 4⟩, ⟨tokenEof, "", 6⟩]⟩, [], []⟩
      = .panic (.expected tokenStringClose tokenEof) :=
  ⟨(parseExpr_spec 2
      ⟨newModuleNode, "", ⟨[⟨tokenWhitespace, " ", 2⟩, ⟨tokenName, "x", 3⟩]⟩, [], []⟩
      [⟨tokenWhitespace, " ", 2⟩] ⟨tokenName, "x", 3⟩ [] rfl (by decide) (by decide)
      (by decide)).1 rfl,
   (parseExpr_spec 2
      ⟨newModuleNode, "",
        ⟨[⟨tokenStringOpen, "\x22", 3⟩, ⟨tokenText, "hi", 4⟩, ⟨tokenStringClose, "\x22", 6⟩]⟩, [], []⟩
      [] ⟨tokenStringOpen, "\x22", 3⟩ [⟨tokenText, "hi", 4⟩, ⟨tokenStringClose, "\x22", 6⟩]
      rfl (by decide) (by decide) (by decide)).2.1 rfl [] [] ⟨tokenText, "hi", 4⟩
      ⟨tokenStringClose, "\x22", 6⟩ [] rfl (by decide) (by decide) rfl rfl (by decide) (by decide),
   (parseExpr_spec 2 ⟨newModuleNode, "", ⟨[⟨tokenText, "hi", 0⟩]⟩, [], []⟩
      [] ⟨tokenText, "hi", 0⟩ [] rfl (by decide) (by decide) (by decide)).2.2.1
      (by decide) (by decide),
   (parseExpr_spec 2
      ⟨newModuleNode, "",
        ⟨[⟨tokenStringOpen, "\x22", 3⟩, ⟨tokenName, "hi", 4⟩, ⟨tokenStringClose, "\x22", 6⟩]⟩, [], []⟩
      [] ⟨tokenStringOpen, "\x22", 3⟩ [⟨tokenName, "hi", 4⟩, ⟨tokenStringClose, "\x22", 6⟩]
      rfl (by decide) (by decide) (by decide)).2.2.2.1 rfl [] ⟨tokenName, "hi", 4⟩
      [⟨tokenStringClose, "\x22", 6⟩] rfl (by decide) (by decide) (by decide) (by decide),
   (parseExpr_spec 2
      ⟨newModuleNode, "",
        ⟨[⟨tokenStringOpen, "\x22", 3⟩, ⟨tokenText, "hi", 4⟩, ⟨tokenEof, "", 6⟩]⟩, [], []⟩
      [] ⟨tokenStringOpen, "\x22", 3⟩ [⟨tokenText, "hi", 4⟩, ⟨tokenEof, "", 6⟩]
      rfl (by decide) (by decide) (by decide)).2.2.2.2.1 rfl [] [] ⟨tokenText, "hi", 4⟩
      ⟨tokenEof, "", 6⟩ [] rfl (by decide) (by decide) rfl (by decide) (by decide) (by decide)
      (by decide)⟩

/-! ## Soundness of the cheap equality test -/

theorem beqWith_sound {α : Type} (f : α → α → Bool) (hf : ∀ a b, f a b = true → a = b) :
    ∀ as bs : List α, beqWith f as bs = true → as = bs
  | [], [], _ => rfl
  | [], _ :: _, h => by simp [beqWith] at h
  | _ :: _, [], h => by simp [beqWith] at h
  | a :: as, b :: bs, h => by
    simp only [beqWith, Bool.and_eq_true] at h
    rw [hf a b h.1, beqWith_sound f hf as bs h.2]

theorem exprBeqN_sound : ∀ (n : Nat) (a b : Expr), Expr.beqN n a b = true → a = b := by
  intro n
  induction n with
  | zero => intro a b h; simp [Expr.beqN] at h
  | succ n ih =>
    intro a b h
    cases a <;> cases b <;>
      simp only [Expr.beqN, Bool.and_eq_true, decide_eq_true_eq, Bool.false_eq_true] at h
    · obtain ⟨h1, h2⟩ := h
      rw [h1, h2]
    · obtain ⟨h1, h2⟩ := h
      rw [h1, h2]
    · obtain ⟨⟨h1, h2⟩, h3⟩ := h
      rw [h1, h2, beqWith_sound _ ih _ _ h3]

theorem nodeBeqN_sound : ∀ n : Nat,
    (∀ a b : Node, Node.beqN n a b = true → a = b) ∧
    (∀ a b : ModuleNode, ModuleNode.beqN n a b = true → a = b) := by
  intro n
  induction n with
  | zero =>
    exact ⟨fun a b h => by simp [Node.beqN] at h, fun a b h => by simp [ModuleNode.beqN] at h⟩
  | succ n ih =>
    obtain ⟨ihn, ihm⟩ := ih
    constructor
    · intro a b h
      cases a <;> cases b <;>
        simp only [Node.beqN, Bool.and_eq_true, decide_eq_true_eq, Bool.false_eq_true] at h
      · rfl
      · obtain ⟨h1, h2⟩ := h
        rw [h1, h2]
      · obtain ⟨h1, h2⟩ := h
        rw [exprBeqN_sound n _ _ h1, h2]
      · rw [ihm _ _ h]
      · obtain ⟨⟨⟨h1, h2⟩, h3⟩, h4⟩ := h
        rw [exprBeqN_sound n _ _ h1, ihm _ _ h2, h3, h4]
      · rename_i c b e p c1 b1 e1 p1
        obtain ⟨⟨⟨h1, h2⟩, h3⟩, h4⟩ := h
        rw [exprBeqN_sound n _ _ h1, ihm _ _ h2, h4]
        cases e <;> cases e1 <;> simp only [Bool.false_eq_true] at h3
        · rfl
        · rw [ihm _ _ h3]
    · intro a b h
      obtain ⟨o, ns⟩ := a
      obtain ⟨o1, ns1⟩ := b
      simp only [ModuleNode.beqN, Bool.and_eq_true, decide_eq_true_eq] at h
      rw [h.1, beqWith_sound _ ihn _ _ h.2]

theorem Res.eq_of_okWith (n : Nat) (r : Res Unit) (t : tree) (h : r.okWith n t = true) :
    r = .ok () t := by
  cases r with
  | ok u t1 =>
    obtain ⟨root1, input1, lex1, unread1, read1⟩ := t1
    obtain ⟨root, input, lex, unread, read⟩ := t
    simp only [Res.okWith, Bool.and_eq_true, decide_eq_true_eq] at h
    obtain ⟨⟨⟨⟨h1, h2⟩, h3⟩, h4⟩, h5⟩ := h
    rw [(nodeBeqN_sound n).2 _ _ h1, h2, h3, h4, h5]
  | panic f => simp [Res.okWith] at h
  | blocked => simp [Res.okWith] at h
  | outOfFuel => simp [Res.okWith] at h

/-! ## The claims on nesting and on the lookahead -/

theorem Parse_mono_ok (fuel : Nat) (input : String) (lex : lexer) (t : tree)
    (h : Parse fuel input lex = .ok () t) (k : Nat) : Parse (fuel + k) input lex = .ok () t :=
  Parse_mono fuel input lex _ h (fun e => Res.noConfusion e) k

/-- The step of `parseUntilEndTag` on a tag-open whose name is not the end tag is
`lookaheadUndo` followed by the statement rule on the state it leaves. -/
theorem parseUntilEndTag_lookahead (fuel : Nat) (name : String) (n : ModuleNode) (t t1 : tree)
    (tok : token) (hp : ∀ p tp, tree.peek t = .ok p tp → p.tokenType = tokenTagOpen)
    (h : tree.lookaheadUndo fuel t = .ok tok t1) (hne : tok.value ≠ "end" ++ name) :
    tree.parseUntilEndTag (fuel + 1) name n t
      = (tree.parse fuel >>= fun c => tree.parseUntilEndTag fuel name (n.append c)) t1 := by
  unfold tree.lookaheadUndo at h
  obtain ⟨p, tp, h1, h⟩ := P.bind_eq_ok h
  obtain ⟨q, t2, h2, h⟩ := P.bind_eq_ok h
  obtain ⟨tk, t3, h3, h⟩ := P.bind_eq_ok h
  obtain ⟨_, t4, h4, h⟩ := P.bind_eq_ok h
  obtain ⟨_, t5, h5, h⟩ := P.bind_eq_ok h
  obtain ⟨_, t6, h6, h⟩ := P.bind_eq_ok h
  have e : tk = tok ∧ t6 = t1 := by
    change Res.ok tk t6 = Res.ok tok t1 at h
    simp only [Res.ok.injEq] at h
    exact h
  obtain ⟨e1, e2⟩ := e
  subst e1 e2
  rw [tree.parseUntilEndTag, P.bind_ok h1]
  simp only [hp p tp h1, if_true]
  rw [P.bind_ok h2, P.bind_ok h3]
  simp only [hne, if_false]
  rw [P.bind_ok h4, P.bind_ok h5, P.bind_ok h6]

/-- The step of `parseEndifOrElse` on a tag-open whose name is neither `else` nor
`endif` is `lookaheadUndo` followed by the statement rule on the state it
leaves. -/
theorem parseEndifOrElse_lookahead (fuel : Nat) (body : ModuleNode) (t t1 : tree)
    (tok : token) (hp : ∀ p tp, tree.peek t = .ok p tp → p.tokenType = tokenTagOpen)
    (h : tree.lookaheadUndo fuel t = .ok tok t1) (hne1 : tok.value ≠ "else")
    (hne2 : tok.value ≠ "endif") :
    tree.parseEndifOrElse (fuel + 1) body t
      = (tree.parse fuel >>= fun c => tree.parseEndifOrElse fuel (body.append c)) t1 := by
  unfold tree.lookaheadUndo at h
  obtain ⟨p, tp, h1, h⟩ := P.bind_eq_ok h
  obtain ⟨q, t2, h2, h⟩ := P.bind_eq_ok h
  obtain ⟨tk, t3, h3, h⟩ := P.bind_eq_ok h
  obtain ⟨_, t4, h4, h⟩ := P.bind_eq_ok h
  obtain ⟨_, t5, h5, h⟩ := P.bind_eq_ok h
  obtain ⟨_, t6, h6, h⟩ := P.bind_eq_ok h
  have e : tk = tok ∧ t6 = t1 := by
    change Res.ok tk t6 = Res.ok tok t1 at h
    simp only [Res.ok.injEq] at h
    exact h
  obtain ⟨e1, e2⟩ := e
  subst e1 e2
  rw [tree.parseEndifOrElse, P.bind_ok h1]
  simp only [hp p tp h1, if_true]
  rw [P.bind_ok h2, P.bind_ok h3]
  simp only [hne1, hne2, if_false]
  rw [P.bind_ok h4, P.bind_ok h5, P.bind_ok h6]

theorem tree.backup_read (t : tree) (r : List token) (x : token) (h : t.read = r ++ [x]) :
    ∃ t1, tree.backup t = .ok () t1 ∧ t1.read = r ∧ t1.pending = x :: t.pending ∧
      t1.root = t.root ∧ t1.input = t.input := by
  obtain ⟨root, input, lex, unread, read⟩ := t
  simp only at h
  subst h
  exact ⟨_, tree.backup_concat root input lex unread r x, rfl, by simp [tree.pending], rfl, rfl⟩

/-- With exactly one whitespace token between the tag-open and the name,
`lookaheadUndo` restores the buffer: the read history and the pending tokens
are those before the peek. -/
theorem lookaheadUndo_one_space (fuel : Nat) (t : tree) (o w nm : token) (tail : List token)
    (hp : t.pending = o :: w :: nm :: tail) (hw : w.tokenType = tokenWhitespace)
    (hn : nm.tokenType = tokenName) (hf : 1 < fuel) :
    ∃ t1, tree.lookaheadUndo fuel t = .ok nm t1 ∧ t1.read = t.read ∧
      t1.pending = t.pending := by
  rcases tree.peek_cases t with ⟨_, hb⟩ | ⟨p, t0, h0, r0, p0, _, _, _, _, _⟩
  · rcases tree.next_cases t with ⟨_, _, h1, _⟩ | ⟨_, h2⟩
    · rw [hb] at h1; exact Res.noConfusion h1
    · rw [hp] at h2; simp at h2
  · rcases tree.next_cases t0 with ⟨q, t2, h2, p2, r2, _, _⟩ | ⟨_, h2⟩
    · rw [p0, hp] at p2
      simp only [List.cons.injEq] at p2
      obtain ⟨e, p2⟩ := p2
      subst e
      obtain ⟨t3, h3, p3, r3, _⟩ :=
        (expect_pending [w] (by simpa using hw) fuel tokenName t2 nm tail p2.symm
          (by rw [hn]; decide) (by simpa using hf)).2 hn
      obtain ⟨t4, h4, r4, p4, _⟩ := tree.backup_read t3 (t2.read ++ [w]) nm (by rw [r3])
      obtain ⟨t5, h5, r5, p5, _⟩ := tree.backup_read t4 t2.read w r4
      obtain ⟨t6, h6, r6, p6, _⟩ := tree.backup_read t5 t0.read o (by rw [r5, r2])
      refine ⟨t6, ?_, by rw [r6, r0], by rw [p6, p5, p4, p3, hp]⟩
      unfold tree.lookaheadUndo
      rw [P.bind_ok h0, P.bind_ok h2, P.bind_ok h3, P.bind_ok h4, P.bind_ok h5, P.bind_ok h6]
      rfl
    · rw [p0, hp] at h2; simp at h2

/-- With no whitespace token between the tag-open and the name, `lookaheadUndo`
rewinds one token too far: the last token `x` of the read history is un-read as
well, so the read history is one shorter than before the peek and `x` is the
next token to be read. -/
theorem lookaheadUndo_no_space (fuel : Nat) (t : tree) (r : List token) (x o nm : token)
    (tail : List token) (hr : t.read = r ++ [x]) (hp : t.pending = o :: nm :: tail)
    (hn : nm.tokenType = tokenName) (hf : 0 < fuel) :
    ∃ t1, tree.lookaheadUndo fuel t = .ok nm t1 ∧ t1.read = r ∧
      t1.pending = x :: t.pending := by
  rcases tree.peek_cases t with ⟨_, hb⟩ | ⟨p, t0, h0, r0, p0, _, _, _, _, _⟩
  · rcases tree.next_cases t with ⟨_, _, h1, _⟩ | ⟨_, h2⟩
    · rw [hb] at h1; exact Res.noConfusion h1
    · rw [hp] at h2; simp at h2
  · rcases tree.next_cases t0 with ⟨q, t2, h2, p2, r2, _, _⟩ | ⟨_, h2⟩
    · rw [p0, hp] at p2
      simp only [List.cons.injEq] at p2
      obtain ⟨e, p2⟩ := p2
      subst e
      obtain ⟨t3, h3, p3, r3, _⟩ :=
        (expect_pending [] (by simp) fuel tokenName t2 nm tail p2.symm
          (by rw [hn]; decide) (by simpa using hf)).2 hn
      obtain ⟨t4, h4, r4, p4, _⟩ := tree.backup_read t3 t2.read nm (by rw [r3]; simp)
      obtain ⟨t5, h5, r5, p5, _⟩ := tree.backup_read t4 t0.read o (by rw [r4, r2])
      obtain ⟨t6, h6, r6, p6, _⟩ := tree.backup_read t5 r x (by rw [r5, r0, hr])
      refine ⟨t6, ?_, r6, by rw [p6, p5, p4, p3, hp]⟩
      unfold tree.lookaheadUndo
      rw [P.bind_ok h0, P.bind_ok h2, P.bind_ok h3, P.bind_ok h4, P.bind_ok h5, P.bind_ok h6]
      rfl
    · rw [p0, hp] at h2; simp at h2

/-- C15 (the code departs from the claim): the lookahead is undone by three
calls of `backup()`, whatever was read. With one whitespace token between the
tag-open and the name the read history is restored. With none, the token read
before the tag-open (here the text `hi`) is un-read as well and is the next to
be read again. With two, the tag-open stays in the read history and only the
whitespace and the name are un-read. On the stream of
`{% block t %}{{ a }}{%if x%}A{% endif %}{% endblock %}`, with enough fuel, the
print-close of `{{ a }}` is read a second time and `Parse` panics with a parse
error near it. -/
theorem lookahead_three_backups (k : Nat) :
    tree.lookaheadUndo 2
        ⟨newModuleNode, "",
          ⟨[⟨tokenTagOpen, lexTagOpen, 2⟩, ⟨tokenWhitespace, " ", 4⟩, ⟨tokenName, "foo", 5⟩,
            ⟨tokenTagClose, lexTagClose, 8⟩]⟩, [], [⟨tokenText, "hi", 0⟩]⟩
      = .ok ⟨tokenName, "foo", 5⟩
          ⟨newModuleNode, "", ⟨[⟨tokenTagClose, lexTagClose, 8⟩]⟩,
            [⟨tokenName, "foo", 5⟩, ⟨tokenWhitespace, " ", 4⟩, ⟨tokenTagOpen, lexTagOpen, 2⟩],
            [⟨tokenText, "hi", 0⟩]⟩ ∧
    tree.lookaheadUndo 2
        ⟨newModuleNode, "",
          ⟨[⟨tokenTagOpen, lexTagOpen, 2⟩, ⟨tokenName, "foo", 4⟩,
            ⟨tokenTagClose, lexTagClose, 7⟩]⟩, [], [⟨tokenText, "hi", 0⟩]⟩
      = .ok ⟨tokenName, "foo", 4⟩
          ⟨newModuleNode, "", ⟨[⟨tokenTagClose, lexTagClose, 7⟩]⟩,
            [⟨tokenName, "foo", 4⟩, ⟨tokenTagOpen, lexTagOpen, 2⟩, ⟨tokenText, "hi", 0⟩],
            []⟩ ∧
    tree.lookaheadUndo 3
        ⟨newModuleNode, "",
          ⟨[⟨tokenTagOpen, lexTagOpen, 2⟩, ⟨tokenWhitespace, " ", 4⟩, ⟨tokenWhitespace, " ", 5⟩,
            ⟨tokenName, "foo", 6⟩, ⟨tokenTagClose, lexTagClose, 9⟩]⟩, [], [⟨tokenText, "hi", 0⟩]⟩
      = .ok ⟨tokenName, "foo", 6⟩
          ⟨newModuleNode, "", ⟨[⟨tokenTagClose, lexTagClose, 9⟩]⟩,
            [⟨tokenName, "foo", 6⟩, ⟨tokenWhitespace, " ", 5⟩, ⟨tokenWhitespace, " ", 4⟩],
            [⟨tokenText, "hi", 0⟩, ⟨tokenTagOpen, lexTagOpen, 2⟩]⟩ ∧
    Parse (7 + k) srcTightIf ⟨tokensTightIf⟩ = .panic (.parseErrorNear lexPrintClose) :=
  ⟨by decide!, by decide!, by decide!,
    Parse_mono 7 srcTightIf ⟨tokensTightIf⟩ _ (by decide!) (fun h => Res.noConfusion h) k⟩

/-- Bodies nest on five streams that have one whitespace token after each
tag-open. With enough fuel, the stream of
`{% if x %}{% if y %}A{% endif %}B{% endif %}` gives one if-node on `x` whose
body is the if-node on `y` (body `[TextNode("A")]`, no else) followed by
`TextNode("B")`, and no else-branch: the first `endif` closes the inner if.
Likewise a block inside a block body, an if after a print inside a block body,
an if inside an else-branch and a block inside an else-branch are children of
that body, and every token has been read. -/
theorem Parse_nested (k : Nat) :
    Parse (10 + k) srcNestedIf ⟨tokensNestedIf⟩
      = .ok () ⟨ModuleNode.mk ""
            [Node.ifn (Expr.name "x" 0)
              (ModuleNode.mk ""
                [Node.ifn (Expr.name "y" 0) (ModuleNode.mk "" [Node.text "A" 20]) none 13,
                 Node.text "B" 32])
              none 3],
          srcNestedIf, ⟨[]⟩, [], tokensNestedIf⟩ ∧
    Parse (10 + k) srcBlockInBlock ⟨tokensBlockInBlock⟩
      = .ok () ⟨ModuleNode.mk ""
            [Node.block (Expr.name "a" 0)
              (ModuleNode.mk ""
                [Node.block (Expr.name "b" 0) (ModuleNode.mk "" [Node.text "x" 26]) "" 16,
                 Node.text "y" 41])
              "" 3],
          srcBlockInBlock, ⟨[]⟩, [], tokensBlockInBlock⟩ ∧
    Parse (11 + k) srcIfInBlock ⟨tokensIfInBlock⟩
      = .ok () ⟨ModuleNode.mk ""
            [Node.block (Expr.name "t" 0)
              (ModuleNode.mk ""
                [Node.print (Expr.name "a" 0) 13,
                 Node.ifn (Expr.name "x" 0) (ModuleNode.mk "" [Node.text "A" 30]) none 23])
              "" 3],
          srcIfInBlock, ⟨[]⟩, [], tokensIfInBlock⟩ ∧
    Parse (12 + k) srcIfInElse ⟨tokensIfInElse⟩
      = .ok () ⟨ModuleNode.mk ""
            [Node.ifn (Expr.name "x" 0) (ModuleNode.mk "" [Node.text "A" 10])
              (some (ModuleNode.mk ""
                [Node.ifn (Expr.name "y" 0) (ModuleNode.mk "" [Node.text "B" 31]) none 24,
                 Node.text "C" 43]))
              3],
          srcIfInElse, ⟨[]⟩, [], tokensIfInElse⟩ ∧
    Parse (12 + k) srcBlockInElse ⟨tokensBlockInElse⟩
      = .ok () ⟨ModuleNode.mk ""
            [Node.ifn (Expr.name "x" 0) (ModuleNode.mk "" [Node.text "A" 10])
              (some (ModuleNode.mk ""
                [Node.block (Expr.name "b" 0) (ModuleNode.mk "" [Node.text "B" 34]) "" 24]))
              3],
          srcBlockInElse, ⟨[]⟩, [], tokensBlockInElse⟩ :=
  ⟨Parse_mono_ok 10 srcNestedIf ⟨tokensNestedIf⟩ _ (Res.eq_of_okWith 10 _ _ (by decide!)) k,
    Parse_mono_ok 10 srcBlockInBlock ⟨tokensBlockInBlock⟩ _
      (Res.eq_of_okWith 10 _ _ (by decide!)) k,
    Parse_mono_ok 11 srcIfInBlock ⟨tokensIfInBlock⟩ _ (Res.eq_of_okWith 10 _ _ (by decide!)) k,
    Parse_mono_ok 12 srcIfInElse ⟨tokensIfInElse⟩ _ (Res.eq_of_okWith 10 _ _ (by decide!)) k,
    Parse_mono_ok 12 srcBlockInElse ⟨tokensBlockInElse⟩ _
      (Res.eq_of_okWith 10 _ _ (by decide!)) k⟩

/-! ## Templates of statements: what the parser returns -/

/-- When the loop of `parseEndifOrElse` returns, the last tag it read itself is
an `endif` tag, and then the else-branch is nil, or an `else` tag, and then the
else-branch is the module that `parseUntilEndTag("if")` returned on the state
after that tag. -/
theorem parseEndifOrElse_inv : ∀ (fuel : Nat) (body : ModuleNode) (t : tree) (b : ModuleNode)
    (els : Option ModuleNode) (t1 : tree),
    tree.parseEndifOrElse fuel body t = .ok (b, els) t1 →
    ∃ (r : List token) (o : token) (ws : List token) (nm : token) (ws2 : List token)
        (c : token),
      o.tokenType = tokenTagOpen ∧ (∀ w ∈ ws, w.tokenType = tokenWhitespace) ∧
      nm.tokenType = tokenName ∧ (∀ w ∈ ws2, w.tokenType = tokenWhitespace) ∧
      c.tokenType = tokenTagClose ∧
      ((nm.value = "endif" ∧ els = none ∧ t1.read = r ++ o :: (ws ++ nm :: (ws2 ++ [c]))) ∨
       (nm.value = "else" ∧ ∃ (f : Nat) (s : tree) (m : ModuleNode),
          s.read = r ++ o :: (ws ++ nm :: (ws2 ++ [c])) ∧
          tree.parseUntilEndTag f "if" newModuleNode s = .ok m t1 ∧ els = some m)) := by
  intro fuel
  induction fuel with
  | zero =>
    intro body t b els t1 h
    exact Res.noConfusion h
  | succ fuel ih =>
    intro body t b els t1 h
    rw [tree.parseEndifOrElse] at h
    obtain ⟨p, tp, h1, h⟩ := P.bind_eq_ok h
    by_cases hp : p.tokenType = tokenTagOpen
    · simp only [hp, if_true] at h
      obtain ⟨q, t2, h2, h⟩ := P.bind_eq_ok h
      obtain ⟨tk, t3, h3, h⟩ := P.bind_eq_ok h
      have hq : q = p ∧ t2.read = tp.read ++ [p] := by
        rcases tree.peek_cases t with ⟨g, _⟩ | ⟨p1, s1, g1, _, _, _, _, _, ⟨s2, g2⟩, _⟩
        · rw [g] at h1
          exact Res.noConfusion h1
        · rw [g1] at h1
          simp only [Res.ok.injEq] at h1
          obtain ⟨e1, e2⟩ := h1
          subst e1 e2
          rw [g2] at h2
          simp only [Res.ok.injEq] at h2
          obtain ⟨e1, e2⟩ := h2
          refine ⟨e1.symm, ?_⟩
          rcases tree.next_cases s1 with ⟨x, s3, n1, _, n3, _, _⟩ | ⟨n1, _⟩
          · rw [g2] at n1
            simp only [Res.ok.injEq] at n1
            obtain ⟨e3, e4⟩ := n1
            rw [← e2, e4, n3, e3]
          · rw [g2] at n1
            exact Res.noConfusion n1
      obtain ⟨hq1, hq2⟩ := hq
      obtain ⟨k1, ws, k2, _, _, k3, _⟩ := expect_inv _ _ _ _ _ h3
      by_cases he : tk.value = "else"
      · simp only [he, if_true] at h
        obtain ⟨u, t4, h4, h⟩ := P.bind_eq_ok h
        obtain ⟨m, t5, h5, h⟩ := P.bind_eq_ok h
        change Res.ok (body, some m) t5 = Res.ok (b, els) t1 at h
        simp only [Res.ok.injEq, Prod.mk.injEq] at h
        obtain ⟨⟨_, e2⟩, e3⟩ := h
        subst e3
        obtain ⟨j1, ws2, j2, _, _, j3, _⟩ := expect_inv _ _ _ _ _ h4
        refine ⟨tp.read, p, ws, tk, ws2, u, hp, k2, k1, j2, j1, Or.inr ⟨he, fuel, t4, m, ?_, h5,
          e2.symm⟩⟩
        rw [j3, k3, hq2]
        simp
      · simp only [he, if_false] at h
        by_cases hd : tk.value = "endif"
        · simp only [hd, if_true] at h
          obtain ⟨u, t4, h4, h⟩ := P.bind_eq_ok h
          change Res.ok (body, none) t4 = Res.ok (b, els) t1 at h
          simp only [Res.ok.injEq, Prod.mk.injEq] at h
          obtain ⟨⟨_, e2⟩, e3⟩ := h
          subst e3
          obtain ⟨j1, ws2, j2, _, _, j3, _⟩ := expect_inv _ _ _ _ _ h4
          refine ⟨tp.read, p, ws, tk, ws2, u, hp, k2, k1, j2, j1, Or.inl ⟨hd, e2.symm, ?_⟩⟩
          rw [j3, k3, hq2]
          simp
        · simp only [hd, if_false] at h
          obtain ⟨_, t4, _, h⟩ := P.bind_eq_ok h
          obtain ⟨_, t5, _, h⟩ := P.bind_eq_ok h
          obtain ⟨_, t6, _, h⟩ := P.bind_eq_ok h
          obtain ⟨n, t7, _, h⟩ := P.bind_eq_ok h
          exact ih _ _ _ _ _ h
    · simp only [hp, if_false] at h
      obtain ⟨n, t7, _, h⟩ := P.bind_eq_ok h
      exact ih _ _ _ _ _ h

/-- An if-node that the tag rule returns holds the body and the else-branch that
`parseEndifOrElse` returned. -/
theorem parseTag_if_inv (fuel : Nat) (t : tree) (cond : Expr) (body : ModuleNode)
    (els : Option ModuleNode) (pos : Nat) (t1 : tree)
    (h : tree.parseTag fuel t = .ok (Node.ifn cond body els pos) t1) :
    ∃ (f : Nat) (s : tree), tree.parseEndifOrElse f newModuleNode s = .ok (body, els) t1 := by
  cases fuel with
  | zero => exact Res.noConfusion h
  | succ fuel =>
    rw [tree.parseTag] at h
    obtain ⟨name, t2, h2, h⟩ := P.bind_eq_ok h
    by_cases hb : name.value = "block"
    · simp only [hb, if_true] at h
      obtain ⟨_, t3, _, h⟩ := P.bind_eq_ok h
      obtain ⟨_, t4, _, h⟩ := P.bind_eq_ok h
      obtain ⟨_, t5, _, h⟩ := P.bind_eq_ok h
      change Res.ok (newBlockNode _ _ _) t5 = _ at h
      simp [newBlockNode] at h
    · simp only [hb, if_false] at h
      by_cases hi : name.value = "if"
      · simp only [hi, if_true] at h
        obtain ⟨c, t3, _, h⟩ := P.bind_eq_ok h
        obtain ⟨_, t4, _, h⟩ := P.bind_eq_ok h
        obtain ⟨x, t5, h5, h⟩ := P.bind_eq_ok h
        obtain ⟨b1, e1⟩ := x
        change Res.ok (newIfNode c b1 e1 name.pos) t5 = _ at h
        simp only [newIfNode, Res.ok.injEq, Node.ifn.injEq] at h
        obtain ⟨⟨_, g2, g3, _⟩, g5⟩ := h
        subst g2 g3 g5
        exact ⟨fuel, t4, h5⟩
      · simp only [hi, if_false] at h
        change Res.ok Node.nil t2 = _ at h
        simp at h

/-- The expression rule on whitespace tokens followed by a name: the name
expression of its value. -/
theorem parseExpr_name_pending (ws : List token)
    (hws : ∀ w ∈ ws, w.tokenType = tokenWhitespace) (fuel : Nat) (t : tree) (nm : token)
    (tail : List token) (hp : t.pending = ws ++ nm :: tail) (hn : nm.tokenType = tokenName)
    (hf : ws.length < fuel) :
    ∃ t1, tree.parseExpr fuel t = .ok (Expr.name nm.value 0) t1 ∧ t1.pending = tail ∧
      t1.read = t.read ++ ws ++ [nm] ∧ t1.root = t.root ∧ t1.input = t.input := by
  obtain ⟨t1, g1, g2, g3, g4, g5⟩ :=
    nextNonSpace_pending ws hws fuel t nm tail hp (by rw [hn]; decide) hf
  refine ⟨t1, ?_, g2, g3, g4, g5⟩
  unfold tree.parseExpr
  rw [P.bind_ok g1]
  simp only [hn, if_true]
  rfl

/-- A step of the two body loops on a token that is no tag-open: the statement
rule runs on the state that `peek()` leaves, which has the read history and the
pending tokens of the state before. -/
theorem loop_step_plain (t : tree) (a : token) (tl : List token) (hp : t.pending = a :: tl)
    (ha : a.tokenType ≠ tokenTagOpen) :
    ∃ t1, t1.read = t.read ∧ t1.pending = t.pending ∧ t1.root = t.root ∧ t1.input = t.input ∧
      (∀ (f : Nat) (name : String) (acc : ModuleNode),
        tree.parseUntilEndTag (f + 1) name acc t
          = (tree.parse f >>= fun c => tree.parseUntilEndTag f name (acc.append c)) t1) ∧
      (∀ (f : Nat) (acc : ModuleNode),
        tree.parseEndifOrElse (f + 1) acc t
          = (tree.parse f >>= fun c => tree.parseEndifOrElse f (acc.append c)) t1) := by
  rcases tree.peek_cases t with ⟨_, hb⟩ | ⟨p, t0, h0, r0, p0, ro0, i0, q0, _, _⟩
  · rcases tree.next_cases t with ⟨_, _, h1, _⟩ | ⟨_, h2⟩
    · rw [hb] at h1; exact Res.noConfusion h1
    · rw [hp] at h2; simp at h2
  · have hpa : p = a := by
      rw [hp] at q0
      simp only [List.cons.injEq] at q0
      exact q0.1.symm
    subst hpa
    refine ⟨t0, r0, p0, ro0, i0, ?_, ?_⟩
    · intro f name acc
      rw [tree.parseUntilEndTag, P.bind_ok h0]
      simp only [ha, if_false]
    · intro f acc
      rw [tree.parseEndifOrElse, P.bind_ok h0]
      simp only [ha, if_false]

/-- A step of the two body loops on a tag that is no terminator, with one
whitespace token between the tag-open and the name: the lookahead is undone and
the statement rule runs on a state that has the read history and the pending
tokens of the state before. -/
theorem loop_step_tag (f : Nat) (t : tree) (o w nm : token) (tl : List token)
    (hp : t.pending = o :: w :: nm :: tl) (ho : o.tokenType = tokenTagOpen)
    (hw : w.tokenType = tokenWhitespace) (hn : nm.tokenType = tokenName) (hf : 1 < f) :
    ∃ t1, t1.read = t.read ∧ t1.pending = t.pending ∧ t1.root = t.root ∧ t1.input = t.input ∧
      (∀ (name : String) (acc : ModuleNode), nm.value ≠ "end" ++ name →
        tree.parseUntilEndTag (f + 1) name acc t
          = (tree.parse f >>= fun c => tree.parseUntilEndTag f name (acc.append c)) t1) ∧
      (∀ (acc : ModuleNode), nm.value ≠ "else" → nm.value ≠ "endif" →
        tree.parseEndifOrElse (f + 1) acc t
          = (tree.parse f >>= fun c => tree.parseEndifOrElse f (acc.append c)) t1) := by
  rcases tree.peek_cases t with ⟨_, hb⟩ | ⟨p, t0, h0, r0, p0, ro0, i0, q0, _, _⟩
  · rcases tree.next_cases t with ⟨_, _, h1, _⟩ | ⟨_, h2⟩
    · rw [hb] at h1; exact Res.noConfusion h1
    · rw [hp] at h2; simp at h2
  · have hpo : p = o := by
      rw [hp] at q0
      simp only [List.cons.injEq] at q0
      exact q0.1.symm
    subst hpo
    rcases tree.next_cases t0 with ⟨q, t2, h2, p2, r2, ro2, i2⟩ | ⟨_, h2⟩
    · rw [p0, hp] at p2
      simp only [List.cons.injEq] at p2
      obtain ⟨e, p2⟩ := p2
      subst e
      obtain ⟨t3, h3, p3, r3, ro3, i3⟩ :=
        (expect_pending [w] (by simpa using hw) f tokenName t2 nm tl p2.symm
          (by rw [hn]; decide) (by simpa using hf)).2 hn
      obtain ⟨t4, h4, r4, p4, ro4, i4⟩ := tree.backup_read t3 (t2.read ++ [w]) nm (by rw [r3])
      obtain ⟨t5, h5, r5, p5, ro5, i5⟩ := tree.backup_read t4 t2.read w r4
      obtain ⟨t6, h6, r6, p6, ro6, i6⟩ := tree.backup_read t5 t0.read p (by rw [r5, r2])
      refine ⟨t6, by rw [r6, r0], by rw [p6, p5, p4, p3, hp],
        by rw [ro6, ro5, ro4, ro3, ro2, ro0], by rw [i6, i5, i4, i3, i2, i0], ?_, ?_⟩
      · intro name acc hne
        rw [tree.parseUntilEndTag, P.bind_ok h0]
        simp only [ho, if_true]
        rw [P.bind_ok h2, P.bind_ok h3]
        simp only [hne, if_false]
        rw [P.bind_ok h4, P.bind_ok h5, P.bind_ok h6]
      · intro acc hne1 hne2
        rw [tree.parseEndifOrElse, P.bind_ok h0]
        simp only [ho, if_true]
        rw [P.bind_ok h2, P.bind_ok h3]
        simp only [hne1, hne2, if_false]
        rw [P.bind_ok h4, P.bind_ok h5, P.bind_ok h6]
    · rw [p0, hp] at h2; simp at h2

/-- The first tokens of a statement: a token that is no tag-open, or a tag-open,
one whitespace token and the name `block` or `if`. -/
theorem Stmt.tokens_head (s : Stmt) :
    (∃ a tl, s.tokens = a :: tl ∧ a.tokenType ≠ tokenTagOpen) ∨
    (∃ o w nm tl, s.tokens = o :: w :: nm :: tl ∧ o.tokenType = tokenTagOpen ∧
      w.tokenType = tokenWhitespace ∧ nm.tokenType = tokenName ∧
      (nm.value = "block" ∨ nm.value = "if")) := by
  cases s with
  | text v p => exact Or.inl ⟨_, _, by rw [Stmt.tokens], by simp⟩
  | print x p => exact Or.inl ⟨_, _, by rw [Stmt.tokens], by simp⟩
  | block x p body =>
    exact Or.inr ⟨_, _, _, _, by rw [Stmt.tokens]; rfl, rfl, rfl, rfl, Or.inl rfl⟩
  | ifn x p body =>
    exact Or.inr ⟨_, _, _, _, by rw [Stmt.tokens]; rfl, rfl, rfl, rfl, Or.inr rfl⟩
  | ifElse x p body els =>
    exact Or.inr ⟨_, _, _, _, by rw [Stmt.tokens]; rfl, rfl, rfl, rfl, Or.inr rfl⟩

/-- A step of the two body loops on a statement: the statement rule runs on a
state that has the read history and the pending tokens of the state before. -/
theorem loop_step (s : Stmt) (f : Nat) (t : tree) (rest : List token)
    (hp : t.pending = s.tokens ++ rest) (hf : 1 < f) :
    ∃ t1, t1.read = t.read ∧ t1.pending = t.pending ∧ t1.root = t.root ∧ t1.input = t.input ∧
      (∀ (name : String) (acc : ModuleNode), name = "block" ∨ name = "if" →
        tree.parseUntilEndTag (f + 1) name acc t
          = (tree.parse f >>= fun c => tree.parseUntilEndTag f name (acc.append c)) t1) ∧
      (∀ (acc : ModuleNode),
        tree.parseEndifOrElse (f + 1) acc t
          = (tree.parse f >>= fun c => tree.parseEndifOrElse f (acc.append c)) t1) := by
  rcases Stmt.tokens_head s with ⟨a, tl, e, ha⟩ | ⟨o, w, nm, tl, e, ho, hw, hn, hv⟩
  · rw [e] at hp
    obtain ⟨t1, h1, h2, h3, h4, h5, h6⟩ := loop_step_plain t a (tl ++ rest) hp ha
    exact ⟨t1, h1, h2, h3, h4, fun name acc _ => h5 f name acc, fun acc => h6 f acc⟩
  · rw [e] at hp
    obtain ⟨t1, h1, h2, h3, h4, h5, h6⟩ := loop_step_tag f t o w nm (tl ++ rest) hp ho hw hn hf
    refine ⟨t1, h1, h2, h3, h4, ?_, ?_⟩
    · intro name acc hname
      apply h5
      rcases hname with rfl | rfl <;> rcases hv with hv | hv <;> rw [hv] <;> decide
    · intro acc
      apply h6
      · rcases hv with hv | hv <;> rw [hv] <;> decide
      · rcases hv with hv | hv <;> rw [hv] <;> decide

/-- Reading a tag that holds a name only: `peek()`, `next()`,
`expect(tokenName)` and `expect(tokenTagClose)` succeed in turn and consume the
tag. -/
theorem read_tag (fuel : Nat) (t : tree) (o : token) (ws : List token) (nm : token)
    (ws2 : List token) (c : token) (rest : List token)
    (hp : t.pending = o :: (ws ++ nm :: (ws2 ++ c :: rest)))
    (hws : ∀ w ∈ ws, w.tokenType = tokenWhitespace) (hn : nm.tokenType = tokenName)
    (hws2 : ∀ w ∈ ws2, w.tokenType = tokenWhitespace) (hc : c.tokenType = tokenTagClose)
    (hf : ws.length < fuel) (hf2 : ws2.length < fuel) :
    ∃ t0 t2 t3 t4, tree.peek t = .ok o t0 ∧ tree.next t0 = .ok o t2 ∧
      tree.expect fuel tokenName t2 = .ok nm t3 ∧ tree.expect fuel tokenTagClose t3 = .ok c t4 ∧
      t4.pending = rest ∧ t4.read = t.read ++ o :: (ws ++ nm :: (ws2 ++ [c])) ∧
      t4.root = t.root ∧ t4.input = t.input := by
  rcases tree.peek_cases t with ⟨_, hb⟩ | ⟨p, t0, h0, r0, p0, ro0, i0, q0, _, _⟩
  · rcases tree.next_cases t with ⟨_, _, h1, _⟩ | ⟨_, h2⟩
    · rw [hb] at h1; exact Res.noConfusion h1
    · rw [hp] at h2; simp at h2
  · have hpo : p = o := by
      rw [hp] at q0
      simp only [List.cons.injEq] at q0
      exact q0.1.symm
    subst hpo
    rcases tree.next_cases t0 with ⟨q, t2, h2, p2, r2, ro2, i2⟩ | ⟨_, h2⟩
    · rw [p0, hp] at p2
      simp only [List.cons.injEq] at p2
      obtain ⟨e, p2⟩ := p2
      subst e
      obtain ⟨t3, h3, p3, r3, ro3, i3⟩ :=
        (expect_pending ws hws fuel tokenName t2 nm _ p2.symm (by rw [hn]; decide) hf).2 hn
      obtain ⟨t4, h4, p4, r4, ro4, i4⟩ :=
        (expect_pending ws2 hws2 fuel tokenTagClose t3 c rest p3 (by rw [hc]; decide) hf2).2 hc
      exact ⟨t0, t2, t3, t4, h0, h2, h3, h4, p4, by rw [r4, r3, r2, r0]; simp,
        by rw [ro4, ro3, ro2, ro0], by rw [i4, i3, i2, i0]⟩
    · rw [p0, hp] at h2; simp at h2

/-- The loop of `parseEndifOrElse` at an `endif` tag returns the body built so
far and a nil else-branch. -/
theorem parseEndifOrElse_endif (fuel : Nat) (body : ModuleNode) (t : tree) (o : token)
    (ws : List token) (nm : token) (ws2 : List token) (c : token) (rest : List token)
    (hp : t.pending = o :: (ws ++ nm :: (ws2 ++ c :: rest)))
    (ho : o.tokenType = tokenTagOpen) (hws : ∀ w ∈ ws, w.tokenType = tokenWhitespace)
    (hn : nm.tokenType = tokenName) (hv : nm.value = "endif")
    (hws2 : ∀ w ∈ ws2, w.tokenType = tokenWhitespace) (hc : c.tokenType = tokenTagClose)
    (hf : ws.length < fuel) (hf2 : ws2.length < fuel) :
    ∃ t1, tree.parseEndifOrElse (fuel + 1) body t = .ok (body, none) t1 ∧ t1.pending = rest ∧
      t1.read = t.read ++ o :: (ws ++ nm :: (ws2 ++ [c])) ∧ t1.root = t.root ∧
      t1.input = t.input := by
  obtain ⟨t0, t2, t3, t4, h0, h2, h3, h4, p4, r4, ro4, i4⟩ :=
    read_tag fuel t o ws nm ws2 c rest hp hws hn hws2 hc hf hf2
  have hne : nm.value ≠ "else" := by rw [hv]; decide
  refine ⟨t4, ?_, p4, r4, ro4, i4⟩
  rw [tree.parseEndifOrElse, P.bind_ok h0]
  simp only [ho, if_true]
  rw [P.bind_ok h2, P.bind_ok h3]
  rw [if_neg hne, if_pos hv]
  rw [P.bind_ok h4]
  rfl

/-- The loop of `parseEndifOrElse` at an `else` tag: the else-branch is parsed by
`parseUntilEndTag("if")` on the state after the tag, and the module that this
returns, be it empty, is the else-branch of the result. -/
theorem parseEndifOrElse_else (fuel : Nat) (body : ModuleNode) (t : tree) (o : token)
    (ws : List token) (nm : token) (ws2 : List token) (c : token) (rest : List token)
    (hp : t.pending = o :: (ws ++ nm :: (ws2 ++ c :: rest)))
    (ho : o.tokenType = tokenTagOpen) (hws : ∀ w ∈ ws, w.tokenType = tokenWhitespace)
    (hn : nm.tokenType = tokenName) (hv : nm.value = "else")
    (hws2 : ∀ w ∈ ws2, w.tokenType = tokenWhitespace) (hc : c.tokenType = tokenTagClose)
    (hf : ws.length < fuel) (hf2 : ws2.length < fuel) :
    ∃ s, s.pending = rest ∧ s.read = t.read ++ o :: (ws ++ nm :: (ws2 ++ [c])) ∧
      s.root = t.root ∧ s.input = t.input ∧
      tree.parseEndifOrElse (fuel + 1) body t
        = (tree.parseUntilEndTag fuel "if" newModuleNode >>= fun m => pure (body, some m)) s := by
  obtain ⟨t0, t2, t3, t4, h0, h2, h3, h4, p4, r4, ro4, i4⟩ :=
    read_tag fuel t o ws nm ws2 c rest hp hws hn hws2 hc hf hf2
  refine ⟨t4, p4, r4, ro4, i4, ?_⟩
  rw [tree.parseEndifOrElse, P.bind_ok h0]
  simp only [ho, if_true]
  rw [P.bind_ok h2, P.bind_ok h3]
  simp only [hv, if_true]
  rw [P.bind_ok h4]

/-- The loop of `parseEndifOrElse` at a tag named `else` or `endif`: if it
returns, the else-branch of the result is present if and only if the tag is the
`else` tag. -/
theorem parseEndifOrElse_isSome (fuel : Nat) (body : ModuleNode) (t : tree) (o : token)
    (ws : List token) (nm : token) (ws2 : List token) (c : token) (rest : List token)
    (b : ModuleNode) (els : Option ModuleNode) (t1 : tree)
    (hp : t.pending = o :: (ws ++ nm :: (ws2 ++ c :: rest)))
    (ho : o.tokenType = tokenTagOpen) (hws : ∀ w ∈ ws, w.tokenType = tokenWhitespace)
    (hn : nm.tokenType = tokenName) (hv : nm.value = "else" ∨ nm.value = "endif")
    (hws2 : ∀ w ∈ ws2, w.tokenType = tokenWhitespace) (hc : c.tokenType = tokenTagClose)
    (hf : ws.length < fuel) (hf2 : ws2.length < fuel)
    (h : tree.parseEndifOrElse (fuel + 1) body t = .ok (b, els) t1) :
    els.isSome = true ↔ nm.value = "else" := by
  rcases hv with hv | hv
  · obtain ⟨s, _, _, _, _, e⟩ :=
      parseEndifOrElse_else fuel body t o ws nm ws2 c rest hp ho hws hn hv hws2 hc hf hf2
    rw [e] at h
    obtain ⟨m, t2, _, h2⟩ := P.bind_eq_ok h
    change Res.ok (body, some m) t2 = Res.ok (b, els) t1 at h2
    simp only [Res.ok.injEq, Prod.mk.injEq] at h2
    rw [← h2.1.2]
    exact ⟨fun _ => hv, fun _ => rfl⟩
  · obtain ⟨t2, e, _⟩ :=
      parseEndifOrElse_endif fuel body t o ws nm ws2 c rest hp ho hws hn hv hws2 hc hf hf2
    rw [e] at h
    simp only [Res.ok.injEq, Prod.mk.injEq] at h
    rw [← h.1.2, hv]
    exact ⟨fun h3 => by simp at h3, fun h3 => absurd h3 (by decide)⟩

/-- The loop of `parseUntilEndTag(name)` at the tag `end` + `name` returns the
module built so far. -/
theorem parseUntilEndTag_end (fuel : Nat) (name : String) (n : ModuleNode) (t : tree)
    (o : token) (ws : List token) (nm : token) (ws2 : List token) (c : token)
    (rest : List token) (hp : t.pending = o :: (ws ++ nm :: (ws2 ++ c :: rest)))
    (ho : o.tokenType = tokenTagOpen) (hws : ∀ w ∈ ws, w.tokenType = tokenWhitespace)
    (hn : nm.tokenType = tokenName) (hv : nm.value = "end" ++ name)
    (hws2 : ∀ w ∈ ws2, w.tokenType = tokenWhitespace) (hc : c.tokenType = tokenTagClose)
    (hf : ws.length < fuel) (hf2 : ws2.length < fuel) :
    ∃ t1, tree.parseUntilEndTag (fuel + 1) name n t = .ok n t1 ∧ t1.pending = rest ∧
      t1.read = t.read ++ o :: (ws ++ nm :: (ws2 ++ [c])) ∧ t1.root = t.root ∧
      t1.input = t.input := by
  obtain ⟨t0, t2, t3, t4, h0, h2, h3, h4, p4, r4, ro4, i4⟩ :=
    read_tag fuel t o ws nm ws2 c rest hp hws hn hws2 hc hf hf2
  refine ⟨t4, ?_, p4, r4, ro4, i4⟩
  rw [tree.parseUntilEndTag, P.bind_ok h0]
  simp only [ho, if_true]
  rw [P.bind_ok h2, P.bind_ok h3]
  simp only [hv, if_true]
  rw [P.bind_ok h4]
  rfl

/-- Reading the rest of an opening tag after its tag-open, in the layout of
`tagTokensWith`: the name, the name expression and the tag-close. -/
theorem read_open_tag (fuel : Nat) (t : tree) (name : String) (pos : Nat) (arg : String)
    (rest : List token)
    (hp : t.pending = spaceToken :: ⟨tokenName, name, pos⟩ :: spaceToken ::
      ⟨tokenName, arg, 0⟩ :: spaceToken :: ⟨tokenTagClose, lexTagClose, 0⟩ :: rest)
    (hf : 1 < fuel) :
    ∃ t1 t2 t3, tree.expect fuel tokenName t = .ok ⟨tokenName, name, pos⟩ t1 ∧
      tree.parseExpr fuel t1 = .ok (Expr.name arg 0) t2 ∧
      tree.expect fuel tokenTagClose t2 = .ok ⟨tokenTagClose, lexTagClose, 0⟩ t3 ∧
      t3.pending = rest ∧
      t3.read = t.read ++ [spaceToken, ⟨tokenName, name, pos⟩, spaceToken,
        ⟨tokenName, arg, 0⟩, spaceToken, ⟨tokenTagClose, lexTagClose, 0⟩] ∧
      t3.root = t.root ∧ t3.input = t.input := by
  have hsp : ∀ w ∈ [spaceToken], w.tokenType = tokenWhitespace := by
    intro w hw
    rw [List.mem_singleton.1 hw]
    rfl
  obtain ⟨t1, h1, p1, r1, ro1, i1⟩ :=
    (expect_pending [spaceToken] hsp fuel tokenName t ⟨tokenName, name, pos⟩ _ hp
      (by simp) (by simpa using hf)).2 rfl
  obtain ⟨t2, h2, p2, r2, ro2, i2⟩ :=
    parseExpr_name_pending [spaceToken] hsp fuel t1 ⟨tokenName, arg, 0⟩ _ p1 rfl
      (by simpa using hf)
  obtain ⟨t3, h3, p3, r3, ro3, i3⟩ :=
    (expect_pending [spaceToken] hsp fuel tokenTagClose t2 ⟨tokenTagClose, lexTagClose, 0⟩ rest
      p2 (by decide) (by simpa using hf)).2 rfl
  exact ⟨t1, t2, t3, h1, h2, h3, p3, by rw [r3, r2, r1]; simp, by rw [ro3, ro2, ro1],
    by rw [i3, i2, i1]⟩

/-- The one token of the list `[spaceToken]` is whitespace. -/
theorem spaceToken_mem : ∀ w ∈ [spaceToken], w.tokenType = tokenWhitespace := by
  intro w hw
  rw [List.mem_singleton.1 hw]
  rfl

mutual
/-- The statement rule on the tokens of a statement: with enough fuel it returns
the node of the statement and has consumed exactly its tokens. -/
theorem parse_stmt : ∀ s : Stmt, ∃ N : Nat, ∀ fuel : Nat, N ≤ fuel →
    ∀ (t : tree) (rest : List token), t.pending = s.tokens ++ rest →
    ∃ t1, tree.parse fuel t = .ok s.node t1 ∧ t1.pending = rest ∧
      t1.read = t.read ++ s.tokens ∧ t1.root = t.root ∧ t1.input = t.input
  | .text v p => by
    refine ⟨2, ?_⟩
    intro fuel hN t rest hp
    obtain ⟨f, rfl⟩ : ∃ f, fuel = f + 1 := ⟨fuel - 1, by omega⟩
    rw [Stmt.tokens] at hp
    obtain ⟨t1, g1, g2, g3, g4, g5⟩ :=
      nextNonSpace_pending [] (by simp) f t ⟨tokenText, v, p⟩ rest hp (by simp)
        (by simp; omega)
    refine ⟨t1, ?_, g2, by rw [g3, Stmt.tokens]; simp, g4, g5⟩
    rw [tree.parse, P.bind_ok g1]
    rfl
  | .print x p => by
    refine ⟨3, ?_⟩
    intro fuel hN t rest hp
    obtain ⟨f, rfl⟩ : ∃ f, fuel = f + 1 := ⟨fuel - 1, by omega⟩
    rw [Stmt.tokens] at hp
    obtain ⟨t1, g1, g2, g3, g4, g5⟩ :=
      nextNonSpace_pending [] (by simp) f t ⟨tokenPrintOpen, lexPrintOpen, p⟩ _ hp (by simp)
        (by simp; omega)
    obtain ⟨t2, h2, p2, r2, ro2, i2⟩ :=
      parseExpr_name_pending [spaceToken] spaceToken_mem f t1 ⟨tokenName, x, 0⟩ _ g2 rfl
        (by simp; omega)
    obtain ⟨t3, h3, p3, r3, ro3, i3⟩ :=
      (expect_pending [spaceToken] spaceToken_mem f tokenPrintClose t2
        ⟨tokenPrintClose, lexPrintClose, 0⟩ rest p2 (by decide) (by simp; omega)).2 rfl
    refine ⟨t3, ?_, p3, by rw [r3, r2, g3, Stmt.tokens]; simp, by rw [ro3, ro2, g4],
      by rw [i3, i2, g5]⟩
    rw [tree.parse, P.bind_ok g1]
    simp only [reduceCtorEq, if_false, if_true]
    rw [P.bind_ok h2, P.bind_ok h3]
    rfl
  | .block x p body => by
    obtain ⟨N, k, hb⟩ := loop_stmts body
    refine ⟨N + k + 6, ?_⟩
    intro fuel hN t rest hp
    obtain ⟨g, hg, rfl⟩ : ∃ g, N + 2 ≤ g ∧ fuel = ((g + 1) + k) + 1 + 1 :=
      ⟨fuel - k - 3, by omega, by omega⟩
    rw [Stmt.tokens] at hp
    have hp0 : t.pending = [] ++ ⟨tokenTagOpen, lexTagOpen, 0⟩ ::
        (spaceToken :: ⟨tokenName, "block", p⟩ :: spaceToken :: ⟨tokenName, x, 0⟩ ::
          spaceToken :: ⟨tokenTagClose, lexTagClose, 0⟩ ::
            (body.tokens ++ (tagTokens "endblock" 0 ++ rest))) := by
      rw [hp]
      simp [tagTokensWith]
    obtain ⟨t1, g1, g2, g3, g4, g5⟩ :=
      nextNonSpace_pending [] (by simp) (g + 1 + k + 1) t _ _ hp0 (by decide) (by simp)
    obtain ⟨t2, t3, t4, e1, e2, e3, p4, r4, ro4, i4⟩ :=
      read_open_tag (g + 1 + k) t1 "block" p x _ g2 (by omega)
    obtain ⟨t5, p5, r5, ro5, i5, l5, _⟩ := hb (g + 1) (by omega) t4 _ p4
    obtain ⟨t6, e6, p6, r6, ro6, i6⟩ :=
      parseUntilEndTag_end g "block" (ModuleNode.mk "" ([] ++ body.nodes)) t5
        ⟨tokenTagOpen, lexTagOpen, 0⟩ [spaceToken] ⟨tokenName, "endblock", 0⟩ [spaceToken]
        ⟨tokenTagClose, lexTagClose, 0⟩ rest p5 rfl spaceToken_mem rfl (by decide)
        spaceToken_mem rfl (by simp; omega) (by simp; omega)
    have l6 := (l5 "block" [] (Or.inl rfl)).trans e6
    refine ⟨t6, ?_, p6, ?_, by rw [ro6, ro5, ro4, g4], by rw [i6, i5, i4, g5]⟩
    · rw [tree.parse, P.bind_ok g1]
      simp only [reduceCtorEq, if_false, if_true]
      rw [tree.parseTag, P.bind_ok e1]
      simp only [if_true]
      rw [P.bind_ok e2, P.bind_ok e3]
      change (tree.parseUntilEndTag (g + 1 + k) "block" (ModuleNode.mk "" []) >>= _) t4 = _
      rw [P.bind_ok l6]
      rfl
    · rw [r6, r5, r4, g3, Stmt.tokens]
      simp [tagTokensWith, tagTokens]
  | .ifn x p body => by
    obtain ⟨N, k, hb⟩ := loop_stmts body
    refine ⟨N + k + 6, ?_⟩
    intro fuel hN t rest hp
    obtain ⟨g, hg, rfl⟩ : ∃ g, N + 2 ≤ g ∧ fuel = ((g + 1) + k) + 1 + 1 :=
      ⟨fuel - k - 3, by omega, by omega⟩
    rw [Stmt.tokens] at hp
    have hp0 : t.pending = [] ++ ⟨tokenTagOpen, lexTagOpen, 0⟩ ::
        (spaceToken :: ⟨tokenName, "if", p⟩ :: spaceToken :: ⟨tokenName, x, 0⟩ ::
          spaceToken :: ⟨tokenTagClose, lexTagClose, 0⟩ ::
            (body.tokens ++ (tagTokens "endif" 0 ++ rest))) := by
      rw [hp]
      simp [tagTokensWith]
    obtain ⟨t1, g1, g2, g3, g4, g5⟩ :=
      nextNonSpace_pending [] (by simp) (g + 1 + k + 1) t _ _ hp0 (by decide) (by simp)
    obtain ⟨t2, t3, t4, e1, e2, e3, p4, r4, ro4, i4⟩ :=
      read_open_tag (g + 1 + k) t1 "if" p x _ g2 (by omega)
    obtain ⟨t5, p5, r5, ro5, i5, _, l5⟩ := hb (g + 1) (by omega) t4 _ p4
    obtain ⟨t6, e6, p6, r6, ro6, i6⟩ :=
      parseEndifOrElse_endif g (ModuleNode.mk "" ([] ++ body.nodes)) t5
        ⟨tokenTagOpen, lexTagOpen, 0⟩ [spaceToken] ⟨tokenName, "endif", 0⟩ [spaceToken]
        ⟨tokenTagClose, lexTagClose, 0⟩ rest p5 rfl spaceToken_mem rfl rfl
        spaceToken_mem rfl (by simp; omega) (by simp; omega)
    have l6 := (l5 []).trans e6
    refine ⟨t6, ?_, p6, ?_, by rw [ro6, ro5, ro4, g4], by rw [i6, i5, i4, g5]⟩
    · rw [tree.parse, P.bind_ok g1]
      simp only [reduceCtorEq, if_false, if_true]
      rw [tree.parseTag, P.bind_ok e1]
      simp only [String.reduceEq, if_false, if_true]
      rw [P.bind_ok e2, P.bind_ok e3]
      change (tree.parseEndifOrElse (g + 1 + k) (ModuleNode.mk "" []) >>= _) t4 = _
      rw [P.bind_ok l6]
      rfl
    · rw [r6, r5, r4, g3, Stmt.tokens]
      simp [tagTokensWith, tagTokens]
  | .ifElse x p body els => by
    obtain ⟨N, k, hb⟩ := loop_stmts body
    obtain ⟨N2, k2, he⟩ := loop_stmts els
    refine ⟨N + N2 + k + k2 + 8, ?_⟩
    intro fuel hN t rest hp
    obtain ⟨g, hg, rfl⟩ : ∃ g, N + N2 + 2 ≤ g ∧ fuel = (((g + 1) + k2 + 1) + k) + 1 + 1 :=
      ⟨fuel - k - k2 - 4, by omega, by omega⟩
    rw [Stmt.tokens] at hp
    have hp0 : t.pending = [] ++ ⟨tokenTagOpen, lexTagOpen, 0⟩ ::
        (spaceToken :: ⟨tokenName, "if", p⟩ :: spaceToken :: ⟨tokenName, x, 0⟩ ::
          spaceToken :: ⟨tokenTagClose, lexTagClose, 0⟩ ::
            (body.tokens ++ (tagTokens "else" 0 ++
              (els.tokens ++ (tagTokens "endif" 0 ++ rest))))) := by
      rw [hp]
      simp [tagTokensWith]
    obtain ⟨t1, g1, g2, g3, g4, g5⟩ :=
      nextNonSpace_pending [] (by simp) (g + 1 + k2 + 1 + k + 1) t _ _ hp0 (by decide) (by simp)
    obtain ⟨t2, t3, t4, e1, e2, e3, p4, r4, ro4, i4⟩ :=
      read_open_tag (g + 1 + k2 + 1 + k) t1 "if" p x _ g2 (by omega)
    obtain ⟨t5, p5, r5, ro5, i5, _, l5⟩ := hb (g + 1 + k2 + 1) (by omega) t4 _ p4
    obtain ⟨t6, p6, r6, ro6, i6, e6⟩ :=
      parseEndifOrElse_else (g + 1 + k2) (ModuleNode.mk "" ([] ++ body.nodes)) t5
        ⟨tokenTagOpen, lexTagOpen, 0⟩ [spaceToken] ⟨tokenName, "else", 0⟩ [spaceToken]
        ⟨tokenTagClose, lexTagClose, 0⟩ _ p5 rfl spaceToken_mem rfl rfl
        spaceToken_mem rfl (by simp; omega) (by simp; omega)
    obtain ⟨t7, p7, r7, ro7, i7, l7, _⟩ := he (g + 1) (by omega) t6 _ p6
    obtain ⟨t8, e8, p8, r8, ro8, i8⟩ :=
      parseUntilEndTag_end g "if" (ModuleNode.mk "" ([] ++ els.nodes)) t7
        ⟨tokenTagOpen, lexTagOpen, 0⟩ [spaceToken] ⟨tokenName, "endif", 0⟩ [spaceToken]
        ⟨tokenTagClose, lexTagClose, 0⟩ rest p7 rfl spaceToken_mem rfl (by decide)
        spaceToken_mem rfl (by simp; omega) (by simp; omega)
    have l8 := (l7 "if" [] (Or.inr rfl)).trans e8
    have l6 : tree.parseEndifOrElse (g + 1 + k2 + 1 + k) (ModuleNode.mk "" []) t4
        = .ok (ModuleNode.mk "" ([] ++ body.nodes), some (ModuleNode.mk "" ([] ++ els.nodes)))
            t8 := by
      rw [l5 [], e6]
      change (tree.parseUntilEndTag (g + 1 + k2) "if" (ModuleNode.mk "" []) >>= _) t6 = _
      rw [P.bind_ok l8]
      rfl
    refine ⟨t8, ?_, p8, ?_, by rw [ro8, ro7, ro6, ro5, ro4, g4],
      by rw [i8, i7, i6, i5, i4, g5]⟩
    · rw [tree.parse, P.bind_ok g1]
      simp only [reduceCtorEq, if_false, if_true]
      rw [tree.parseTag, P.bind_ok e1]
      simp only [String.reduceEq, if_false, if_true]
      rw [P.bind_ok e2, P.bind_ok e3]
      change (tree.parseEndifOrElse (g + 1 + k2 + 1 + k) (ModuleNode.mk "" []) >>= _) t4 = _
      rw [P.bind_ok l6]
      rfl
    · rw [r8, r7, r6, r5, r4, g3, Stmt.tokens]
      simp [tagTokensWith, tagTokens]
/-- The two body loops on the tokens of a run of statements: with enough fuel,
after one iteration for each statement the loop goes on with the nodes of the
statements appended to the body and exactly their tokens consumed. -/
theorem loop_stmts : ∀ ss : Stmts, ∃ N k : Nat, ∀ f : Nat, N ≤ f →
    ∀ (t : tree) (rest : List token), t.pending = ss.tokens ++ rest →
    ∃ t1, t1.pending = rest ∧ t1.read = t.read ++ ss.tokens ∧ t1.root = t.root ∧
      t1.input = t.input ∧
      (∀ (name : String) (acc : List Node), name = "block" ∨ name = "if" →
        tree.parseUntilEndTag (f + k) name (ModuleNode.mk "" acc) t
          = tree.parseUntilEndTag f name (ModuleNode.mk "" (acc ++ ss.nodes)) t1) ∧
      (∀ (acc : List Node),
        tree.parseEndifOrElse (f + k) (ModuleNode.mk "" acc) t
          = tree.parseEndifOrElse f (ModuleNode.mk "" (acc ++ ss.nodes)) t1)
  | .nil => by
    refine ⟨0, 0, ?_⟩
    intro f _ t rest hp
    rw [Stmts.tokens] at hp
    refine ⟨t, by simpa using hp, by rw [Stmts.tokens]; simp, rfl, rfl, ?_, ?_⟩
    · intro name acc _
      rw [Stmts.nodes, List.append_nil]
      rfl
    · intro acc
      rw [Stmts.nodes, List.append_nil]
      rfl
  | .cons s ss => by
    obtain ⟨N1, h1⟩ := parse_stmt s
    obtain ⟨N2, k, h2⟩ := loop_stmts ss
    refine ⟨N1 + N2 + 2, k + 1, ?_⟩
    intro f hN t rest hp
    rw [Stmts.tokens, List.append_assoc] at hp
    obtain ⟨ta, a1, a2, a3, a4, a5, a6⟩ := loop_step s (f + k) t _ hp (by omega)
    obtain ⟨tb, b1, b2, b3, b4, b5⟩ := h1 (f + k) (by omega) ta _ (a2.trans hp)
    obtain ⟨tc, c1, c2, c3, c4, c5, c6⟩ := h2 f (by omega) tb rest b2
    have e : ∀ acc : List Node,
        (ModuleNode.mk "" acc).append s.node = ModuleNode.mk "" (acc ++ [s.node]) :=
      fun _ => rfl
    refine ⟨tc, c1, ?_, by rw [c3, b4, a3], by rw [c4, b5, a4], ?_, ?_⟩
    · rw [c2, b3, a1, Stmts.tokens]
      simp
    · intro name acc hname
      change tree.parseUntilEndTag ((f + k) + 1) name (ModuleNode.mk "" acc) t = _
      rw [a5 name _ hname, P.bind_ok b1, e, c5 name _ hname, Stmts.nodes, List.append_assoc]
      rfl
    · intro acc
      change tree.parseEndifOrElse ((f + k) + 1) (ModuleNode.mk "" acc) t = _
      rw [a6, P.bind_ok b1, e, c6, Stmts.nodes, List.append_assoc]
      rfl
end

/-- The node of a statement is never Go's `nil`. -/
theorem Stmt.node_ne_nil (s : Stmt) : s.node ≠ Node.nil := by
  cases s <;> rw [Stmt.node] <;> exact fun h => Node.noConfusion h

/-- An iteration of the loop of `Parse` on a node that is not `nil`: the node is
appended to the root and the loop goes on. -/
theorem parseLoop_step (f : Nat) (t t1 : tree) (n : Node) (hn : n ≠ Node.nil)
    (h : tree.parse f t = .ok n t1) :
    parseLoop (f + 1) t = parseLoop f { t1 with root := t1.root.append n } := by
  rw [parseLoop, P.bind_ok h]
  cases n with
  | nil => exact absurd rfl hn
  | text _ _ => rfl
  | print _ _ => rfl
  | module _ => rfl
  | block _ _ _ _ => rfl
  | ifn _ _ _ _ => rfl

/-- The loop of `Parse` on the tokens of a run of statements: with enough fuel,
after one iteration for each statement the loop goes on with the nodes of the
statements appended to the root and exactly their tokens consumed. -/
theorem parseLoop_stmts : ∀ ss : Stmts, ∃ N k : Nat, ∀ f : Nat, N ≤ f →
    ∀ (t : tree) (rest : List token), t.pending = ss.tokens ++ rest →
    ∃ t1, t1.pending = rest ∧ t1.read = t.read ++ ss.tokens ∧
      t1.root = ModuleNode.mk t.root.Origin (t.root.nodes ++ ss.nodes) ∧
      t1.input = t.input ∧ parseLoop (f + k) t = parseLoop f t1
  | .nil => by
    refine ⟨0, 0, ?_⟩
    intro f _ t rest hp
    rw [Stmts.tokens] at hp
    refine ⟨t, by simpa using hp, by rw [Stmts.tokens]; simp, ?_, rfl, rfl⟩
    rw [Stmts.nodes, List.append_nil]
    cases t.root
    rfl
  | .cons s ss => by
    obtain ⟨N1, h1⟩ := parse_stmt s
    obtain ⟨N2, k, h2⟩ := parseLoop_stmts ss
    refine ⟨N1 + N2, k + 1, ?_⟩
    intro f hN t rest hp
    rw [Stmts.tokens, List.append_assoc] at hp
    obtain ⟨tb, b1, b2, b3, b4, b5⟩ := h1 (f + k) (by omega) t _ hp
    have hb : tree.pending { tb with root := tb.root.append s.node } = ss.tokens ++ rest := b2
    obtain ⟨tc, c1, c2, c3, c4, c5⟩ := h2 f (by omega) _ rest hb
    refine ⟨tc, c1, ?_, ?_, ?_, ?_⟩
    · rw [c2, Stmts.tokens]
      change tb.read ++ ss.tokens = _
      rw [b3]
      simp
    · rw [c3, Stmts.nodes]
      change ModuleNode.mk (tb.root.append s.node).Origin
        ((tb.root.append s.node).nodes ++ ss.nodes) = _
      rw [b4]
      simp [ModuleNode.append, ModuleNode.Origin, ModuleNode.nodes]
    · rw [c4]
      exact b5
    · change parseLoop ((f + k) + 1) t = _
      rw [parseLoop_step (f + k) t tb s.node (Stmt.node_ne_nil s) b1, c5]

/-- A state without pending tokens is determined by its root, its input and its
read history. -/
theorem tree.eq_of_fields (t : tree) (root : ModuleNode) (input : String) (read : List token)
    (h1 : t.root = root) (h2 : t.input = input) (h3 : t.pending = []) (h4 : t.read = read) :
    t = ⟨root, input, ⟨[]⟩, [], read⟩ := by
  obtain ⟨r, i, ⟨l⟩, u, rd⟩ := t
  simp only [tree.pending, List.append_eq_nil, List.reverse_eq_nil_iff] at h3
  simp only at h1 h2 h4
  obtain ⟨h5, h6⟩ := h3
  subst h1 h2 h4 h5 h6
  rfl

/-- Parsing the token stream of a template of statements, followed by
end-of-input: with enough fuel `Parse` returns, the children of the root are
the nodes of the statements, nested as the statements are, and every token has
been read. -/
theorem Parse_stmts (ss : Stmts) (input ve : String) (q : Nat) : ∃ N : Nat, ∀ j : Nat,
    Parse (N + j) input ⟨ss.tokens ++ [⟨tokenEof, ve, q⟩]⟩
      = .ok () ⟨ModuleNode.mk "" ss.nodes, input, ⟨[]⟩, [],
          ss.tokens ++ [⟨tokenEof, ve, q⟩]⟩ := by
  obtain ⟨N, k, h⟩ := parseLoop_stmts ss
  refine ⟨N + k + 3, ?_⟩
  intro j
  obtain ⟨t1, p1, r1, ro1, i1, l1⟩ :=
    h (N + j + 1 + 1 + 1) (by omega)
      ⟨newModuleNode, input, ⟨ss.tokens ++ [⟨tokenEof, ve, q⟩]⟩, [], []⟩ [⟨tokenEof, ve, q⟩]
      (by simp [tree.pending])
  have hfuel : N + k + 3 + j = N + j + 1 + 1 + 1 + k := by omega
  unfold Parse
  rw [hfuel, l1]
  obtain ⟨t2, g1, g2, g3, g4, g5⟩ :=
    nextNonSpace_pending [] (by simp) (N + j + 1) t1 ⟨tokenEof, ve, q⟩ [] p1 (by simp)
      (by simp)
  have hparse : tree.parse (N + j + 1 + 1) t1 = .ok Node.nil t2 := by
    rw [tree.parse, P.bind_ok g1]
    rfl
  rw [parseLoop, P.bind_ok hparse]
  change Res.ok () t2 = _
  rw [tree.eq_of_fields t2 (ModuleNode.mk "" ss.nodes) input (ss.tokens ++ [⟨tokenEof, ve, q⟩])
    (by rw [g4, ro1]; rfl) (by rw [g5, i1]) g2 (by rw [g3, r1]; simp)]

/-- C8: the else-branch of an if-node is present exactly when an else tag was
parsed. For every condition name and all runs of statements `body` and `els`,
nested ones included, in the layout of `Stmt.tokens`: with enough fuel the
stream of an if whose body is followed by an `else` tag, the statements `els`
and the `endif` tag gives one if-node whose else-branch is the module of the
nodes of `els`, present also when `els` is empty; the stream in which the
`endif` tag follows the body gives one if-node with a nil else-branch. In the
loop of `parseEndifOrElse`, whatever the whitespace inside the tag: at an `else`
tag the loop does what `parseUntilEndTag("if")` does on the state after the tag
and returns its module `m` as else-branch `some m`; at an `endif` tag it returns
a nil else-branch; so at either tag the else-branch of what the loop returns is
present if and only if the tag is the `else` tag. Conversely the else-branch `m`
of an if-node that the tag rule returns is what `parseUntilEndTag("if")`
returned on a state reached by reading an `else` tag. On the stream of
`{% if x %}A{% else %}B{% endif %}` the if-node has condition `NameExpr("x")`,
body `[TextNode("A")]` and else-branch `[TextNode("B")]`; on that of
`{% if x %}A{% endif %}` it has body `[TextNode("A")]` and a nil else-branch; on
that of `{% if x %}A{% else %}{% endif %}` the else-branch is present and
empty. -/
theorem else_branch_iff_else_tag (k : Nat) :
    (∀ (x : String) (p : Nat) (body els : Stmts) (input ve : String) (q : Nat),
      ∃ N : Nat, ∀ j : Nat,
        Parse (N + j) input
            ⟨tagTokensWith "if" p x ++ (body.tokens ++ (tagTokens "else" 0 ++
              (els.tokens ++ tagTokens "endif" 0))) ++ [⟨tokenEof, ve, q⟩]⟩
          = .ok () ⟨ModuleNode.mk ""
                [Node.ifn (Expr.name x 0) (ModuleNode.mk "" body.nodes)
                  (some (ModuleNode.mk "" els.nodes)) p],
              input, ⟨[]⟩, [],
              tagTokensWith "if" p x ++ (body.tokens ++ (tagTokens "else" 0 ++
                (els.tokens ++ tagTokens "endif" 0))) ++ [⟨tokenEof, ve, q⟩]⟩) ∧
    (∀ (x : String) (p : Nat) (body : Stmts) (input ve : String) (q : Nat),
      ∃ N : Nat, ∀ j : Nat,
        Parse (N + j) input
            ⟨tagTokensWith "if" p x ++ (body.tokens ++ tagTokens "endif" 0) ++
              [⟨tokenEof, ve, q⟩]⟩
          = .ok () ⟨ModuleNode.mk ""
                [Node.ifn (Expr.name x 0) (ModuleNode.mk "" body.nodes) none p],
              input, ⟨[]⟩, [],
              tagTokensWith "if" p x ++ (body.tokens ++ tagTokens "endif" 0) ++
                [⟨tokenEof, ve, q⟩]⟩) ∧
    (∀ (fuel : Nat) (body : ModuleNode) (t : tree) (o : token) (ws : List token) (nm : token)
        (ws2 : List token) (c : token) (rest : List token),
      t.pending = o :: (ws ++ nm :: (ws2 ++ c :: rest)) →
      o.tokenType = tokenTagOpen → (∀ w ∈ ws, w.tokenType = tokenWhitespace) →
      nm.tokenType = tokenName → nm.value = "else" →
      (∀ w ∈ ws2, w.tokenType = tokenWhitespace) → c.tokenType = tokenTagClose →
      ws.length < fuel → ws2.length < fuel →
      ∃ s, s.pending = rest ∧ s.read = t.read ++ o :: (ws ++ nm :: (ws2 ++ [c])) ∧
        tree.parseEndifOrElse (fuel + 1) body t
          = (tree.parseUntilEndTag fuel "if" newModuleNode >>= fun m => pure (body, some m)) s) ∧
    (∀ (fuel : Nat) (body : ModuleNode) (t : tree) (o : token) (ws : List token) (nm : token)
        (ws2 : List token) (c : token) (rest : List token),
      t.pending = o :: (ws ++ nm :: (ws2 ++ c :: rest)) →
      o.tokenType = tokenTagOpen → (∀ w ∈ ws, w.tokenType = tokenWhitespace) →
      nm.tokenType = tokenName → nm.value = "endif" →
      (∀ w ∈ ws2, w.tokenType = tokenWhitespace) → c.tokenType = tokenTagClose →
      ws.length < fuel → ws2.length < fuel →
      ∃ t1, tree.parseEndifOrElse (fuel + 1) body t = .ok (body, none) t1 ∧
        t1.pending = rest ∧ t1.read = t.read ++ o :: (ws ++ nm :: (ws2 ++ [c]))) ∧
    (∀ (fuel : Nat) (body : ModuleNode) (t : tree) (o : token) (ws : List token) (nm : token)
        (ws2 : List token) (c : token) (rest : List token) (b : ModuleNode)
        (els : Option ModuleNode) (t1 : tree),
      t.pending = o :: (ws ++ nm :: (ws2 ++ c :: rest)) →
      o.tokenType = tokenTagOpen → (∀ w ∈ ws, w.tokenType = tokenWhitespace) →
      nm.tokenType = tokenName → (nm.value = "else" ∨ nm.value = "endif") →
      (∀ w ∈ ws2, w.tokenType = tokenWhitespace) → c.tokenType = tokenTagClose →
      ws.length < fuel → ws2.length < fuel →
      tree.parseEndifOrElse (fuel + 1) body t = .ok (b, els) t1 →
      (els.isSome = true ↔ nm.value = "else")) ∧
    (∀ (fuel : Nat) (t : tree) (cond : Expr) (body m : ModuleNode) (pos : Nat) (t1 : tree),
      tree.parseTag fuel t = .ok (Node.ifn cond body (some m) pos) t1 →
      ∃ (r : List token) (o : token) (ws : List token) (nm : token) (ws2 : List token)
          (c : token) (f : Nat) (s : tree),
        o.tokenType = tokenTagOpen ∧ (∀ w ∈ ws, w.tokenType = tokenWhitespace) ∧
        nm.tokenType = tokenName ∧ nm.value = "else" ∧
        (∀ w ∈ ws2, w.tokenType = tokenWhitespace) ∧ c.tokenType = tokenTagClose ∧
        s.read = r ++ o :: (ws ++ nm :: (ws2 ++ [c])) ∧
        tree.parseUntilEndTag f "if" newModuleNode s = .ok m t1) ∧
    Parse (9 + k) srcIfElse ⟨tokensIfElse⟩
      = .ok () ⟨ModuleNode.mk ""
            [Node.ifn (Expr.name "x" 0) (ModuleNode.mk "" [Node.text "A" 10])
              (some (ModuleNode.mk "" [Node.text "B" 21])) 3],
          srcIfElse, ⟨[]⟩, [], tokensIfElse⟩ ∧
    Parse (7 + k) srcIfOnly ⟨tokensIfOnly⟩
      = .ok () ⟨ModuleNode.mk ""
            [Node.ifn (Expr.name "x" 0) (ModuleNode.mk "" [Node.text "A" 10]) none 3],
          srcIfOnly, ⟨[]⟩, [], tokensIfOnly⟩ ∧
    Parse (8 + k) srcIfEmptyElse ⟨tokensIfEmptyElse⟩
      = .ok () ⟨ModuleNode.mk ""
            [Node.ifn (Expr.name "x" 0) (ModuleNode.mk "" [Node.text "A" 10])
              (some (ModuleNode.mk "" [])) 3],
          srcIfEmptyElse, ⟨[]⟩, [], tokensIfEmptyElse⟩ := by
  refine ⟨?_, ?_, ?_, ?_, ?_, ?_,
    Parse_mono_ok 9 srcIfElse ⟨tokensIfElse⟩ _ (Res.eq_of_okWith 10 _ _ (by decide!)) k,
    Parse_mono_ok 7 srcIfOnly ⟨tokensIfOnly⟩ _ (Res.eq_of_okWith 10 _ _ (by decide!)) k,
    Parse_mono_ok 8 srcIfEmptyElse ⟨tokensIfEmptyElse⟩ _
      (Res.eq_of_okWith 10 _ _ (by decide!)) k⟩
  · intro x p body els input ve q
    have h := Parse_stmts (.cons (.ifElse x p body els) .nil) input ve q
    simp only [Stmts.tokens, Stmt.tokens, Stmts.nodes, Stmt.node, List.append_nil] at h
    exact h
  · intro x p body input ve q
    have h := Parse_stmts (.cons (.ifn x p body) .nil) input ve q
    simp only [Stmts.tokens, Stmt.tokens, Stmts.nodes, Stmt.node, List.append_nil] at h
    exact h
  · intro fuel body t o ws nm ws2 c rest hp ho hws hn hv hws2 hc hf hf2
    obtain ⟨s, h1, h2, _, _, h5⟩ :=
      parseEndifOrElse_else fuel body t o ws nm ws2 c rest hp ho hws hn hv hws2 hc hf hf2
    exact ⟨s, h1, h2, h5⟩
  · intro fuel body t o ws nm ws2 c rest hp ho hws hn hv hws2 hc hf hf2
    obtain ⟨t1, h1, h2, h3, _, _⟩ :=
      parseEndifOrElse_endif fuel body t o ws nm ws2 c rest hp ho hws hn hv hws2 hc hf hf2
    exact ⟨t1, h1, h2, h3⟩
  · intro fuel body t o ws nm ws2 c rest b els t1 hp ho hws hn hv hws2 hc hf hf2 h
    exact parseEndifOrElse_isSome fuel body t o ws nm ws2 c rest b els t1 hp ho hws hn hv hws2
      hc hf hf2 h
  · intro fuel t cond body m pos t1 h
    obtain ⟨f0, s0, h0⟩ := parseTag_if_inv fuel t cond body (some m) pos t1 h
    obtain ⟨r, o, ws, nm, ws2, c, g1, g2, g3, g4, g5, g6⟩ :=
      parseEndifOrElse_inv f0 newModuleNode s0 body (some m) t1 h0
    rcases g6 with ⟨_, e, _⟩ | ⟨hv, f, s, m1, e1, e2, e3⟩
    · exact Option.noConfusion e
    · have hm : m = m1 := Option.some.inj e3
      subst hm
      exact ⟨r, o, ws, nm, ws2, c, f, s, g1, g2, g3, hv, g4, g5, e1, e2⟩

/-- C8 on the buffer of `{% if x %}A{% else %}{% endif %}` after the text `A`,
where an `else` tag is pending: the loop does what `parseUntilEndTag("if")` does
after the tag, and it returns a present, empty else-branch. On the buffer of
`{% if x %}A{% endif %}` after the text `A`, where the `endif` tag is pending,
the loop returns a nil else-branch. The tag rule on
`{% if x %}A{% else %}{% endif %}` returns an if-node whose else-branch is
present, and it was returned by `parseUntilEndTag("if")` after an `else` tag. -/
theorem else_branch_iff_else_tag_witness :
    (∃ s, s.pending = tokensIfEmptyElse.drop 13 ∧
      s.read = tokensIfEmptyElse.take 8 ++ ⟨tokenTagOpen, lexTagOpen, 11⟩ ::
        ([⟨tokenWhitespace, " ", 13⟩] ++ ⟨tokenName, "else", 14⟩ ::
          ([⟨tokenWhitespace, " ", 18⟩] ++ [⟨tokenTagClose, lexTagClose, 19⟩])) ∧
      tree.parseEndifOrElse (2 + 1) (ModuleNode.mk "" [Node.text "A" 10])
          ⟨newModuleNode, srcIfEmptyElse, ⟨tokensIfEmptyElse.drop 8⟩, [],
            tokensIfEmptyElse.take 8⟩
        = (tree.parseUntilEndTag 2 "if" newModuleNode >>= fun m =>
            pure (ModuleNode.mk "" [Node.text "A" 10], some m)) s) ∧
    (∃ t1, tree.parseEndifOrElse (2 + 1) (ModuleNode.mk "" [Node.text "A" 10])
          ⟨newModuleNode, srcIfOnly, ⟨tokensIfOnly.drop 8⟩, [], tokensIfOnly.take 8⟩
        = .ok (ModuleNode.mk "" [Node.text "A" 10], none) t1 ∧
      t1.pending = tokensIfOnly.drop 13 ∧
      t1.read = tokensIfOnly.take 8 ++ ⟨tokenTagOpen, lexTagOpen, 11⟩ ::
        ([⟨tokenWhitespace, " ", 13⟩] ++ ⟨tokenName, "endif", 14⟩ ::
          ([⟨tokenWhitespace, " ", 19⟩] ++ [⟨tokenTagClose, lexTagClose, 20⟩]))) ∧
    (tree.parseEndifOrElse (3 + 1) (ModuleNode.mk "" [Node.text "A" 10])
        ⟨newModuleNode, srcIfEmptyElse, ⟨tokensIfEmptyElse.drop 8⟩, [],
          tokensIfEmptyElse.take 8⟩
      = .ok (ModuleNode.mk "" [Node.text "A" 10], some (ModuleNode.mk "" []))
          ⟨newModuleNode, srcIfEmptyElse, ⟨tokensIfEmptyElse.drop 18⟩, [],
            tokensIfEmptyElse.take 18⟩) ∧
    ((some (ModuleNode.mk "" [])).isSome = true ↔
      (⟨tokenName, "else", 14⟩ : token).value = "else") ∧
    (tree.parseTag 6
        ⟨newModuleNode, srcIfEmptyElse, ⟨tokensIfEmptyElse.drop 1⟩, [], tokensIfEmptyElse.take 1⟩
      = .ok (Node.ifn (Expr.name "x" 0) (ModuleNode.mk "" [Node.text "A" 10])
            (some (ModuleNode.mk "" [])) 3)
          ⟨newModuleNode, srcIfEmptyElse, ⟨tokensIfEmptyElse.drop 18⟩, [],
            tokensIfEmptyElse.take 18⟩) ∧
    (∃ (r : List token) (o : token) (ws : List token) (nm : token) (ws2 : List token)
        (c : token) (f : Nat) (s : tree),
      o.tokenType = tokenTagOpen ∧ (∀ w ∈ ws, w.tokenType = tokenWhitespace) ∧
      nm.tokenType = tokenName ∧ nm.value = "else" ∧
      (∀ w ∈ ws2, w.tokenType = tokenWhitespace) ∧ c.tokenType = tokenTagClose ∧
      s.read = r ++ o :: (ws ++ nm :: (ws2 ++ [c])) ∧
      tree.parseUntilEndTag f "if" newModuleNode s
        = .ok (ModuleNode.mk "" [])
            ⟨newModuleNode, srcIfEmptyElse, ⟨tokensIfEmptyElse.drop 18⟩, [],
              tokensIfEmptyElse.take 18⟩) :=
  ⟨(else_branch_iff_else_tag 0).2.2.1 2 (ModuleNode.mk "" [Node.text "A" 10])
      ⟨newModuleNode, srcIfEmptyElse, ⟨tokensIfEmptyElse.drop 8⟩, [], tokensIfEmptyElse.take 8⟩
      ⟨tokenTagOpen, lexTagOpen, 11⟩ [⟨tokenWhitespace, " ", 13⟩] ⟨tokenName, "else", 14⟩
      [⟨tokenWhitespace, " ", 18⟩] ⟨tokenTagClose, lexTagClose, 19⟩ (tokensIfEmptyElse.drop 13)
      (by decide) (by decide) (by decide) (by decide) (by decide) (by decide) (by decide)
      (by decide) (by decide),
   (else_branch_iff_else_tag 0).2.2.2.1 2 (ModuleNode.mk "" [Node.text "A" 10])
      ⟨newModuleNode, srcIfOnly, ⟨tokensIfOnly.drop 8⟩, [], tokensIfOnly.take 8⟩
      ⟨tokenTagOpen, lexTagOpen, 11⟩ [⟨tokenWhitespace, " ", 13⟩] ⟨tokenName, "endif", 14⟩
      [⟨tokenWhitespace, " ", 19⟩] ⟨tokenTagClose, lexTagClose, 20⟩ (tokensIfOnly.drop 13)
      (by decide) (by decide) (by decide) (by decide) (by decide) (by decide) (by decide)
      (by decide) (by decide),
   by decide!,
   (else_branch_iff_else_tag 0).2.2.2.2.1 3 (ModuleNode.mk "" [Node.text "A" 10])
      ⟨newModuleNode, srcIfEmptyElse, ⟨tokensIfEmptyElse.drop 8⟩, [], tokensIfEmptyElse.take 8⟩
      ⟨tokenTagOpen, lexTagOpen, 11⟩ [⟨tokenWhitespace, " ", 13⟩] ⟨tokenName, "else", 14⟩
      [⟨tokenWhitespace, " ", 18⟩] ⟨tokenTagClose, lexTagClose, 19⟩ (tokensIfEmptyElse.drop 13)
      (ModuleNode.mk "" [Node.text "A" 10]) (some (ModuleNode.mk "" []))
      ⟨newModuleNode, srcIfEmptyElse, ⟨tokensIfEmptyElse.drop 18⟩, [],
        tokensIfEmptyElse.take 18⟩
      (by decide) (by decide) (by decide) (by decide) (by decide) (by decide) (by decide)
      (by decide) (by decide) (by decide!),
   by decide!,
   (else_branch_iff_else_tag 0).2.2.2.2.2.1 6
      ⟨newModuleNode, srcIfEmptyElse, ⟨tokensIfEmptyElse.drop 1⟩, [], tokensIfEmptyElse.take 1⟩
      (Expr.name "x" 0) (ModuleNode.mk "" [Node.text "A" 10]) (ModuleNode.mk "" []) 3
      ⟨newModuleNode, srcIfEmptyElse, ⟨tokensIfEmptyElse.drop 18⟩, [],
        tokensIfEmptyElse.take 18⟩ (by decide!)⟩

/-- C16 (the code departs from the claim): bodies do not nest on every stream.
On the stream of `{% if x %}{%if y%}A{% endif %}B{% endif %}`, in which the name
`if` follows the inner tag-open directly, the three calls of `backup()` un-read
the tag-close of the outer tag as well, the statement rule reads it again and
`Parse` panics with a parse error near it: no tree is returned. The same holds
of `{% block a %}{%block b%}x{% endblock %}y{% endblock %}`. With one whitespace
token after each tag-open the stream of
`{% if x %}{% if y %}A{% endif %}B{% endif %}` gives one if-node on `x` whose
body is the if-node on `y` (body `[TextNode("A")]`, no else) followed by
`TextNode("B")`, and for every template of text, print, block and if
statements, nested to any depth, in the layout of `Stmt.tokens`, `Parse` returns
the tree in which every statement is a child of the body or else-branch that it
stands in. -/
theorem nesting_fails_without_space (k : Nat) :
    Parse (6 + k) srcTightNestedIf ⟨tokensTightNestedIf⟩
      = .panic (.parseErrorNear lexTagClose) ∧
    Parse (6 + k) srcTightBlockInBlock ⟨tokensTightBlockInBlock⟩
      = .panic (.parseErrorNear lexTagClose) ∧
    Parse (10 + k) srcNestedIf ⟨tokensNestedIf⟩
      = .ok () ⟨ModuleNode.mk ""
            [Node.ifn (Expr.name "x" 0)
              (ModuleNode.mk ""
                [Node.ifn (Expr.name "y" 0) (ModuleNode.mk "" [Node.text "A" 20]) none 13,
                 Node.text "B" 32])
              none 3],
          srcNestedIf, ⟨[]⟩, [], tokensNestedIf⟩ ∧
    (∀ (ss : Stmts) (input ve : String) (q : Nat), ∃ N : Nat, ∀ j : Nat,
      Parse (N + j) input ⟨ss.tokens ++ [⟨tokenEof, ve, q⟩]⟩
        = .ok () ⟨ModuleNode.mk "" ss.nodes, input, ⟨[]⟩, [],
            ss.tokens ++ [⟨tokenEof, ve, q⟩]⟩) :=
  ⟨Parse_mono 6 srcTightNestedIf ⟨tokensTightNestedIf⟩ _ (by decide!)
      (fun h => Res.noConfusion h) k,
    Parse_mono 6 srcTightBlockInBlock ⟨tokensTightBlockInBlock⟩ _ (by decide!)
      (fun h => Res.noConfusion h) k,
    (Parse_nested k).1,
    fun ss input ve q => Parse_stmts ss input ve q⟩

/-! ## The claims on the visitor -/

mutual
theorem walkCheckedNode_eq (s : List String) (hs : s ≠ []) : ∀ n : Node,
    walkCheckedNode { stack := s } n = some ({ stack := s }, mapPrintsNode escapeCall s n)
  | .nil => rfl
  | .text _ _ => rfl
  | .print x pos => by
    have hl : ¬ s.length = 0 := fun h => hs (List.length_eq_zero.1 h)
    simp only [walkCheckedNode, autoEscapeVisitor.EnterChecked, hl, if_false,
      autoEscapeVisitor.Enter, autoEscapeVisitor.Leave, mapPrintsNode, current_eq_scopeLabel,
      NewFilterExpr, NewStringExpr, escapeCall, Option.map_some']
  | .module m => by
    simp only [walkCheckedNode, walkCheckedModule_eq s m, mapPrintsNode, Option.map_some']
  | .block name body origin pos => by
    simp only [walkCheckedNode, autoEscapeVisitor.EnterChecked, autoEscapeVisitor.Enter,
      autoEscapeVisitor.push, walkCheckedModule_eq (s ++ [guessTypeFromName origin]) body,
      autoEscapeVisitor.Leave, pop_push, mapPrintsNode, Option.map_some']
  | .ifn cond body els pos => by
    simp only [walkCheckedNode, autoEscapeVisitor.EnterChecked, autoEscapeVisitor.Enter,
      walkCheckedModule_eq s body, walkCheckedElse_eq s els, autoEscapeVisitor.Leave,
      mapPrintsNode, Option.map_some']
theorem walkCheckedModule_eq (s : List String) : ∀ m : ModuleNode,
    walkCheckedModule { stack := s } m = some ({ stack := s }, mapPrintsModule escapeCall s m)
  | .mk origin nodes => by
    simp only [walkCheckedModule, autoEscapeVisitor.EnterChecked, autoEscapeVisitor.Enter,
      autoEscapeVisitor.push, ModuleNode.Origin,
      walkCheckedList_eq (s ++ [guessTypeFromName origin]) (by simp) nodes,
      autoEscapeVisitor.Leave, pop_push, mapPrintsModule, Option.map_some']
theorem walkCheckedElse_eq (s : List String) : ∀ e : Option ModuleNode,
    walkCheckedElse { stack := s } e = some ({ stack := s }, mapPrintsElse escapeCall s e)
  | none => rfl
  | some m => by
    simp only [walkCheckedElse, walkCheckedModule_eq s m, mapPrintsElse, Option.map_some']
theorem walkCheckedList_eq (s : List String) (hs : s ≠ []) : ∀ ns : List Node,
    walkCheckedList { stack := s } ns = some ({ stack := s }, mapPrintsList escapeCall s ns)
  | [] => rfl
  | n :: ns => by
    simp only [walkCheckedList, walkCheckedNode_eq s hs n, walkCheckedList_eq s hs ns,
      mapPrintsList]
end

mutual
theorem mapPrintsNode_id (s : List String) : ∀ n : Node,
    mapPrintsNode (fun _ e => e) s n = n
  | .nil => rfl
  | .text _ _ => rfl
  | .print _ _ => rfl
  | .module m => by
    simp only [mapPrintsNode, mapPrintsModule_id s m]
  | .block name body origin pos => by
    simp only [mapPrintsNode, mapPrintsModule_id _ body]
  | .ifn cond body els pos => by
    simp only [mapPrintsNode, mapPrintsModule_id s body, mapPrintsElse_id s els]
theorem mapPrintsModule_id (s : List String) : ∀ m : ModuleNode,
    mapPrintsModule (fun _ e => e) s m = m
  | .mk origin nodes => by
    simp only [mapPrintsModule, mapPrintsList_id _ nodes]
theorem mapPrintsElse_id (s : List String) : ∀ e : Option ModuleNode,
    mapPrintsElse (fun _ e => e) s e = e
  | none => rfl
  | some m => by
    simp only [mapPrintsElse, mapPrintsModule_id s m]
theorem mapPrintsList_id (s : List String) : ∀ ns : List Node,
    mapPrintsList (fun _ e => e) s ns = ns
  | [] => rfl
  | n :: ns => by
    simp only [mapPrintsList, mapPrintsNode_id s n, mapPrintsList_id s ns]
end

/-- C17: the stack is balanced. `Enter` and `Leave` of a nil, text, print or
if-node leave the stack as it is; `Enter` of a module or block appends exactly
one label, the one guessed from its origin, and `Leave` of a module or block
removes exactly the last label, so `Leave` after `Enter` gives the stack back;
and for every tree and every initial stack `s` the full walk ends with the
stack equal to `s`. -/
theorem visitor_stack_balanced :
    (∀ v : autoEscapeVisitor, (v.Enter .nil).1 = v ∧ v.Leave .nil = some v) ∧
    (∀ (v : autoEscapeVisitor) (value : String) (pos : Nat),
      (v.Enter (.text value pos)).1 = v ∧ v.Leave (.text value pos) = some v) ∧
    (∀ (v : autoEscapeVisitor) (x : Expr) (pos : Nat),
      (v.Enter (.print x pos)).1 = v ∧ v.Leave (.print x pos) = some v) ∧
    (∀ (v : autoEscapeVisitor) (cond : Expr) (body : ModuleNode) (els : Option ModuleNode)
        (pos : Nat),
      (v.Enter (.ifn cond body els pos)).1 = v ∧ v.Leave (.ifn cond body els pos) = some v) ∧
    (∀ (s : List String) (m : ModuleNode),
      (autoEscapeVisitor.Enter { stack := s } (.module m)).1
        = { stack := s ++ [guessTypeFromName m.Origin] }) ∧
    (∀ (s : List String) (name : Expr) (body : ModuleNode) (origin : String) (pos : Nat),
      (autoEscapeVisitor.Enter { stack := s } (.block name body origin pos)).1
        = { stack := s ++ [guessTypeFromName origin] }) ∧
    (∀ (s : List String) (L : String) (m : ModuleNode),
      autoEscapeVisitor.Leave { stack := s ++ [L] } (.module m) = some { stack := s }) ∧
    (∀ (s : List String) (L : String) (name : Expr) (body : ModuleNode) (origin : String)
        (pos : Nat),
      autoEscapeVisitor.Leave { stack := s ++ [L] } (.block name body origin pos)
        = some { stack := s }) ∧
    (∀ (s : List String) (n : Node),
      ∃ n1, walkNode { stack := s } n = some ({ stack := s }, n1)) :=
  ⟨fun _ => ⟨rfl, rfl⟩, fun _ _ _ => ⟨rfl, rfl⟩, fun _ _ _ => ⟨rfl, rfl⟩,
    fun _ _ _ _ _ => ⟨rfl, rfl⟩, fun _ _ => rfl, fun _ _ _ _ _ => rfl,
    fun s L _ => pop_push s L, fun s L _ _ _ _ => pop_push s L,
    fun s n => ⟨_, walkNode_eq s n⟩⟩

/-- C18: for every tree whose root is a module node, the walk from an empty
stack is the checked walk, in which entering a print node on an empty stack is a
failure, and it ends normally with an empty stack: no print node is entered on
an empty stack and no `Leave` pops an empty stack. The check is not idle: on a
bare print node the checked walk fails, where the walk takes the blank label. -/
theorem walk_never_on_empty_stack (origin : String) (nodes : List Node) :
    walkCheckedNode { stack := [] } (.module (.mk origin nodes))
      = AutoEscape (.module (.mk origin nodes)) ∧
    (∃ n1, AutoEscape (.module (.mk origin nodes)) = some ({ stack := [] }, n1)) ∧
    (∀ (e : Expr) (pos : Nat),
      walkCheckedNode { stack := [] } (.print e pos) = none ∧
      AutoEscape (.print e pos) = some ({ stack := [] }, .print (escapeCall "" e) pos)) := by
  refine ⟨?_, ⟨_, walkNode_eq [] _⟩, fun e pos => ⟨rfl, rfl⟩⟩
  unfold AutoEscape
  rw [walkNode_eq [] _]
  simp only [walkCheckedNode, walkCheckedModule_eq [] _, mapPrintsNode, Option.map_some']

/-- C19: the visitor rewrites only the expression of print nodes. `Enter`
returns a nil, text, module, block or if-node as it was given (origin, name,
condition and child lists included); of a print node it keeps the position and
replaces the expression `x` by a filter expression whose first argument is `x`
itself. `Leave` has no access to the node in the embedding, as it assigns to
none of its fields in `escape.go`. For every tree and stack the walk returns
`mapPrintsNode escapeCall`, and `mapPrintsNode` touches nothing but the
expressions of print nodes: with the identity on expressions it returns the
tree as it was. -/
theorem visitor_rewrites_print_only (v : autoEscapeVisitor) :
    (v.Enter .nil).2 = .nil ∧
    (∀ (value : String) (pos : Nat), (v.Enter (.text value pos)).2 = .text value pos) ∧
    (∀ m : ModuleNode, (v.Enter (.module m)).2 = .module m) ∧
    (∀ (name : Expr) (body : ModuleNode) (origin : String) (pos : Nat),
      (v.Enter (.block name body origin pos)).2 = .block name body origin pos) ∧
    (∀ (cond : Expr) (body : ModuleNode) (els : Option ModuleNode) (pos : Nat),
      (v.Enter (.ifn cond body els pos)).2 = .ifn cond body els pos) ∧
    (∀ (x : Expr) (pos : Nat),
      (v.Enter (.print x pos)).2
        = .print (Expr.filter "escape" [x, Expr.string v.current x.Start] x.Start) pos) ∧
    (∀ n : Node,
      walkNode v n = some (v, mapPrintsNode escapeCall v.stack n) ∧
      mapPrintsNode (fun _ e => e) v.stack n = n) :=
  ⟨rfl, fun _ _ => rfl, fun _ => rfl, fun _ _ _ _ => rfl, fun _ _ _ _ => rfl, fun _ _ => rfl,
    fun n => ⟨walkNode_eq v.stack n, mapPrintsNode_id v.stack n⟩⟩


theorem guessTypeFromName_of_no_dot (name : String)
    (h : '.' ∉ (TrimSuffix name ".twig").data) : guessTypeFromName name = "html" := by
  unfold guessTypeFromName LastIndex
  simp only
  rw [lastIndexLoop_absent _ _ h]
  rfl

theorem lookupEscaper_of_dot (rest : List Char) :
    lookupEscaper (String.mk ('.' :: rest)) = none := by
  have key : ∀ k : String, k.data.head? ≠ some '.' → (String.mk ('.' :: rest) == k) = false := by
    intro k hk
    rw [beq_eq_false_iff_ne]
    intro e
    apply hk
    rw [← e]
    rfl
  simp only [lookupEscaper, NewAutoEscapeExtension, List.lookup]
  rw [key "html" (by decide), key "html_attr" (by decide), key "js" (by decide),
    key "css" (by decide), key "url" (by decide)]

/-- C20: for every origin name the label that `guessTypeFromName` returns is not
empty, and it is a key of the registry built by `NewAutoEscapeExtension` if and
only if it is `"html"`: the lookup of the label finds the html escaper when the
label is `"html"` and nothing otherwise, so the html escaper is the only one a
label guessed from an origin name can select. -/
theorem guessTypeFromName_registry (name : String) :
    guessTypeFromName name ≠ "" ∧
    ((lookupEscaper (guessTypeFromName name)).isSome = true ↔ guessTypeFromName name = "html") ∧
    (∀ e : Escaper, lookupEscaper (guessTypeFromName name) = some e → e = .HTML) := by
  by_cases h : '.' ∈ (TrimSuffix name ".twig").data
  · obtain ⟨pre, rest, _, _, hg⟩ := guessTypeFromName_of_dot name h
    rw [hg, lookupEscaper_of_dot]
    refine ⟨?_, ⟨fun h1 => by simp at h1, fun h1 => ?_⟩, fun e h1 => by simp at h1⟩
    · intro e
      have := congrArg String.data e
      simp at this
    · exfalso
      have h2 : (String.mk ('.' :: rest)).data.head? = ("html" : String).data.head? := by
        rw [h1]
      have h3 : ("html" : String).data.head? = some 'h' := by decide
      rw [h3] at h2
      change some '.' = some 'h' at h2
      exact absurd h2 (by decide)
  · rw [guessTypeFromName_of_no_dot name h]
    exact ⟨by decide, ⟨fun _ => rfl, fun _ => by decide⟩,
      fun e h1 => by
        have h2 : lookupEscaper "html" = some Escaper.HTML := by decide
        rw [h2] at h1
        exact (Option.some.inj h1).symm⟩

end Stick
